import Mathlib

set_option maxHeartbeats 1000000
set_option maxRecDepth 100000

namespace NTv2

/-!
Shallow embedding of `generate_optimized_file` and the layout-mode logic of
`create_unoptimized_file` from `ntv2_to_gtiff.py`.  The input file is a list
of bytes, the output file is a list of bytes together with a write cursor
(Python file semantics: writing overwrites in place, extends at the end, and
zero-fills any gap created by seeking past the end).  Fatal aborts
(assertions, struct errors, KeyError/AttributeError/IndexError) are the
error side of `Except`.
-/

/-! Byte-level primitives -/

def byteAt : List Nat → Nat → Nat
  | [], _ => 0
  | b :: _, 0 => b
  | _ :: rest, n + 1 => byteAt rest n

/-- Python `f.read(n)` at position `pos`: returns up to `n` bytes. -/
def readRaw (inp : List Nat) (pos n : Nat) : List Nat :=
  (inp.drop pos).take n

/-- Overwrite `bs` into `l` at position `pos`, zero-padding any gap. -/
def writeList (l : List Nat) (pos : Nat) (bs : List Nat) : List Nat :=
  let l2 := l ++ List.replicate (pos - l.length) 0
  l2.take pos ++ bs ++ l2.drop (pos + bs.length)

def le16 (v : Nat) : List Nat := [v % 256, v / 256 % 256]

def le32 (v : Nat) : List Nat :=
  [v % 256, v / 256 % 256, v / 65536 % 256, v / 16777216 % 256]

inductive ConvError where
  | badSignature
  | structError
  | unknownTagType (t : Nat)
  | assertHintLen
  | strileCountMismatch (a b : Nat)
  | strileCountNotDivisible
  | offsetOverflow (v : Nat)
  | unpackTypeUnsupported
  | keyError (k : Nat)
  | attrError
  | indexError
  | packOverflow
  | outOfFuel
deriving DecidableEq, Repr

/-- `struct.unpack('<H', bs)`. -/
def rd16 : List Nat → Except ConvError Nat
  | [a, b] => .ok (a + 256 * b)
  | _ => .error .structError

/-- `struct.unpack('<I', bs)`. -/
def rd32 : List Nat → Except ConvError Nat
  | [a, b, c, d] => .ok (a + 256 * b + 65536 * c + 16777216 * d)
  | _ => .error .structError

structure OutFile where
  data : List Nat
  pos : Nat
deriving DecidableEq, Repr

def OutFile.write (f : OutFile) (bs : List Nat) : OutFile :=
  ⟨writeList f.data f.pos bs, f.pos + bs.length⟩

def OutFile.tell (f : OutFile) : Nat := f.pos

def OutFile.seek (f : OutFile) (p : Nat) : OutFile := ⟨f.data, p⟩

def OutFile.seekEnd (f : OutFile) : OutFile := ⟨f.data, f.data.length⟩

/-- `out_f.write(struct.pack('<H', v))`. -/
def OutFile.w16 (f : OutFile) (v : Nat) : Except ConvError OutFile :=
  if v < 65536 then .ok (f.write (le16 v)) else .error .packOverflow

/-- `out_f.write(struct.pack('<I', v))`. -/
def OutFile.w32 (f : OutFile) (v : Nat) : Except ConvError OutFile :=
  if v < 4294967296 then .ok (f.write (le32 v)) else .error .packOverflow

/-! TIFF constants, from the body of `generate_optimized_file` -/

def TIFF_BYTE : Nat := 1
def TIFF_ASCII : Nat := 2
def TIFF_SHORT : Nat := 3
def TIFF_LONG : Nat := 4
def TIFF_RATIONAL : Nat := 5
def TIFF_SBYTE : Nat := 6
def TIFF_UNDEFINED : Nat := 7
def TIFF_SSHORT : Nat := 8
def TIFF_SLONG : Nat := 9
def TIFF_SRATIONAL : Nat := 10
def TIFF_FLOAT : Nat := 11
def TIFF_DOUBLE : Nat := 12
def TIFF_IFD : Nat := 13
def TIFF_LONG8 : Nat := 16
def TIFF_SLONG8 : Nat := 17
def TIFF_IFD8 : Nat := 18

def TIFFTAG_STRIPOFFSETS : Nat := 273
def TIFFTAG_STRIPBYTECOUNTS : Nat := 279
def TIFFTAG_TILEOFFSETS : Nat := 324
def TIFFTAG_TILEBYTECOUNTS : Nat := 325
def TIFFTAG_GDAL_METADATA : Nat := 42112

/-- The `typesize` dictionary; `none` models a `KeyError` on lookup. -/
def typesize (t : Nat) : Option Nat :=
  if t = TIFF_BYTE then some 1
  else if t = TIFF_ASCII then some 1
  else if t = TIFF_SHORT then some 2
  else if t = TIFF_LONG then some 4
  else if t = TIFF_RATIONAL then some 8
  else if t = TIFF_SBYTE then some 1
  else if t = TIFF_UNDEFINED then some 1
  else if t = TIFF_SSHORT then some 2
  else if t = TIFF_SLONG then some 4
  else if t = TIFF_SRATIONAL then some 8
  else if t = TIFF_FLOAT then some 4
  else if t = TIFF_DOUBLE then some 8
  else if t = TIFF_IFD then some 4
  else if t = TIFF_LONG8 then some 8
  else if t = TIFF_SLONG8 then some 8
  else if t = TIFF_IFD8 then some 8
  else none

/-! The `OfflineTag` class -/

structure OfflineTag where
  tagtype : Nat
  nvalues : Nat
  data : List Nat
  fileoffset_in_out_ifd : Nat
deriving DecidableEq, Repr

/-- Split `n` little-endian values of width `w` bytes off the front of `bs`. -/
def unpackValsN (w : Nat) : Nat → List Nat → List Nat
  | 0, _ => []
  | n + 1, bs => (bs.take w).reverse.foldl (fun acc b => 256 * acc + b) 0
      :: unpackValsN w n (bs.drop w)

/-- `OfflineTag.unpack_array`: `struct.unpack` of a SHORT or LONG array;
any other type hits `assert False`. -/
def OfflineTag.unpack_array (t : OfflineTag) : Except ConvError (List Nat) :=
  if t.tagtype = TIFF_SHORT then
    if t.data.length = 2 * t.nvalues then .ok (unpackValsN 2 t.nvalues t.data)
    else .error .structError
  else if t.tagtype = TIFF_LONG then
    if t.data.length = 4 * t.nvalues then .ok (unpackValsN 4 t.nvalues t.data)
    else .error .structError
  else .error .unpackTypeUnsupported

/-! Python `dict` with insertion-order iteration, keyed by tag id
(`tagdict`) resp. by exact byte content (`offlinedata_to_offset`). -/

def dictInsert (d : List (Nat × OfflineTag)) (k : Nat) (v : OfflineTag) :
    List (Nat × OfflineTag) :=
  match d with
  | [] => [(k, v)]
  | (k2, v2) :: rest =>
    if k2 = k then (k, v) :: rest else (k2, v2) :: dictInsert rest k v

def dictFind (d : List (Nat × OfflineTag)) (k : Nat) : Option OfflineTag :=
  match d with
  | [] => none
  | (k2, v) :: rest => if k2 = k then some v else dictFind rest k

def dictMem (d : List (Nat × OfflineTag)) (k : Nat) : Bool :=
  (dictFind d k).isSome

def cacheInsert (c : List (List Nat × Nat)) (k : List Nat) (v : Nat) :
    List (List Nat × Nat) :=
  match c with
  | [] => [(k, v)]
  | (k2, v2) :: rest =>
    if k2 = k then (k, v) :: rest else (k2, v2) :: cacheInsert rest k v

def cacheFind (c : List (List Nat × Nat)) (k : List Nat) : Option Nat :=
  match c with
  | [] => none
  | (k2, v) :: rest => if k2 = k then some v else cacheFind rest k

/-- `tagdict[k]` with a `KeyError` when absent. -/
def getTag (d : List (Nat × OfflineTag)) (k : Nat) : Except ConvError OfflineTag :=
  match dictFind d k with
  | some t => Except.ok t
  | none => Except.error (.keyError k)

def listGet (l : List Nat) (i : Nat) : Except ConvError Nat :=
  match l.get? i with
  | some v => Except.ok v
  | none => Except.error .indexError

def listSetE (l : List Nat) (i v : Nat) : Except ConvError (List Nat) :=
  if i < l.length then .ok (l.set i v) else .error .indexError

/-! Pass 1: the per-directory loop of `generate_optimized_file` -/

def reuse_offlinedata : Bool := true

def isStrileTag (id : Nat) : Bool :=
  id = TIFFTAG_STRIPOFFSETS || id = TIFFTAG_STRIPBYTECOUNTS ||
  id = TIFFTAG_TILEOFFSETS || id = TIFFTAG_TILEBYTECOUNTS

def isOffsetsTag (id : Nat) : Bool :=
  id = TIFFTAG_STRIPOFFSETS || id = TIFFTAG_TILEOFFSETS

structure TagLoopState where
  inPos : Nat
  out : OutFile
  tagdict : List (Nat × OfflineTag)
deriving DecidableEq, Repr

/-- One iteration of the `for i in range(numtags)` loop: read one 12-byte
field record, resolve it inline / dedup-hit / placeholder. -/
def processOneTag (inp : List Nat) (cache : List (List Nat × Nat))
    (st : TagLoopState) : Except ConvError TagLoopState := do
  let tagid ← rd16 (readRaw inp st.inPos 2)
  let tagtype ← rd16 (readRaw inp (st.inPos + 2) 2)
  let tagnvalues ← rd32 (readRaw inp (st.inPos + 4) 4)
  let tagvalueoroffset ← rd32 (readRaw inp (st.inPos + 8) 4)
  let inPos := st.inPos + 12
  match typesize tagtype with
  | none => Except.error (.unknownTagType tagtype)
  | some tsz =>
    let tagvalsize := tsz * tagnvalues
    let out ← st.out.w16 tagid
    let out ← out.w16 tagtype
    let out ← out.w32 tagnvalues
    if tagvalsize ≤ 4 then do
      let out ← out.w32 tagvalueoroffset
      Except.ok ⟨inPos, out, st.tagdict⟩
    else
      let tagdata := readRaw inp tagvalueoroffset tagvalsize
      match (if reuse_offlinedata then cacheFind cache tagdata else none) with
      | some off => do
        let out ← out.w32 off
        Except.ok ⟨inPos, out, st.tagdict⟩
      | none => do
        let tagdict := dictInsert st.tagdict tagid
          ⟨tagtype, tagnvalues, tagdata, out.tell⟩
        let out ← out.w32 3735928559
        Except.ok ⟨inPos, out, tagdict⟩

def processTags (inp : List Nat) (cache : List (List Nat × Nat)) :
    Nat → TagLoopState → Except ConvError TagLoopState
  | 0, st => Except.ok st
  | n + 1, st => do
    let st2 ← processOneTag inp cache st
    processTags inp cache n st2

/-- One entry of the loop writing the data of all out-of-line tags, except
strile arrays and, beyond the first directory, the GDAL metadata. -/
def writeOfflineEntry (numPrevIfds : Nat) (out : OutFile)
    (cache : List (List Nat × Nat)) (id : Nat) (tag : OfflineTag) :
    Except ConvError (OutFile × List (List Nat × Nat)) :=
  if isStrileTag id then Except.ok (out, cache)
  else if id = TIFFTAG_GDAL_METADATA && numPrevIfds ≠ 0 then Except.ok (out, cache)
  else do
    let cur_pos := out.tell
    let out := out.seek tag.fileoffset_in_out_ifd
    let out ← out.w32 cur_pos
    let out := out.seek cur_pos
    let out := out.write tag.data
    let cache := if reuse_offlinedata then cacheInsert cache tag.data cur_pos
      else cache
    Except.ok (out, cache)

def writeOfflineData (numPrevIfds : Nat) :
    List (Nat × OfflineTag) → OutFile → List (List Nat × Nat) →
    Except ConvError (OutFile × List (List Nat × Nat))
  | [], out, c => Except.ok (out, c)
  | (id, tag) :: rest, out, c => do
    let (out2, c2) ← writeOfflineEntry numPrevIfds out c id tag
    writeOfflineData numPrevIfds rest out2 c2

/-- Lines 405-411: pad the write cursor to an even position and patch the
previous next-directory pointer with the new directory start. -/
def alignIfdStart (out : OutFile) (next_ifd_offset_out_offset : Nat) :
    Except ConvError (OutFile × Nat) := do
  let cur_pos := out.tell
  let (out, cur_pos) :=
    if cur_pos % 2 = 1 then (out.write [0], cur_pos + 1) else (out, cur_pos)
  let out := out.seek next_ifd_offset_out_offset
  let out ← out.w32 cur_pos
  let out := out.seek cur_pos
  Except.ok (out, cur_pos)

structure IFD1 where
  tagdict : List (Nat × OfflineTag)
deriving DecidableEq, Repr

structure IfdRec where
  start : Nat
  numtags : Nat
  nextPtrPos : Nat
deriving DecidableEq, Repr

structure Pass1State where
  out : OutFile
  next_ifd_offset_out_offset : Nat
  cache : List (List Nat × Nat)
  ifds : List IFD1
  recs : List IfdRec
deriving DecidableEq, Repr

/-- The `while next_ifd_offset != 0` loop, with explicit fuel. -/
def pass1 (inp : List Nat) : Nat → Nat → Pass1State → Except ConvError Pass1State
  | _, 0, st => Except.ok st
  | 0, _ + 1, _ => Except.error .outOfFuel
  | fuel + 1, nio + 1, st => do
    let (out, cur_pos) ← alignIfdStart st.out st.next_ifd_offset_out_offset
    let numtags ← rd16 (readRaw inp (nio + 1) 2)
    let out ← out.w16 numtags
    let tls ← processTags inp st.cache numtags ⟨nio + 1 + 2, out, []⟩
    let next2 ← rd32 (readRaw inp tls.inPos 4)
    let ptrPos := tls.out.tell
    let out ← tls.out.w32 3735928559
    let (out, cache) ← writeOfflineData st.ifds.length tls.tagdict out st.cache
    pass1 inp fuel next2
      ⟨out, ptrPos, cache, st.ifds ++ [⟨tls.tagdict⟩],
        st.recs ++ [⟨cur_pos, numtags, ptrPos⟩]⟩

/-! Fixed banner and metadata-size hint -/

def tiffSignature : List Nat := [73, 73, 42, 0]

/-- ASCII bytes of the banner written after the header. -/
def bannerBytes : List Nat :=
  [10, 45, 45, 32, 71, 101, 110, 101, 114, 97, 116, 101, 100, 32, 98, 121,
   32, 110, 116, 118, 50, 95, 116, 111, 95, 103, 116, 105, 102, 102, 46,
   112, 121, 32, 118, 49, 46, 48, 32, 45, 45, 10]

/-- ASCII bytes of the leading text of the hint line. -/
def hintHead : List Nat :=
  [45, 45, 32, 77, 101, 116, 97, 100, 97, 116, 97, 32, 115, 105, 122, 101,
   58, 32]

def hintTail : List Nat := [32, 45, 45, 10]

def dummy_metadata_hint : List Nat :=
  hintHead ++ [88, 88, 88, 88, 88, 88] ++ hintTail

/-- Decimal digit characters of `n`, most significant first. -/
def decCharsAux : Nat → Nat → List Nat
  | 0, _ => []
  | fuel + 1, n =>
    if n < 10 then [48 + n]
    else decCharsAux fuel (n / 10) ++ [48 + n % 10]

def decChars (n : Nat) : List Nat := decCharsAux (n + 1) n

/-- Python `'%06d' % n`. -/
def fmt06 (n : Nat) : List Nat :=
  List.replicate (6 - (decChars n).length) 48 ++ decChars n

/-! Passes 2-5 -/

structure IFD2 where
  tagdict : List (Nat × OfflineTag)
  offset_out_offsets : Option Nat
deriving DecidableEq, Repr

/-- One entry of the "write strile bytecounts and dummy offsets" loop. -/
def strileArrayEntry (out : OutFile) (ooo : Option Nat) (id : Nat)
    (tag : OfflineTag) : Except ConvError (OutFile × Option Nat) :=
  if !isStrileTag id then Except.ok (out, ooo)
  else do
    let cur_pos := out.tell
    let out := out.seek tag.fileoffset_in_out_ifd
    let out ← out.w32 cur_pos
    let out := out.seek cur_pos
    if isOffsetsTag id then
      let ooo := some out.tell
      Except.ok (out.write (List.replicate tag.data.length 0), ooo)
    else
      Except.ok (out.write tag.data, ooo)

def strileArrayLoop : List (Nat × OfflineTag) → OutFile → Option Nat →
    Except ConvError (OutFile × Option Nat)
  | [], out, ooo => Except.ok (out, ooo)
  | (id, tag) :: rest, out, ooo => do
    let (out2, ooo2) ← strileArrayEntry out ooo id tag
    strileArrayLoop rest out2 ooo2

def pass2 : List IFD1 → OutFile → Except ConvError (List IFD2 × OutFile)
  | [], out => Except.ok ([], out)
  | ifd :: rest, out => do
    let (out2, ooo) ← strileArrayLoop ifd.tagdict out none
    let (l, out3) ← pass2 rest out2
    Except.ok (⟨ifd.tagdict, ooo⟩ :: l, out3)

/-- Write the GDAL metadata of one directory after the first. -/
def writeGdalOne (out : OutFile) (ifd : IFD2) : Except ConvError OutFile :=
  match dictFind ifd.tagdict TIFFTAG_GDAL_METADATA with
  | none => Except.ok out
  | some tag => do
    let cur_pos := out.tell
    let out := out.seek tag.fileoffset_in_out_ifd
    let out ← out.w32 cur_pos
    let out := out.seek cur_pos
    Except.ok (out.write tag.data)

def pass3 : List IFD2 → OutFile → Except ConvError OutFile
  | [], out => Except.ok out
  | ifd :: rest, out => do
    let out2 ← writeGdalOne out ifd
    pass3 rest out2

structure IFD3 where
  tagdict : List (Nat × OfflineTag)
  offset_out_offsets : Option Nat
  num_striles : Nat
  num_striles_per_band : Nat
  strile_offset_in : List Nat
  strile_length_in : List Nat
  strile_offset_out : List Nat
deriving DecidableEq, Repr

/-- Linearisation of `for i in range(num_striles_per_band): for iband in
bands: idx_strile = num_striles_per_band * iband + i`. -/
def strileIdxs (nspb : Nat) (bands : List Nat) : List Nat :=
  ((List.range nspb).map (fun i => bands.map (fun b => nspb * b + i))).flatten

/-- Copy the pixel payload segments listed in `idxs` from input to output,
recording each segment's new offset positionally. -/
def copyStriles (inp : List Nat) (offsIn lensIn : List Nat) :
    List Nat → List Nat → OutFile → Except ConvError (List Nat × OutFile)
  | [], offsOut, out => Except.ok (offsOut, out)
  | idx :: rest, offsOut, out => do
    let oin ← listGet offsIn idx
    let len ← listGet lensIn idx
    let data := readRaw inp oin len
    let offsOut2 ← listSetE offsOut idx out.tell
    copyStriles inp offsIn lensIn rest offsOut2 (out.write data)

/-- Lines 516-529: resolve the strile offset/bytecount arrays of one
directory out of its tag dictionary. -/
def resolveStriles (ifd : IFD2) : Except ConvError (Nat × List Nat × List Nat) := do
  if dictMem ifd.tagdict TIFFTAG_STRIPOFFSETS then do
    let toff ← getTag ifd.tagdict TIFFTAG_STRIPOFFSETS
    let tcnt ← getTag ifd.tagdict TIFFTAG_STRIPBYTECOUNTS
    if toff.nvalues = tcnt.nvalues then do
      let offs ← toff.unpack_array
      let lens ← tcnt.unpack_array
      Except.ok (toff.nvalues, offs, lens)
    else Except.error (.strileCountMismatch toff.nvalues tcnt.nvalues)
  else do
    let toff ← getTag ifd.tagdict TIFFTAG_TILEOFFSETS
    let tcnt ← getTag ifd.tagdict TIFFTAG_TILEBYTECOUNTS
    if toff.nvalues = tcnt.nvalues then do
      let offs ← toff.unpack_array
      let lens ← tcnt.unpack_array
      Except.ok (toff.nvalues, offs, lens)
    else Except.error (.strileCountMismatch toff.nvalues tcnt.nvalues)

/-- One directory of the "first lat offset, long offset interleaved" loop. -/
def pixelPrimaryOne (inp : List Nat) (nbands : Nat) (ifd : IFD2)
    (out : OutFile) : Except ConvError (IFD3 × OutFile) := do
  let trip ← resolveStriles ifd
  let (num_striles, offsIn, lensIn) := trip
  if num_striles % nbands = 0 then do
    let nspb := num_striles / nbands
    let offsOut := List.replicate num_striles 0
    let (offsOut2, out2) ←
      copyStriles inp offsIn lensIn (strileIdxs nspb [0, 1]) offsOut out
    Except.ok (⟨ifd.tagdict, ifd.offset_out_offsets, num_striles, nspb,
      offsIn, lensIn, offsOut2⟩, out2)
  else Except.error .strileCountNotDivisible

def pixelPrimary (inp : List Nat) (nbands : Nat) :
    List IFD2 → OutFile → Except ConvError (List IFD3 × OutFile)
  | [], out => Except.ok ([], out)
  | ifd :: rest, out => do
    let (ifd3, out2) ← pixelPrimaryOne inp nbands ifd out
    let (l, out3) ← pixelPrimary inp nbands rest out2
    Except.ok (ifd3 :: l, out3)

/-- One directory of the "And then the errors" loop. -/
def pixelErrorsOne (inp : List Nat) (ifd : IFD3) (out : OutFile) :
    Except ConvError (IFD3 × OutFile) := do
  let (offsOut, out2) ← copyStriles inp ifd.strile_offset_in
    ifd.strile_length_in (strileIdxs ifd.num_striles_per_band [2, 3])
    ifd.strile_offset_out out
  Except.ok ({ ifd with strile_offset_out := offsOut }, out2)

def pixelErrors (inp : List Nat) :
    List IFD3 → OutFile → Except ConvError (List IFD3 × OutFile)
  | [], out => Except.ok ([], out)
  | ifd :: rest, out => do
    let (ifd3, out2) ← pixelErrorsOne inp ifd out
    let (l, out3) ← pixelErrors inp rest out2
    Except.ok (ifd3 :: l, out3)

/-- Lines 558-561: the element type of the strile offset array. -/
def offsetsTagType (ifd : IFD3) : Except ConvError Nat :=
  if dictMem ifd.tagdict TIFFTAG_STRIPOFFSETS then do
    let t ← getTag ifd.tagdict TIFFTAG_STRIPOFFSETS
    Except.ok t.tagtype
  else do
    let t ← getTag ifd.tagdict TIFFTAG_TILEOFFSETS
    Except.ok t.tagtype

/-- Write the recorded output offsets, 2-byte elements guarded by
`assert v < 65536`, 4-byte elements otherwise. -/
def writeOffsetVals (short : Bool) : List Nat → OutFile → Except ConvError OutFile
  | [], out => Except.ok out
  | v :: rest, out => do
    let out2 ←
      if short then
        if v < 65536 then out.w16 v else Except.error (.offsetOverflow v)
      else out.w32 v
    writeOffsetVals short rest out2

/-- Lines 555-570 for one directory. -/
def writeOffsetArrayOne (ifd : IFD3) (out : OutFile) : Except ConvError OutFile := do
  let tagtype ← offsetsTagType ifd
  let ooo ← (match ifd.offset_out_offsets with
    | some v => Except.ok v
    | none => Except.error ConvError.attrError)
  let out := out.seek ooo
  writeOffsetVals (tagtype = TIFF_SHORT) ifd.strile_offset_out out

def pass5 : List IFD3 → OutFile → Except ConvError OutFile
  | [], out => Except.ok out
  | ifd :: rest, out => do
    let out2 ← writeOffsetArrayOne ifd out
    pass5 rest out2

structure ConvResult where
  out : OutFile
  ifds : List IFD3
  recs : List IfdRec
  cache : List (List Nat × Nat)
  hintValue : Nat
  pixelStart : Nat
  lastPtrPos : Nat
deriving DecidableEq, Repr

/-- Lines 471-577: everything after the directory pass. -/
def finishFile (inp : List Nat) (do_not_write_error_samples : Bool)
    (essOff : Nat) (st : Pass1State) : Except ConvError ConvResult := do
  let hintValue := st.out.tell
  let metadata_hint := hintHead ++ fmt06 hintValue ++ hintTail
  if metadata_hint.length = dummy_metadata_hint.length then do
    let out := (st.out.seek essOff).write metadata_hint
    let out := out.seekEnd
    let (ifds2, out) ← pass2 st.ifds out
    let out ← pass3 (ifds2.drop 1) out
    let nbands := if do_not_write_error_samples then 2 else 4
    let pixelStart := out.tell
    let (ifds3, out) ← pixelPrimary inp nbands ifds2 out
    let (ifds4, out) ←
      (if nbands = 4 then pixelErrors inp ifds3 out
       else Except.ok (ifds3, out))
    let out ← pass5 ifds4 out
    let out := out.seek st.next_ifd_offset_out_offset
    let out ← out.w32 0
    Except.ok ⟨out, ifds4, st.recs, st.cache, hintValue, pixelStart,
      st.next_ifd_offset_out_offset⟩
  else Except.error .assertHintLen

/-- The whole of `generate_optimized_file`, on input bytes `inp`, with the
band count driven by `--do-not-write-error-samples`, and explicit fuel for
the directory chain. -/
def generate_optimized_file (inp : List Nat)
    (do_not_write_error_samples : Bool) (fuel : Nat) :
    Except ConvError ConvResult := do
  let signature := readRaw inp 0 4
  if signature = tiffSignature then do
    let next_ifd_offset ← rd32 (readRaw inp 4 4)
    let out : OutFile := ⟨[], 0⟩
    let out := out.write signature
    let out ← out.w32 3735928559
    let out := out.write bannerBytes
    let essOff := out.tell
    let out := out.write dummy_metadata_hint
    let st ← pass1 inp fuel next_ifd_offset ⟨out, 4, [], [], []⟩
    finishFile inp do_not_write_error_samples essOff st
  else Except.error .badSignature

/-! Layout-mode logic of `create_unoptimized_file` (lines 146-148 and the
`idx_ifd == 0 or not compact_md` emission guards). -/

def nbandsOf (do_not_write_error_samples : Bool) : Nat :=
  if do_not_write_error_samples then 2 else 4

def compact_md (num_subdatasets : Nat) : Bool := 50 < num_subdatasets

def emit_descriptive_md (num_subdatasets idx_ifd : Nat) : Bool :=
  idx_ifd = 0 || !compact_md num_subdatasets

/-! Observables used to state facts about a conversion run -/

def dIFD3 : IFD3 := ⟨[], none, 0, 0, [], [], []⟩

def genOk (inp : List Nat) (d : Bool) (fuel : Nat) : Bool :=
  match generate_optimized_file inp d fuel with
  | .ok _ => true
  | .error _ => false

def genErr (inp : List Nat) (d : Bool) (fuel : Nat) : Option ConvError :=
  match generate_optimized_file inp d fuel with
  | .ok _ => none
  | .error e => some e

def genData (inp : List Nat) (d : Bool) (fuel : Nat) : List Nat :=
  match generate_optimized_file inp d fuel with
  | .ok r => r.out.data
  | .error _ => []

def genIfds (inp : List Nat) (d : Bool) (fuel : Nat) : List IFD3 :=
  match generate_optimized_file inp d fuel with
  | .ok r => r.ifds
  | .error _ => []

def genRecs (inp : List Nat) (d : Bool) (fuel : Nat) : List IfdRec :=
  match generate_optimized_file inp d fuel with
  | .ok r => r.recs
  | .error _ => []

def genCacheFind (inp : List Nat) (d : Bool) (fuel : Nat) (k : List Nat) :
    Option Nat :=
  match generate_optimized_file inp d fuel with
  | .ok r => cacheFind r.cache k
  | .error _ => none

def genHintValue (inp : List Nat) (d : Bool) (fuel : Nat) : Nat :=
  match generate_optimized_file inp d fuel with
  | .ok r => r.hintValue
  | .error _ => 0

def genPixelStart (inp : List Nat) (d : Bool) (fuel : Nat) : Nat :=
  match generate_optimized_file inp d fuel with
  | .ok r => r.pixelStart
  | .error _ => 0

def genLastPtrPos (inp : List Nat) (d : Bool) (fuel : Nat) : Nat :=
  match generate_optimized_file inp d fuel with
  | .ok r => r.lastPtrPos
  | .error _ => 0

/-- Traverse a directory chain in a byte string: at `off`, read the 2-byte
tag count, hop over the `12 * numtags` field records, follow the 4-byte
next pointer; a zero offset terminates.  Returns the directory count. -/
def walkChain (data : List Nat) : Nat → Nat → Except ConvError Nat
  | 0, _ => Except.error .outOfFuel
  | fuel + 1, off =>
    if off = 0 then Except.ok 0
    else do
      let n ← rd16 (readRaw data off 2)
      let nxt ← rd32 (readRaw data (off + 2 + 12 * n) 4)
      let c ← walkChain data fuel nxt
      Except.ok (c + 1)

/-- Traverse the chain of a whole file, starting at the header pointer. -/
def walkFile (data : List Nat) (fuel : Nat) : Except ConvError Nat := do
  let first ← rd32 (readRaw data 4 4)
  walkChain data fuel first

/-- Number of positions of `l` at which `pat` occurs as a contiguous
sublist. -/
def countSublist : List Nat → List Nat → Nat
  | [], _ => 0
  | a :: rest, pat =>
    (if (a :: rest).take pat.length = pat then 1 else 0) + countSublist rest pat

/-- `walkFile` flattened to an `Option`: `some count` on a terminating
chain traversal. -/
def walkCount (data : List Nat) (fuel : Nat) : Option Nat :=
  match walkFile data fuel with
  | .ok n => some n
  | .error _ => none

/-! Concrete input files used as counterexamples and witnesses -/

/-- A minimal baseline container: one directory, 4 strips (band count 4),
all strip byte counts zero. -/
def inputA : List Nat :=
  tiffSignature ++ le32 8
  ++ le16 2
  ++ le16 273 ++ le16 4 ++ le32 4 ++ le32 38
  ++ le16 279 ++ le16 4 ++ le32 4 ++ le32 54
  ++ le32 0
  ++ List.replicate 16 0 ++ List.replicate 16 0

/-- 8 distinctive payload bytes whose content collides across roles in
`inputC`. -/
def bytesD : List Nat := [201, 202, 203, 204, 205, 206, 207, 208]

/-- One directory, 4 strips (band count 4), each strip one byte long. -/
def inputF : List Nat :=
  tiffSignature ++ le32 8
  ++ le16 2
  ++ le16 273 ++ le16 4 ++ le32 4 ++ le32 38
  ++ le16 279 ++ le16 4 ++ le32 4 ++ le32 54
  ++ le32 0
  ++ le32 70 ++ le32 71 ++ le32 72 ++ le32 73
  ++ le32 1 ++ le32 1 ++ le32 1 ++ le32 1
  ++ [11, 12, 13, 14]

/-- One directory containing a field whose declared type 99 is absent from
the type-size table. -/
def inputB : List Nat :=
  tiffSignature ++ le32 8
  ++ le16 1
  ++ le16 1000 ++ le16 99 ++ le32 1 ++ le32 0
  ++ le32 0

/-- Two directories; directory 0 carries an auxiliary out-of-line tag with
content `bytesD`; directory 1's strip-offsets array has the same byte
content, and also carries tile offset/bytecount tags so the run completes. -/
def inputC : List Nat :=
  tiffSignature ++ le32 8
  ++ le16 3
  ++ le16 273 ++ le16 4 ++ le32 2 ++ le32 92
  ++ le16 279 ++ le16 4 ++ le32 2 ++ le32 100
  ++ le16 1000 ++ le16 1 ++ le32 8 ++ le32 108
  ++ le32 50
  ++ le16 3
  ++ le16 273 ++ le16 4 ++ le32 2 ++ le32 108
  ++ le16 324 ++ le16 4 ++ le32 2 ++ le32 116
  ++ le16 325 ++ le16 4 ++ le32 2 ++ le32 124
  ++ le32 0
  ++ List.replicate 8 0 ++ List.replicate 8 0 ++ bytesD
  ++ List.replicate 8 0 ++ List.replicate 8 0

/-- 8 distinctive payload bytes shared by both directories of `inputE`. -/
def bytesE : List Nat := [211, 212, 213, 214, 215, 216, 217, 218]

/-- Two directories, each with strip offset/bytecount arrays and one
deduplication-eligible auxiliary tag whose content `bytesE` is identical in
both directories. -/
def inputE : List Nat :=
  tiffSignature ++ le32 8
  ++ le16 3
  ++ le16 273 ++ le16 4 ++ le32 2 ++ le32 92
  ++ le16 279 ++ le16 4 ++ le32 2 ++ le32 100
  ++ le16 1000 ++ le16 1 ++ le32 8 ++ le32 108
  ++ le32 50
  ++ le16 3
  ++ le16 273 ++ le16 4 ++ le32 2 ++ le32 116
  ++ le16 279 ++ le16 4 ++ le32 2 ++ le32 124
  ++ le16 1000 ++ le16 1 ++ le32 8 ++ le32 108
  ++ le32 0
  ++ List.replicate 8 0 ++ List.replicate 8 0 ++ bytesE
  ++ List.replicate 8 0 ++ List.replicate 8 0

/-- All placeholder slots recorded for a directory lie strictly inside its
record, between the tag-count word and the next-directory pointer. -/
def SlotInv (ifd : IFD1) (rec : IfdRec) : Prop :=
  ∀ pr ∈ ifd.tagdict, rec.start + 2 ≤ (pr.2 : OfflineTag).fileoffset_in_out_ifd ∧
    (pr.2 : OfflineTag).fileoffset_in_out_ifd + 4 ≤ rec.nextPtrPos

/-- Layout of the emitted directory chain inside the output bytes:
starting from a pointer cell at `ptrPos`, each record holds its patched
pointer, its tag-count word, in-record placeholder slots, and hands over
to the next pointer cell; `last` is the final (yet unpatched) pointer
cell. -/
def ChainInv (D : List Nat) : Nat → List (IFD1 × IfdRec) → Nat → Prop
  | ptrPos, [], last => last = ptrPos
  | ptrPos, pr :: rest, last =>
    ptrPos + 4 ≤ (pr.2 : IfdRec).start ∧
    78 ≤ (pr.2 : IfdRec).start ∧
    (pr.2 : IfdRec).start < 4294967296 ∧
    (pr.2 : IfdRec).numtags < 65536 ∧
    (pr.2 : IfdRec).nextPtrPos
      = (pr.2 : IfdRec).start + 2 + 12 * (pr.2 : IfdRec).numtags ∧
    readRaw D ptrPos 4 = le32 (pr.2 : IfdRec).start ∧
    readRaw D (pr.2 : IfdRec).start 2 = le16 (pr.2 : IfdRec).numtags ∧
    SlotInv pr.1 pr.2 ∧
    ChainInv D (pr.2 : IfdRec).nextPtrPos rest last

/-- Provenance of a fatal abort: it is not the bad-signature abort, and if
it is the unknown-field-type abort for type `t` then `t` really is absent
from the fixed type-size lookup table. -/
def ErrProvOk (e : ConvError) : Prop :=
  e ≠ ConvError.badSignature ∧
  ∀ t, e = ConvError.unknownTagType t → typesize t = none

/-- Concatenated 2-byte little-endian renderings of a value list. -/
def leArr16 : List Nat → List Nat
  | [] => []
  | v :: rest => le16 v ++ leArr16 rest

/-- Concatenated 4-byte little-endian renderings of a value list. -/
def leArr32 : List Nat → List Nat
  | [] => []
  | v :: rest => le32 v ++ leArr32 rest

/-- Output-file state right after the header, banner and dummy hint have
been written (position 78). -/
def headerOut : OutFile :=
  ((((⟨[], 0⟩ : OutFile).write tiffSignature).write
    (le32 3735928559)).write bannerBytes).write dummy_metadata_hint

/-- The byte cells of the emitted chain that carry its structure: the
patched pointer cell of each record and its tag-count word. -/
def CellOf : Nat → List (IFD1 × IfdRec) → Nat → Nat → Prop
  | _, [], _, _ => False
  | p, pr :: rest, a, b =>
    (a = p ∧ b = 4) ∨ (a = (pr.2 : IfdRec).start ∧ b = 2) ∨
    CellOf (pr.2 : IfdRec).nextPtrPos rest a b

/-- Invariant of the directory pass: the write cursor sits at the end of
the data, past the 78-byte header block; the pending next-pointer cell is
the header cell or lies inside the emitted area; and the emitted records
form a well-formed chain from the header cell to the pending cell. -/
def P1Inv (st : Pass1State) : Prop :=
  st.out.pos = st.out.data.length ∧
  78 ≤ st.out.pos ∧
  st.next_ifd_offset_out_offset + 4 ≤ st.out.pos ∧
  (st.next_ifd_offset_out_offset = 4 ∨ 78 ≤ st.next_ifd_offset_out_offset) ∧
  st.ifds.length = st.recs.length ∧
  ChainInv st.out.data 4 (st.ifds.zip st.recs) st.next_ifd_offset_out_offset

/-! ### Byte-level infrastructure lemmas -/

theorem byteAt_append_left (l m : List Nat) (i : Nat) (h : i < l.length) :
    byteAt (l ++ m) i = byteAt l i := by
  induction l generalizing i with
  | nil => simp at h
  | cons a rest ih =>
    cases i with
    | zero => rfl
    | succ j =>
      simp only [List.cons_append, byteAt]
      exact ih j (by simpa using Nat.lt_of_succ_lt_succ h)

theorem byteAt_append_right (l m : List Nat) (j : Nat) :
    byteAt (l ++ m) (l.length + j) = byteAt m j := by
  induction l with
  | nil => simp [byteAt]
  | cons a rest ih =>
    simpa [List.cons_append, byteAt, Nat.succ_add] using ih

theorem byteAt_take (l : List Nat) (n i : Nat) (h : i < n) :
    byteAt (l.take n) i = byteAt l i := by
  induction l generalizing n i with
  | nil => simp [byteAt]
  | cons a rest ih =>
    cases n with
    | zero => omega
    | succ m =>
      cases i with
      | zero => rfl
      | succ j =>
        simp only [List.take, byteAt]
        exact ih m j (Nat.lt_of_succ_lt_succ h)

theorem byteAt_drop (l : List Nat) (n i : Nat) :
    byteAt (l.drop n) i = byteAt l (n + i) := by
  induction l generalizing n with
  | nil => simp [byteAt]
  | cons a rest ih =>
    cases n with
    | zero => simp
    | succ m =>
      simp only [List.drop, Nat.succ_add, byteAt]
      exact ih m

theorem length_take_of_le {l : List Nat} {n : Nat} (h : n ≤ l.length) :
    (l.take n).length = n := by
  simp [List.length_take]; omega

theorem writeList_length (l : List Nat) (pos : Nat) (bs : List Nat) :
    (writeList l pos bs).length = max l.length (pos + bs.length) := by
  simp only [writeList, List.length_append, List.length_take,
    List.length_drop, List.length_replicate]
  omega

theorem length_le_writeList (l : List Nat) (pos : Nat) (bs : List Nat) :
    l.length ≤ (writeList l pos bs).length := by
  rw [writeList_length]; omega

theorem byteAt_writeList_outside (l : List Nat) (pos : Nat) (bs : List Nat)
    (i : Nat) (hl : i < l.length) (h : i < pos ∨ pos + bs.length ≤ i) :
    byteAt (writeList l pos bs) i = byteAt l i := by
  have hpad : (l ++ List.replicate (pos - l.length) 0).length =
      max l.length pos := by
    simp [List.length_append, List.length_replicate]; omega
  have hl2 : byteAt (l ++ List.replicate (pos - l.length) 0) i = byteAt l i :=
    byteAt_append_left _ _ _ hl
  set l2 := l ++ List.replicate (pos - l.length) 0 with hl2def
  have htlen : (l2.take pos).length = pos := by
    apply length_take_of_le
    omega
  rcases h with h | h
  · rw [writeList]
    rw [byteAt_append_left _ _ _ (by rw [List.length_append, htlen]; omega)]
    rw [byteAt_append_left _ _ _ (by rw [htlen]; exact h)]
    rw [byteAt_take _ _ _ h]
    exact hl2
  · rw [writeList]
    have hi : i = ((l2.take pos ++ bs).length) + (i - (pos + bs.length)) := by
      rw [List.length_append, htlen]; omega
    have key : byteAt ((l2.take pos ++ bs) ++ l2.drop (pos + bs.length)) i =
        byteAt l2 i := by
      calc byteAt ((l2.take pos ++ bs) ++ l2.drop (pos + bs.length)) i
          = byteAt ((l2.take pos ++ bs) ++ l2.drop (pos + bs.length))
              (((l2.take pos ++ bs).length) + (i - (pos + bs.length))) := by
            rw [← hi]
        _ = byteAt (l2.drop (pos + bs.length)) (i - (pos + bs.length)) :=
            byteAt_append_right _ _ _
        _ = byteAt l2 (pos + bs.length + (i - (pos + bs.length))) :=
            byteAt_drop _ _ _
        _ = byteAt l2 i := by congr 1; omega
    rw [← hl2def, key]
    exact hl2

theorem byteAt_writeList_self (l : List Nat) (pos : Nat) (bs : List Nat)
    (i : Nat) (h : i < bs.length) :
    byteAt (writeList l pos bs) (pos + i) = byteAt bs i := by
  set l2 := l ++ List.replicate (pos - l.length) 0 with hl2def
  have htlen : (l2.take pos).length = pos := by
    apply length_take_of_le
    simp [hl2def, List.length_append, List.length_replicate]; omega
  rw [writeList]
  rw [byteAt_append_left _ _ _ (by rw [List.length_append, htlen]; omega)]
  have : pos + i = (l2.take pos).length + i := by rw [htlen]
  rw [this, byteAt_append_right]

theorem readRaw_nil_of_le (l : List Nat) (pos n : Nat) (h : l.length ≤ pos) :
    readRaw l pos n = [] := by
  have : l.drop pos = [] := List.drop_eq_nil_of_le h
  simp [readRaw, this]

theorem readRaw_cons (l : List Nat) (pos n : Nat) (h : pos < l.length) :
    readRaw l pos (n + 1) = byteAt l pos :: readRaw l (pos + 1) n := by
  induction l generalizing pos with
  | nil => simp at h
  | cons a rest ih =>
    cases pos with
    | zero => simp [readRaw, byteAt]
    | succ p =>
      have := ih p (by simpa using Nat.lt_of_succ_lt_succ h)
      simpa [readRaw, byteAt] using this

theorem readRaw_zero (l : List Nat) (pos : Nat) : readRaw l pos 0 = [] := by
  simp [readRaw]

theorem readRaw_length (l : List Nat) (pos n : Nat) :
    (readRaw l pos n).length = min n (l.length - pos) := by
  simp [readRaw, List.length_take, List.length_drop]

/-- A slice is determined by its bytes: `readRaw` of an in-bounds region
equals the list of its `byteAt` values. -/
theorem readRaw_eq_map (l : List Nat) (pos n : Nat) (h : pos + n ≤ l.length) :
    readRaw l pos n = (List.range n).map (fun j => byteAt l (pos + j)) := by
  induction n generalizing pos with
  | zero => simp [readRaw_zero]
  | succ m ih =>
    rw [readRaw_cons _ _ _ (by omega)]
    rw [List.range_succ_eq_map]
    simp only [List.map_cons, Nat.add_zero, List.map_map]
    congr 1
    rw [ih (pos + 1) (by omega)]
    apply List.map_congr_left
    intro j hj
    simp only [Function.comp]
    congr 1
    omega

/-! `OutFile` write lemmas -/

theorem OutFile.write_pos (f : OutFile) (bs : List Nat) :
    (f.write bs).pos = f.pos + bs.length := rfl

theorem OutFile.write_length (f : OutFile) (bs : List Nat) :
    (f.write bs).data.length = max f.data.length (f.pos + bs.length) :=
  writeList_length _ _ _

theorem OutFile.length_le_write (f : OutFile) (bs : List Nat) :
    f.data.length ≤ (f.write bs).data.length :=
  length_le_writeList _ _ _

theorem OutFile.write_frame (f : OutFile) (bs : List Nat) (i : Nat)
    (hl : i < f.data.length) (h : i < f.pos ∨ f.pos + bs.length ≤ i) :
    byteAt (f.write bs).data i = byteAt f.data i :=
  byteAt_writeList_outside _ _ _ _ hl h

theorem OutFile.write_self (f : OutFile) (bs : List Nat) (i : Nat)
    (h : i < bs.length) :
    byteAt (f.write bs).data (f.pos + i) = byteAt bs i :=
  byteAt_writeList_self _ _ _ _ h

theorem OutFile.w16_ok (f : OutFile) (v : Nat) (g : OutFile)
    (h : f.w16 v = .ok g) : v < 65536 ∧ g = f.write (le16 v) := by
  by_cases hv : v < 65536
  · refine ⟨hv, ?_⟩
    simp [OutFile.w16, hv] at h
    exact h.symm
  · simp [OutFile.w16, hv] at h

theorem OutFile.w32_ok (f : OutFile) (v : Nat) (g : OutFile)
    (h : f.w32 v = .ok g) : v < 4294967296 ∧ g = f.write (le32 v) := by
  by_cases hv : v < 4294967296
  · refine ⟨hv, ?_⟩
    simp [OutFile.w32, hv] at h
    exact h.symm
  · simp [OutFile.w32, hv] at h

theorem map_byteAt_range (l : List Nat) :
    (List.range l.length).map (byteAt l) = l := by
  induction l with
  | nil => simp
  | cons a rest ih =>
    rw [List.length_cons, List.range_succ_eq_map]
    simp only [List.map_cons, List.map_map]
    have hc : (byteAt (a :: rest)) ∘ Nat.succ = byteAt rest := by
      funext j
      rfl
    rw [hc, ih]
    rfl

theorem readRaw_writeList_self (l : List Nat) (pos : Nat) (bs : List Nat) :
    readRaw (writeList l pos bs) pos bs.length = bs := by
  rw [readRaw_eq_map _ _ _ (by rw [writeList_length]; omega)]
  have : ∀ j ∈ List.range bs.length,
      byteAt (writeList l pos bs) (pos + j) = byteAt bs j := by
    intro j hj
    exact byteAt_writeList_self l pos bs j (by simpa using hj)
  rw [List.map_congr_left this, map_byteAt_range]

theorem readRaw_congr (d1 d2 : List Nat) (pos n : Nat)
    (h1 : pos + n ≤ d1.length) (h2 : pos + n ≤ d2.length)
    (h : ∀ j, j < n → byteAt d2 (pos + j) = byteAt d1 (pos + j)) :
    readRaw d2 pos n = readRaw d1 pos n := by
  rw [readRaw_eq_map _ _ _ h2, readRaw_eq_map _ _ _ h1]
  apply List.map_congr_left
  intro j hj
  exact h j (by simpa using hj)

theorem mem_of_mem_readRaw {inp : List Nat} {pos n b : Nat}
    (h : b ∈ readRaw inp pos n) : b ∈ inp :=
  List.drop_subset pos inp (List.take_subset n _ h)

theorem rd16_ok_lt {bs : List Nat} {v : Nat} (h : rd16 bs = .ok v)
    (hb : ∀ b ∈ bs, b < 256) : v < 65536 := by
  match bs, h with
  | [a, b], h =>
    simp only [rd16, Except.ok.injEq] at h
    have ha := hb a (by simp)
    have hbb := hb b (by simp)
    omega

theorem rd32_ok_lt {bs : List Nat} {v : Nat} (h : rd32 bs = .ok v)
    (hb : ∀ b ∈ bs, b < 256) : v < 4294967296 := by
  match bs, h with
  | [a, b, c, d], h =>
    simp only [rd32, Except.ok.injEq] at h
    have ha := hb a (by simp)
    have hbb := hb b (by simp)
    have hc := hb c (by simp)
    have hd := hb d (by simp)
    omega

theorem except_bind_ok {α β : Type} (a : α) (f : α → Except ConvError β) :
    (Except.ok a >>= f) = f a := rfl

theorem except_bind_err {α β : Type} (e : ConvError)
    (f : α → Except ConvError β) :
    ((Except.error e : Except ConvError α) >>= f) = Except.error e := rfl

theorem le16_length (v : Nat) : (le16 v).length = 2 := rfl

theorem le32_length (v : Nat) : (le32 v).length = 4 := rfl

/-! ### Directory-pass helper lemmas -/

/-- Full characterisation of `alignIfdStart`: the new directory start is
even, one zero pad byte is emitted exactly when the cursor was odd, and the
previous next-directory pointer is patched with the start offset. -/
theorem alignIfdStart_spec (out : OutFile) (p : Nat) (out2 : OutFile) (c : Nat)
    (h : alignIfdStart out p = Except.ok (out2, c)) :
    c % 2 = 0 ∧
    c = (if out.pos % 2 = 1 then out.pos + 1 else out.pos) ∧
    out2.pos = c ∧
    readRaw out2.data p 4 = le32 c ∧
    (out.pos % 2 = 1 → p + 4 ≤ out.pos → byteAt out2.data out.pos = 0) := by
  unfold alignIfdStart at h
  by_cases hodd : out.pos % 2 = 1
  · simp only [OutFile.tell, hodd, if_pos, reduceIte] at h
    cases hw : ((out.write [0]).seek p).w32 (out.pos + 1) with
    | error e => rw [hw] at h; simp [except_bind_err] at h
    | ok g =>
      rw [hw] at h; simp only [except_bind_ok] at h
      obtain ⟨hc, hg⟩ := OutFile.w32_ok _ _ _ hw
      simp only [Except.ok.injEq, Prod.mk.injEq] at h
      obtain ⟨hout2, hcval⟩ := h
      subst hcval
      refine ⟨by omega, by rw [if_pos hodd], ?_, ?_, ?_⟩
      · rw [← hout2]
        rfl
      · rw [← hout2, hg]
        have h4 : (4 : Nat) = (le32 (out.pos + 1)).length := rfl
        simp only [OutFile.seek, OutFile.write]
        rw [h4]
        exact readRaw_writeList_self _ _ _
      · intro _ hp4
        rw [← hout2, hg]
        simp only [OutFile.seek, OutFile.write]
        have hpad : byteAt (out.write [0]).data out.pos = 0 := by
          have := OutFile.write_self out [0] 0 (by simp)
          simpa using this
        rw [byteAt_writeList_outside]
        · exact hpad
        · rw [writeList_length]
          have h1 : (List.length [(0 : Nat)]) = 1 := rfl
          rw [h1]
          omega
        · right
          rw [le32_length]
          exact hp4
  · simp only [OutFile.tell, hodd, reduceIte] at h
    cases hw : (out.seek p).w32 out.pos with
    | error e => rw [hw] at h; simp [except_bind_err] at h
    | ok g =>
      rw [hw] at h; simp only [except_bind_ok] at h
      obtain ⟨hc, hg⟩ := OutFile.w32_ok _ _ _ hw
      simp only [Except.ok.injEq, Prod.mk.injEq] at h
      obtain ⟨hout2, hcval⟩ := h
      subst hcval
      refine ⟨by omega, by rw [if_neg hodd], ?_, ?_, ?_⟩
      · rw [← hout2]
        rfl
      · rw [← hout2, hg]
        have h4 : (4 : Nat) = (le32 out.pos).length := rfl
        simp only [OutFile.seek, OutFile.write]
        rw [h4]
        exact readRaw_writeList_self _ _ _
      · intro hcontra
        exact absurd hcontra hodd

/-- Every directory record start produced by `pass1` sits at an even byte
offset. -/
theorem pass1_recs_even (inp : List Nat) :
    ∀ fuel nio st st2, pass1 inp fuel nio st = Except.ok st2 →
      (∀ rec ∈ st.recs, rec.start % 2 = 0) →
      ∀ rec ∈ st2.recs, rec.start % 2 = 0 := by
  intro fuel
  induction fuel with
  | zero =>
    intro nio st st2 h hst
    match nio, h with
    | 0, h =>
      simp only [pass1, Except.ok.injEq] at h
      subst h
      exact hst
  | succ n ih =>
    intro nio st st2 h hst
    match nio, h with
    | 0, h =>
      simp only [pass1, Except.ok.injEq] at h
      subst h
      exact hst
    | nio + 1, h =>
      rw [pass1] at h
      cases ha : alignIfdStart st.out st.next_ifd_offset_out_offset with
      | error e => rw [ha] at h; simp [except_bind_err] at h
      | ok pr =>
        obtain ⟨out, cur_pos⟩ := pr
        rw [ha] at h
        simp only [except_bind_ok] at h
        cases hn : rd16 (readRaw inp (nio + 1) 2) with
        | error e => rw [hn] at h; simp [except_bind_err] at h
        | ok numtags =>
          rw [hn] at h; simp only [except_bind_ok] at h
          cases hw : out.w16 numtags with
          | error e => rw [hw] at h; simp [except_bind_err] at h
          | ok out1 =>
            rw [hw] at h; simp only [except_bind_ok] at h
            cases ht : processTags inp st.cache numtags ⟨nio + 1 + 2, out1, []⟩ with
            | error e => rw [ht] at h; simp [except_bind_err] at h
            | ok tls =>
              rw [ht] at h; simp only [except_bind_ok] at h
              cases hx : rd32 (readRaw inp tls.inPos 4) with
              | error e => rw [hx] at h; simp [except_bind_err] at h
              | ok next2 =>
                rw [hx] at h; simp only [except_bind_ok] at h
                cases hw2 : tls.out.w32 3735928559 with
                | error e => rw [hw2] at h; simp [except_bind_err] at h
                | ok out2 =>
                  rw [hw2] at h; simp only [except_bind_ok] at h
                  cases hwo : writeOfflineData st.ifds.length tls.tagdict out2 st.cache with
                  | error e => rw [hwo] at h; simp [except_bind_err] at h
                  | ok pr2 =>
                    obtain ⟨out3, cache2⟩ := pr2
                    rw [hwo] at h; simp only [except_bind_ok] at h
                    refine ih next2 _ st2 h ?_
                    intro rec hrec
                    simp only [List.mem_append, List.mem_singleton] at hrec
                    rcases hrec with hrec | hrec
                    · exact hst rec hrec
                    · subst hrec
                      exact (alignIfdStart_spec _ _ _ _ ha).1

/-- Inversion of a successful run: a good signature, a parsed header
pointer, a successful directory pass from the fixed header state, and a
successful finishing phase. -/
theorem generate_ok_inv {inp : List Nat} {d : Bool} {fuel : Nat}
    {r : ConvResult}
    (h : generate_optimized_file inp d fuel = Except.ok r) :
    readRaw inp 0 4 = tiffSignature ∧
    ∃ nio st, rd32 (readRaw inp 4 4) = Except.ok nio ∧
      pass1 inp fuel nio ⟨headerOut, 4, [], [], []⟩ = Except.ok st ∧
      finishFile inp d 50 st = Except.ok r := by
  unfold generate_optimized_file at h
  by_cases hsig : readRaw inp 0 4 = tiffSignature
  · refine ⟨hsig, ?_⟩
    simp only [hsig, reduceIte] at h
    cases hnio : rd32 (readRaw inp 4 4) with
    | error e => rw [hnio] at h; simp [except_bind_err] at h
    | ok nio =>
      rw [hnio] at h; simp only [except_bind_ok] at h
      have hw : ((⟨[], 0⟩ : OutFile).write tiffSignature).w32 3735928559
          = Except.ok (((⟨[], 0⟩ : OutFile).write tiffSignature).write
            (le32 3735928559)) := rfl
      rw [hw] at h; simp only [except_bind_ok] at h
      have h9 : (do
          let st ← pass1 inp fuel nio ⟨headerOut, 4, [], [], []⟩
          finishFile inp d 50 st) = Except.ok r := h
      cases hst : pass1 inp fuel nio ⟨headerOut, 4, [], [], []⟩ with
      | error e =>
        rw [hst] at h9
        simp [except_bind_err] at h9
      | ok st =>
        rw [hst] at h9
        simp only [except_bind_ok] at h9
        exact ⟨nio, st, rfl, hst, h9⟩
  · simp only [hsig, reduceIte] at h
    simp at h

/-- Inversion of a successful finishing phase. -/
theorem finishFile_ok_inv {inp : List Nat} {d : Bool} {essOff : Nat}
    {st : Pass1State} {r : ConvResult}
    (h : finishFile inp d essOff st = Except.ok r) :
    ∃ ifds2 out2 out3 ifds3 out4 ifds4 out5 out6,
      (hintHead ++ fmt06 st.out.pos ++ hintTail).length
        = dummy_metadata_hint.length ∧
      pass2 st.ifds (((st.out.seek essOff).write
        (hintHead ++ fmt06 st.out.pos ++ hintTail)).seekEnd)
        = Except.ok (ifds2, out2) ∧
      pass3 (ifds2.drop 1) out2 = Except.ok out3 ∧
      pixelPrimary inp (if d then 2 else 4) ifds2 out3
        = Except.ok (ifds3, out4) ∧
      (if (if d then 2 else 4) = 4 then pixelErrors inp ifds3 out4
        else Except.ok (ifds3, out4)) = Except.ok (ifds4, out5) ∧
      pass5 ifds4 out5 = Except.ok out6 ∧
      r = ⟨(out6.seek st.next_ifd_offset_out_offset).write (le32 0), ifds4,
        st.recs, st.cache, st.out.pos, out3.pos,
        st.next_ifd_offset_out_offset⟩ := by
  unfold finishFile at h
  simp only [OutFile.tell] at h
  by_cases hlen : (hintHead ++ fmt06 st.out.pos ++ hintTail).length
      = dummy_metadata_hint.length
  · rw [if_pos hlen] at h
    cases h2 : pass2 st.ifds (((st.out.seek essOff).write
        (hintHead ++ fmt06 st.out.pos ++ hintTail)).seekEnd) with
    | error e => rw [h2] at h; simp [except_bind_err] at h
    | ok pr =>
      obtain ⟨ifds2, out2⟩ := pr
      rw [h2] at h; simp only [except_bind_ok] at h
      cases h3 : pass3 (ifds2.drop 1) out2 with
      | error e => rw [h3] at h; simp [except_bind_err] at h
      | ok out3 =>
        rw [h3] at h; simp only [except_bind_ok] at h
        cases h4 : pixelPrimary inp (if d then 2 else 4) ifds2 out3 with
        | error e => rw [h4] at h; simp [except_bind_err] at h
        | ok pr2 =>
          obtain ⟨ifds3, out4⟩ := pr2
          rw [h4] at h; simp only [except_bind_ok] at h
          cases h5 : (if (if d then 2 else 4) = 4 then
              pixelErrors inp ifds3 out4 else Except.ok (ifds3, out4)) with
          | error e => rw [h5] at h; simp [except_bind_err] at h
          | ok pr3 =>
            obtain ⟨ifds4, out5⟩ := pr3
            rw [h5] at h; simp only [except_bind_ok] at h
            cases h6 : pass5 ifds4 out5 with
            | error e => rw [h6] at h; simp [except_bind_err] at h
            | ok out6 =>
              rw [h6] at h; simp only [except_bind_ok] at h
              have hw : (out6.seek st.next_ifd_offset_out_offset).w32 0
                  = Except.ok ((out6.seek
                    st.next_ifd_offset_out_offset).write (le32 0)) := rfl
              rw [hw] at h; simp only [except_bind_ok] at h
              simp only [Except.ok.injEq] at h
              exact ⟨ifds2, out2, out3, ifds3, out4, ifds4, out5, out6,
                hlen, rfl, h3, h4, h5, h6, h.symm⟩
  · rw [if_neg hlen] at h
    simp at h

/-- Full characterisation of one field-record step of the directory
parser. -/
theorem processOneTag_spec (inp : List Nat) (cache : List (List Nat × Nat))
    (st : TagLoopState) (tagid tagtype tagnvalues tagvalueoroffset tsz : Nat)
    (hbytes : ∀ b ∈ inp, b < 256)
    (h1 : rd16 (readRaw inp st.inPos 2) = Except.ok tagid)
    (h2 : rd16 (readRaw inp (st.inPos + 2) 2) = Except.ok tagtype)
    (h3 : rd32 (readRaw inp (st.inPos + 4) 4) = Except.ok tagnvalues)
    (h4 : rd32 (readRaw inp (st.inPos + 8) 4) = Except.ok tagvalueoroffset)
    (h5 : typesize tagtype = some tsz) :
    (tsz * tagnvalues ≤ 4 →
      processOneTag inp cache st = Except.ok ⟨st.inPos + 12,
        (((st.out.write (le16 tagid)).write (le16 tagtype)).write
          (le32 tagnvalues)).write (le32 tagvalueoroffset), st.tagdict⟩) ∧
    (4 < tsz * tagnvalues →
      ((tagvalueoroffset + tsz * tagnvalues ≤ inp.length →
        (readRaw inp tagvalueoroffset (tsz * tagnvalues)).length
          = tsz * tagnvalues) ∧
      (∀ off,
        cacheFind cache (readRaw inp tagvalueoroffset (tsz * tagnvalues))
          = some off → off < 4294967296 →
        processOneTag inp cache st = Except.ok ⟨st.inPos + 12,
          (((st.out.write (le16 tagid)).write (le16 tagtype)).write
            (le32 tagnvalues)).write (le32 off), st.tagdict⟩) ∧
      (cacheFind cache (readRaw inp tagvalueoroffset (tsz * tagnvalues))
          = none →
        processOneTag inp cache st = Except.ok ⟨st.inPos + 12,
          (((st.out.write (le16 tagid)).write (le16 tagtype)).write
            (le32 tagnvalues)).write (le32 3735928559),
          dictInsert st.tagdict tagid ⟨tagtype, tagnvalues,
            readRaw inp tagvalueoroffset (tsz * tagnvalues),
            st.out.pos + 8⟩⟩))) := by
  have hid : tagid < 65536 :=
    rd16_ok_lt h1 (fun b hb => hbytes b (mem_of_mem_readRaw hb))
  have hty : tagtype < 65536 :=
    rd16_ok_lt h2 (fun b hb => hbytes b (mem_of_mem_readRaw hb))
  have hnv : tagnvalues < 4294967296 :=
    rd32_ok_lt h3 (fun b hb => hbytes b (mem_of_mem_readRaw hb))
  have hvo : tagvalueoroffset < 4294967296 :=
    rd32_ok_lt h4 (fun b hb => hbytes b (mem_of_mem_readRaw hb))
  have e1 : st.out.w16 tagid = Except.ok (st.out.write (le16 tagid)) := by
    simp [OutFile.w16, hid]
  have e2 : (st.out.write (le16 tagid)).w16 tagtype
      = Except.ok ((st.out.write (le16 tagid)).write (le16 tagtype)) := by
    simp [OutFile.w16, hty]
  have e3 : ((st.out.write (le16 tagid)).write (le16 tagtype)).w32 tagnvalues
      = Except.ok (((st.out.write (le16 tagid)).write
        (le16 tagtype)).write (le32 tagnvalues)) := by
    simp [OutFile.w32, hnv]
  have htell : ((((st.out.write (le16 tagid)).write (le16 tagtype)).write
      (le32 tagnvalues)).tell) = st.out.pos + 8 := by
    simp only [OutFile.tell, OutFile.write_pos, le16_length, le32_length]
  unfold processOneTag
  rw [h1]; simp only [except_bind_ok]
  rw [h2]; simp only [except_bind_ok]
  rw [h3]; simp only [except_bind_ok]
  rw [h4]; simp only [except_bind_ok]
  rw [h5]
  dsimp only
  rw [e1]; simp only [except_bind_ok]
  rw [e2]; simp only [except_bind_ok]
  rw [e3]; simp only [except_bind_ok]
  constructor
  · intro hle
    rw [if_pos hle]
    have e4 : (((st.out.write (le16 tagid)).write (le16 tagtype)).write
        (le32 tagnvalues)).w32 tagvalueoroffset
        = Except.ok ((((st.out.write (le16 tagid)).write
          (le16 tagtype)).write (le32 tagnvalues)).write
          (le32 tagvalueoroffset)) := by
      simp [OutFile.w32, hvo]
    rw [e4]; simp only [except_bind_ok]
  · intro hgt
    rw [if_neg (by omega)]
    refine ⟨?_, ?_, ?_⟩
    · intro hin
      rw [readRaw_length]
      omega
    · intro off hcf hofflt
      simp only [reuse_offlinedata, reduceIte]
      rw [hcf]
      dsimp only
      have e4 : (((st.out.write (le16 tagid)).write (le16 tagtype)).write
          (le32 tagnvalues)).w32 off
          = Except.ok ((((st.out.write (le16 tagid)).write
            (le16 tagtype)).write (le32 tagnvalues)).write (le32 off)) := by
        simp [OutFile.w32, hofflt]
      rw [e4]; simp only [except_bind_ok]
    · intro hcf
      simp only [reuse_offlinedata, reduceIte]
      rw [hcf]
      dsimp only
      have e4 : (((st.out.write (le16 tagid)).write (le16 tagtype)).write
          (le32 tagnvalues)).w32 3735928559
          = Except.ok ((((st.out.write (le16 tagid)).write
            (le16 tagtype)).write (le32 tagnvalues)).write
            (le32 3735928559)) := rfl
      rw [e4]; simp only [except_bind_ok]
      rw [htell]

/-! ### Claim C6 -/

/-- Claim C6: the layout-mode decision is a single threshold on the total
directory count: with exactly 50 directories the mode is verbose and the
descriptive metadata is emitted on every directory; with 51 or more the
mode is compact and the descriptive metadata is emitted only on
directory 0. -/
theorem claim_C6 (n idx : Nat) :
    (compact_md 50 = false ∧ emit_descriptive_md 50 idx = true) ∧
    (51 ≤ n → compact_md n = true ∧
      (emit_descriptive_md n idx = true ↔ idx = 0)) := by
  refine ⟨⟨by decide, by simp [emit_descriptive_md, compact_md]⟩, ?_⟩
  intro h51
  have hc : compact_md n = true := by
    simp only [compact_md, decide_eq_true_eq]
    omega
  refine ⟨hc, ?_⟩
  simp [emit_descriptive_md, hc]

/-- Witness for C6 at directory counts 50 and 51, directory index 7. -/
theorem claim_C6_witness :
    emit_descriptive_md 50 7 = true ∧
    (emit_descriptive_md 51 7 = true ↔ 7 = 0) :=
  ⟨(claim_C6 50 7).1.2, ((claim_C6 51 7).2 (by decide)).2⟩

/-! ### Claim C8 -/

/-- Claim C8: the parser treats the fourth word of a field record as an
inline literal iff `count * sizeOf(type) ≤ 4` (a pure function of the
field's type and count); otherwise the word is a file offset from which
exactly `count * sizeOf(type)` bytes are read as the out-of-line
payload. -/
theorem claim_C8 (inp : List Nat) (cache : List (List Nat × Nat))
    (st : TagLoopState) (tagid tagtype tagnvalues tagvalueoroffset tsz : Nat)
    (hbytes : ∀ b ∈ inp, b < 256)
    (h1 : rd16 (readRaw inp st.inPos 2) = Except.ok tagid)
    (h2 : rd16 (readRaw inp (st.inPos + 2) 2) = Except.ok tagtype)
    (h3 : rd32 (readRaw inp (st.inPos + 4) 4) = Except.ok tagnvalues)
    (h4 : rd32 (readRaw inp (st.inPos + 8) 4) = Except.ok tagvalueoroffset)
    (h5 : typesize tagtype = some tsz) :
    (tsz * tagnvalues ≤ 4 →
      processOneTag inp cache st = Except.ok ⟨st.inPos + 12,
        (((st.out.write (le16 tagid)).write (le16 tagtype)).write
          (le32 tagnvalues)).write (le32 tagvalueoroffset), st.tagdict⟩) ∧
    (4 < tsz * tagnvalues →
      ((tagvalueoroffset + tsz * tagnvalues ≤ inp.length →
        (readRaw inp tagvalueoroffset (tsz * tagnvalues)).length
          = tsz * tagnvalues) ∧
      (∀ off,
        cacheFind cache (readRaw inp tagvalueoroffset (tsz * tagnvalues))
          = some off → off < 4294967296 →
        processOneTag inp cache st = Except.ok ⟨st.inPos + 12,
          (((st.out.write (le16 tagid)).write (le16 tagtype)).write
            (le32 tagnvalues)).write (le32 off), st.tagdict⟩) ∧
      (cacheFind cache (readRaw inp tagvalueoroffset (tsz * tagnvalues))
          = none →
        processOneTag inp cache st = Except.ok ⟨st.inPos + 12,
          (((st.out.write (le16 tagid)).write (le16 tagtype)).write
            (le32 tagnvalues)).write (le32 3735928559),
          dictInsert st.tagdict tagid ⟨tagtype, tagnvalues,
            readRaw inp tagvalueoroffset (tsz * tagnvalues),
            st.out.pos + 8⟩⟩))) :=
  processOneTag_spec inp cache st tagid tagtype tagnvalues tagvalueoroffset
    tsz hbytes h1 h2 h3 h4 h5

/-- Witness for C8: the first field record of `inputA` (type LONG,
count 4, so 16 bytes out-of-line) processed against an empty cache. -/
theorem claim_C8_witness :
    processOneTag inputA [] ⟨10, headerOut, []⟩ = Except.ok ⟨22,
      (((headerOut.write (le16 273)).write (le16 4)).write
        (le32 4)).write (le32 3735928559),
      dictInsert [] 273 ⟨4, 4, readRaw inputA 38 16, 86⟩⟩ :=
  (((claim_C8 inputA [] ⟨10, headerOut, []⟩ 273 4 4 38 4 (by decide)
    rfl rfl rfl rfl rfl).2 (by decide)).2.2) rfl

/-! ### Claim C10 -/

/-- Claim C10: every directory record starts at an even offset — a zero pad
byte is emitted exactly when the cursor was odd — and the next-directory
pointer patched into the previous record (or header) holds that even start
offset. -/
theorem claim_C10 :
    (∀ out p out2 c, alignIfdStart out p = Except.ok (out2, c) →
      c % 2 = 0 ∧
      c = (if out.pos % 2 = 1 then out.pos + 1 else out.pos) ∧
      out2.pos = c ∧
      readRaw out2.data p 4 = le32 c ∧
      (out.pos % 2 = 1 → p + 4 ≤ out.pos → byteAt out2.data out.pos = 0)) ∧
    (∀ inp d fuel r, generate_optimized_file inp d fuel = Except.ok r →
      ∀ rec ∈ r.recs, rec.start % 2 = 0) := by
  constructor
  · exact alignIfdStart_spec
  · intro inp d fuel r h rec hrec
    obtain ⟨hsig, nio, st, hnio, hp1, hfin⟩ := generate_ok_inv h
    obtain ⟨i2, o2, o3, i3, o4, i4, o5, o6, hlen, hp2, hp3, hp4, hp5, hp6,
      hr⟩ := finishFile_ok_inv hfin
    have hrr : r.recs = st.recs := by rw [hr]
    rw [hrr] at hrec
    refine pass1_recs_even inp fuel nio _ st hp1 ?_ rec hrec
    intro rec2 h2
    simp at h2

/-- Witness for C10: an odd cursor position 79, previous pointer at
offset 4; the record start becomes 80, the pad byte is written, and the
pointer is patched, both on the concrete `alignIfdStart` call and on the
recorded directory starts of a full run on `inputA`. -/
theorem claim_C10_witness :
    80 % 2 = 0 ∧
    readRaw (((((⟨List.replicate 79 0, 79⟩ : OutFile).write [0]).seek
      4).write (le32 80)).seek 80).data 4 4 = le32 80 ∧
    byteAt (((((⟨List.replicate 79 0, 79⟩ : OutFile).write [0]).seek
      4).write (le32 80)).seek 80).data 79 = 0 ∧
    (∀ rec ∈ genRecs inputA false 8, rec.start % 2 = 0) := by
  have h := claim_C10.1 ⟨List.replicate 79 0, 79⟩ 4
    (((((⟨List.replicate 79 0, 79⟩ : OutFile).write [0]).seek 4).write
      (le32 80)).seek 80) 80 rfl
  refine ⟨h.1, h.2.2.2.1, h.2.2.2.2 (by decide) (by decide), ?_⟩
  intro rec hrec
  unfold genRecs at hrec
  cases hg : generate_optimized_file inputA false 8 with
  | error e => rw [hg] at hrec; simp at hrec
  | ok r =>
    rw [hg] at hrec
    exact claim_C10.2 inputA false 8 r hg rec hrec

/-! ### Claim C3 -/

theorem readRaw_split (l : List Nat) (p m k : Nat) :
    readRaw l p (m + k) = readRaw l p m ++ readRaw l (p + m) k := by
  unfold readRaw
  rw [List.take_add]
  congr 1
  rw [List.drop_drop]

theorem leArr16_length (vals : List Nat) :
    (leArr16 vals).length = 2 * vals.length := by
  induction vals with
  | nil => simp [leArr16]
  | cons v rest ih =>
    simp only [leArr16, List.length_append, le16_length, List.length_cons, ih]
    omega

theorem readRaw_two (l : List Nat) (p : Nat) (h : p + 2 ≤ l.length) :
    readRaw l p 2 = [byteAt l p, byteAt l (p + 1)] := by
  rw [show (2 : Nat) = 1 + 1 from rfl]
  rw [readRaw_cons _ _ _ (by omega), readRaw_cons _ _ _ (by omega),
    readRaw_zero]

/-- Writing a 2-byte offset array: every element is range-checked, the
elements land little-endian at consecutive 2-byte slots, and no byte
outside the array region is touched. -/
theorem writeOffsetVals_true_ok :
    ∀ (vals : List Nat) (out out2 : OutFile),
      writeOffsetVals true vals out = Except.ok out2 →
      (∀ v ∈ vals, v < 65536) ∧
      out2.pos = out.pos + 2 * vals.length ∧
      out.data.length ≤ out2.data.length ∧
      readRaw out2.data out.pos (2 * vals.length) = leArr16 vals ∧
      (∀ i, i < out.data.length →
        (i < out.pos ∨ out.pos + 2 * vals.length ≤ i) →
        byteAt out2.data i = byteAt out.data i)
  | [], out, out2, h => by
    simp only [writeOffsetVals, Except.ok.injEq] at h
    subst h
    refine ⟨by simp, by simp, le_refl _, by simp [readRaw_zero, leArr16], ?_⟩
    intro i _ _
    rfl
  | v :: rest, out, out2, h => by
    rw [writeOffsetVals] at h
    by_cases hv : v < 65536
    · have hw : out.w16 v = Except.ok (out.write (le16 v)) := by
        simp [OutFile.w16, hv]
      simp only [reduceIte, hv, hw, except_bind_ok] at h
      obtain ⟨hfit, hpos, hlen, hslice, hframe⟩ :=
        writeOffsetVals_true_ok rest (out.write (le16 v)) out2 h
      have hwpos : (out.write (le16 v)).pos = out.pos + 2 := by
        simp [OutFile.write_pos, le16_length]
      have hwlen : out.pos + 2 ≤ (out.write (le16 v)).data.length := by
        rw [OutFile.write_length, le16_length]
        omega
      have hout2len : out.pos + 2 ≤ out2.data.length := le_trans hwlen hlen
      have h2n : 2 * ((v :: rest).length) = 2 + 2 * rest.length := by
        simp only [List.length_cons]
        omega
      have hb : ∀ j, j < 2 →
          byteAt out2.data (out.pos + j) = byteAt (le16 v) j := by
        intro j hj
        have h1 : byteAt out2.data (out.pos + j)
            = byteAt (out.write (le16 v)).data (out.pos + j) := by
          apply hframe
          · omega
          · left; omega
        rw [h1]
        exact OutFile.write_self out (le16 v) j (by rw [le16_length]; omega)
      constructor
      · intro x hx
        rcases List.mem_cons.mp hx with hx | hx
        · subst hx; exact hv
        · exact hfit x hx
      refine ⟨by rw [hpos, hwpos, h2n]; omega, ?_, ?_, ?_⟩
      · exact le_trans (OutFile.length_le_write out (le16 v)) hlen
      · rw [h2n, readRaw_split]
        have hfirst : readRaw out2.data out.pos 2 = le16 v := by
          rw [readRaw_two _ _ hout2len]
          have hb0 := hb 0 (by omega)
          rw [Nat.add_zero] at hb0
          rw [hb0, hb 1 (by omega)]
          rfl
        rw [hfirst]
        rw [← hwpos, hslice]
        rfl
      · intro i hi hdisj
        have h1 : byteAt out2.data i = byteAt (out.write (le16 v)).data i := by
          apply hframe
          · exact lt_of_lt_of_le hi (OutFile.length_le_write out (le16 v))
          · rcases hdisj with hd | hd
            · left; omega
            · right; omega
        rw [h1]
        apply OutFile.write_frame
        · exact hi
        · rcases hdisj with hd | hd
          · left; exact hd
          · right; rw [le16_length]; omega
    · simp only [reduceIte, hv] at h
      simp [except_bind_err] at h

/-- Writing one directory's 2-byte-typed offset array. -/
theorem writeOffsetArrayOne_short_ok (ifd : IFD3) (out out2 : OutFile)
    (hty : offsetsTagType ifd = Except.ok TIFF_SHORT)
    (h : writeOffsetArrayOne ifd out = Except.ok out2) :
    (∀ v ∈ ifd.strile_offset_out, v < 65536) ∧
    ∃ ooo, ifd.offset_out_offsets = some ooo ∧
      out2.pos = ooo + 2 * ifd.strile_offset_out.length ∧
      out.data.length ≤ out2.data.length ∧
      readRaw out2.data ooo (2 * ifd.strile_offset_out.length)
        = leArr16 ifd.strile_offset_out ∧
      (∀ i, i < out.data.length →
        (i < ooo ∨ ooo + 2 * ifd.strile_offset_out.length ≤ i) →
        byteAt out2.data i = byteAt out.data i) := by
  unfold writeOffsetArrayOne at h
  rw [hty] at h
  simp only [except_bind_ok] at h
  cases hooo : ifd.offset_out_offsets with
  | none => rw [hooo] at h; simp [except_bind_err] at h
  | some ooo =>
    rw [hooo] at h
    simp only [except_bind_ok] at h
    rw [show (decide True) = true from rfl] at h
    obtain ⟨hfit, hpos, hlen, hslice, hframe⟩ :=
      writeOffsetVals_true_ok ifd.strile_offset_out (out.seek ooo) out2 h
    exact ⟨hfit, ooo, rfl, hpos, hlen, hslice, hframe⟩

/-- Offset fitting propagates through the whole offset-array pass. -/
theorem pass5_short_fit :
    ∀ (ifds : List IFD3) (out out2 : OutFile),
      pass5 ifds out = Except.ok out2 →
      ∀ ifd ∈ ifds, offsetsTagType ifd = Except.ok TIFF_SHORT →
      ∀ v ∈ ifd.strile_offset_out, v < 65536
  | [], out, out2, h => by
    intro ifd hifd
    simp at hifd
  | ifd0 :: rest, out, out2, h => by
    intro ifd hifd hty v hv
    rw [pass5] at h
    cases hw : writeOffsetArrayOne ifd0 out with
    | error e => rw [hw] at h; simp [except_bind_err] at h
    | ok out1 =>
      rw [hw] at h
      simp only [except_bind_ok] at h
      rcases List.mem_cons.mp hifd with heq | hmem
      · subst heq
        exact (writeOffsetArrayOne_short_ok ifd out out1 hty hw).1 v hv
      · exact pass5_short_fit rest out1 out2 h ifd hmem hty v hv

/-- Claim C3: if a directory's strile offset array is declared with the
2-byte element type, the pass aborts fatally whenever a recorded offset
exceeds 65535 (never writing a wrapped or truncated element), and offsets
that fit are written as 2-byte little-endian elements; consequently a
successful conversion has every 2-byte-typed offset at most 65535. -/
theorem claim_C3 :
    (∀ ifd out out2, offsetsTagType ifd = Except.ok TIFF_SHORT →
      writeOffsetArrayOne ifd out = Except.ok out2 →
      (∀ v ∈ ifd.strile_offset_out, v ≤ 65535) ∧
      ∃ ooo, ifd.offset_out_offsets = some ooo ∧
        readRaw out2.data ooo (2 * ifd.strile_offset_out.length)
          = leArr16 ifd.strile_offset_out) ∧
    (∀ ifd out, offsetsTagType ifd = Except.ok TIFF_SHORT →
      (∃ v ∈ ifd.strile_offset_out, 65535 < v) →
      ∀ out2, writeOffsetArrayOne ifd out ≠ Except.ok out2) ∧
    (∀ inp d fuel r, generate_optimized_file inp d fuel = Except.ok r →
      ∀ ifd ∈ r.ifds, offsetsTagType ifd = Except.ok TIFF_SHORT →
      ∀ v ∈ ifd.strile_offset_out, v ≤ 65535) := by
  refine ⟨?_, ?_, ?_⟩
  · intro ifd out out2 hty h
    obtain ⟨hfit, ooo, hooo, _, _, hslice, _⟩ :=
      writeOffsetArrayOne_short_ok ifd out out2 hty h
    exact ⟨fun v hv => by have := hfit v hv; omega, ooo, hooo, hslice⟩
  · intro ifd out hty hbig out2 h
    obtain ⟨v, hv, hvbig⟩ := hbig
    have := (writeOffsetArrayOne_short_ok ifd out out2 hty h).1 v hv
    omega
  · intro inp d fuel r h ifd hifd hty v hv
    obtain ⟨hsig, nio, st, hnio, hp1, hfin⟩ := generate_ok_inv h
    obtain ⟨i2, o2, o3, i3, o4, i4, o5, o6, hlen, hp2, hp3, hp4, hp5, hp6,
      hr⟩ := finishFile_ok_inv hfin
    have hifds : r.ifds = i4 := by rw [hr]
    rw [hifds] at hifd
    have := pass5_short_fit i4 o5 o6 hp6 ifd hifd hty v hv
    omega

/-- Witness for C3 on a concrete directory whose offset array is declared
with the 2-byte SHORT type and whose recorded offsets 300 and 400 fit. -/
theorem claim_C3_witness :
    (∀ v ∈ ([300, 400] : List Nat), v ≤ 65535) ∧
    ∃ ooo, (some 10 : Option Nat) = some ooo ∧
      readRaw ((((⟨List.replicate 20 0, 0⟩ : OutFile).seek 10).write
        (le16 300)).write (le16 400)).data ooo (2 * 2)
        = leArr16 [300, 400] :=
  claim_C3.1 ⟨[(273, ⟨3, 2, [1, 2, 3, 4], 90⟩)], some 10, 2, 1, [0, 0],
    [0, 0], [300, 400]⟩ ⟨List.replicate 20 0, 0⟩
    ((((⟨List.replicate 20 0, 0⟩ : OutFile).seek 10).write
      (le16 300)).write (le16 400)) rfl rfl

/-! ### Claim C9: error provenance -/

theorem errProvOk_not_unknown {e : ConvError}
    (h1 : e ≠ ConvError.badSignature)
    (h2 : ∀ t, e ≠ ConvError.unknownTagType t) : ErrProvOk e :=
  ⟨h1, fun t ht => absurd ht (h2 t)⟩

theorem errProv_bind {α β : Type} {x : Except ConvError α}
    {f : α → Except ConvError β} {e : ConvError}
    (h : (x >>= f) = Except.error e)
    (hx : ∀ e2, x = Except.error e2 → ErrProvOk e2)
    (hf : ∀ a, f a = Except.error e → ErrProvOk e) : ErrProvOk e := by
  cases x with
  | error e2 =>
    simp only [except_bind_err, Except.error.injEq] at h
    subst h
    exact hx _ rfl
  | ok a =>
    simp only [except_bind_ok] at h
    exact hf a h

theorem rd16_err {bs : List Nat} {e : ConvError}
    (h : rd16 bs = Except.error e) : ErrProvOk e := by
  unfold rd16 at h
  split at h
  · simp at h
  · simp only [Except.error.injEq] at h
    subst h
    exact errProvOk_not_unknown (by simp) (by simp)

theorem rd32_err {bs : List Nat} {e : ConvError}
    (h : rd32 bs = Except.error e) : ErrProvOk e := by
  unfold rd32 at h
  split at h
  · simp at h
  · simp only [Except.error.injEq] at h
    subst h
    exact errProvOk_not_unknown (by simp) (by simp)

theorem w16_err {f : OutFile} {v : Nat} {e : ConvError}
    (h : f.w16 v = Except.error e) : ErrProvOk e := by
  unfold OutFile.w16 at h
  split at h
  · simp at h
  · simp only [Except.error.injEq] at h
    subst h
    exact errProvOk_not_unknown (by simp) (by simp)

theorem w32_err {f : OutFile} {v : Nat} {e : ConvError}
    (h : f.w32 v = Except.error e) : ErrProvOk e := by
  unfold OutFile.w32 at h
  split at h
  · simp at h
  · simp only [Except.error.injEq] at h
    subst h
    exact errProvOk_not_unknown (by simp) (by simp)

theorem getTag_err {d : List (Nat × OfflineTag)} {k : Nat} {e : ConvError}
    (h : getTag d k = Except.error e) : ErrProvOk e := by
  unfold getTag at h
  split at h
  · simp at h
  · simp only [Except.error.injEq] at h
    subst h
    exact errProvOk_not_unknown (by simp) (by simp)

theorem listGet_err {l : List Nat} {i : Nat} {e : ConvError}
    (h : listGet l i = Except.error e) : ErrProvOk e := by
  unfold listGet at h
  split at h
  · simp at h
  · simp only [Except.error.injEq] at h
    subst h
    exact errProvOk_not_unknown (by simp) (by simp)

theorem listSetE_err {l : List Nat} {i v : Nat} {e : ConvError}
    (h : listSetE l i v = Except.error e) : ErrProvOk e := by
  unfold listSetE at h
  split at h
  · simp at h
  · simp only [Except.error.injEq] at h
    subst h
    exact errProvOk_not_unknown (by simp) (by simp)

theorem unpack_array_err {t : OfflineTag} {e : ConvError}
    (h : t.unpack_array = Except.error e) : ErrProvOk e := by
  unfold OfflineTag.unpack_array at h
  split at h
  · split at h
    · simp at h
    · simp only [Except.error.injEq] at h
      subst h
      exact errProvOk_not_unknown (by simp) (by simp)
  · split at h
    · split at h
      · simp at h
      · simp only [Except.error.injEq] at h
        subst h
        exact errProvOk_not_unknown (by simp) (by simp)
    · simp only [Except.error.injEq] at h
      subst h
      exact errProvOk_not_unknown (by simp) (by simp)

theorem processOneTag_err {inp : List Nat} {cache : List (List Nat × Nat)}
    {st : TagLoopState} {e : ConvError}
    (h : processOneTag inp cache st = Except.error e) : ErrProvOk e := by
  unfold processOneTag at h
  refine errProv_bind h (fun e2 h2 => rd16_err h2) (fun tagid h => ?_)
  refine errProv_bind h (fun e2 h2 => rd16_err h2) (fun tagtype h => ?_)
  refine errProv_bind h (fun e2 h2 => rd32_err h2) (fun tagnvalues h => ?_)
  refine errProv_bind h (fun e2 h2 => rd32_err h2) (fun tagvalueoroffset h => ?_)
  dsimp only at h
  cases hts : typesize tagtype with
  | none =>
    rw [hts] at h
    simp only [Except.error.injEq] at h
    subst h
    refine ⟨by simp, ?_⟩
    intro t ht
    simp only [ConvError.unknownTagType.injEq] at ht
    subst ht
    exact hts
  | some tsz =>
    rw [hts] at h
    dsimp only at h
    refine errProv_bind h (fun e2 h2 => w16_err h2) (fun out1 h => ?_)
    refine errProv_bind h (fun e2 h2 => w16_err h2) (fun out2 h => ?_)
    refine errProv_bind h (fun e2 h2 => w32_err h2) (fun out3 h => ?_)
    split at h
    · refine errProv_bind h (fun e2 h2 => w32_err h2) (fun out4 h => ?_)
      simp at h
    · cases hcf : (if reuse_offlinedata then
          cacheFind cache (readRaw inp tagvalueoroffset (tsz * tagnvalues))
          else none) with
      | some off =>
        rw [hcf] at h
        dsimp only at h
        refine errProv_bind h (fun e2 h2 => w32_err h2) (fun out4 h => ?_)
        simp at h
      | none =>
        rw [hcf] at h
        dsimp only at h
        refine errProv_bind h (fun e2 h2 => w32_err h2) (fun out4 h => ?_)
        simp at h

theorem processTags_err {inp : List Nat} {cache : List (List Nat × Nat)} :
    ∀ {n : Nat} {st : TagLoopState} {e : ConvError},
      processTags inp cache n st = Except.error e → ErrProvOk e := by
  intro n
  induction n with
  | zero =>
    intro st e h
    simp [processTags] at h
  | succ m ih =>
    intro st e h
    rw [processTags] at h
    refine errProv_bind h (fun e2 h2 => processOneTag_err h2)
      (fun st2 h => ih h)

theorem alignIfdStart_err {out : OutFile} {p : Nat} {e : ConvError}
    (h : alignIfdStart out p = Except.error e) : ErrProvOk e := by
  unfold alignIfdStart at h
  dsimp only at h
  split at h
  · refine errProv_bind h (fun e2 h2 => w32_err h2) (fun g h => ?_)
    simp at h
  · refine errProv_bind h (fun e2 h2 => w32_err h2) (fun g h => ?_)
    simp at h

theorem writeOfflineEntry_err {numPrevIfds : Nat} {out : OutFile}
    {cache : List (List Nat × Nat)} {id : Nat} {tag : OfflineTag}
    {e : ConvError}
    (h : writeOfflineEntry numPrevIfds out cache id tag = Except.error e) :
    ErrProvOk e := by
  unfold writeOfflineEntry at h
  split at h
  · simp at h
  · split at h
    · simp at h
    · refine errProv_bind h (fun e2 h2 => w32_err h2) (fun g h => ?_)
      simp at h

theorem writeOfflineData_err {numPrevIfds : Nat} :
    ∀ {l : List (Nat × OfflineTag)} {out : OutFile}
      {cache : List (List Nat × Nat)} {e : ConvError},
      writeOfflineData numPrevIfds l out cache = Except.error e →
      ErrProvOk e := by
  intro l
  induction l with
  | nil =>
    intro out cache e h
    simp [writeOfflineData] at h
  | cons pr rest ih =>
    intro out cache e h
    obtain ⟨id, tag⟩ := pr
    rw [writeOfflineData] at h
    refine errProv_bind h (fun e2 h2 => writeOfflineEntry_err h2)
      (fun pr2 h => ?_)
    obtain ⟨out2, cache2⟩ := pr2
    exact ih h

theorem pass1_err {inp : List Nat} :
    ∀ {fuel nio : Nat} {st : Pass1State} {e : ConvError},
      pass1 inp fuel nio st = Except.error e → ErrProvOk e := by
  intro fuel
  induction fuel with
  | zero =>
    intro nio st e h
    match nio, h with
    | 0, h => simp [pass1] at h
    | n + 1, h =>
      simp only [pass1, Except.error.injEq] at h
      subst h
      exact errProvOk_not_unknown (by simp) (by simp)
  | succ m ih =>
    intro nio st e h
    match nio, h with
    | 0, h => simp [pass1] at h
    | n + 1, h =>
      rw [pass1] at h
      refine errProv_bind h (fun e2 h2 => alignIfdStart_err h2)
        (fun pr h => ?_)
      obtain ⟨out, cur_pos⟩ := pr
      refine errProv_bind h (fun e2 h2 => rd16_err h2) (fun numtags h => ?_)
      refine errProv_bind h (fun e2 h2 => w16_err h2) (fun out1 h => ?_)
      refine errProv_bind h (fun e2 h2 => processTags_err h2)
        (fun tls h => ?_)
      refine errProv_bind h (fun e2 h2 => rd32_err h2) (fun next2 h => ?_)
      dsimp only at h
      refine errProv_bind h (fun e2 h2 => w32_err h2) (fun out2 h => ?_)
      refine errProv_bind h (fun e2 h2 => writeOfflineData_err h2)
        (fun pr2 h => ?_)
      obtain ⟨out3, cache2⟩ := pr2
      exact ih h

theorem strileArrayEntry_err {out : OutFile} {ooo : Option Nat} {id : Nat}
    {tag : OfflineTag} {e : ConvError}
    (h : strileArrayEntry out ooo id tag = Except.error e) : ErrProvOk e := by
  unfold strileArrayEntry at h
  split at h
  · simp at h
  · refine errProv_bind h (fun e2 h2 => w32_err h2) (fun g h => ?_)
    dsimp only at h
    split at h
    · simp at h
    · simp at h

theorem strileArrayLoop_err :
    ∀ {l : List (Nat × OfflineTag)} {out : OutFile} {ooo : Option Nat}
      {e : ConvError},
      strileArrayLoop l out ooo = Except.error e → ErrProvOk e := by
  intro l
  induction l with
  | nil =>
    intro out ooo e h
    simp [strileArrayLoop] at h
  | cons pr rest ih =>
    intro out ooo e h
    obtain ⟨id, tag⟩ := pr
    rw [strileArrayLoop] at h
    refine errProv_bind h (fun e2 h2 => strileArrayEntry_err h2)
      (fun pr2 h => ?_)
    obtain ⟨out2, ooo2⟩ := pr2
    exact ih h

theorem pass2_err :
    ∀ {l : List IFD1} {out : OutFile} {e : ConvError},
      pass2 l out = Except.error e → ErrProvOk e := by
  intro l
  induction l with
  | nil =>
    intro out e h
    simp [pass2] at h
  | cons ifd rest ih =>
    intro out e h
    rw [pass2] at h
    refine errProv_bind h (fun e2 h2 => strileArrayLoop_err h2)
      (fun pr h => ?_)
    obtain ⟨out2, ooo⟩ := pr
    refine errProv_bind h (fun e2 h2 => ih h2) (fun pr2 h => ?_)
    obtain ⟨l2, out3⟩ := pr2
    simp at h

theorem writeGdalOne_err {out : OutFile} {ifd : IFD2} {e : ConvError}
    (h : writeGdalOne out ifd = Except.error e) : ErrProvOk e := by
  unfold writeGdalOne at h
  split at h
  · simp at h
  · refine errProv_bind h (fun e2 h2 => w32_err h2) (fun g h => ?_)
    simp at h

theorem pass3_err :
    ∀ {l : List IFD2} {out : OutFile} {e : ConvError},
      pass3 l out = Except.error e → ErrProvOk e := by
  intro l
  induction l with
  | nil =>
    intro out e h
    simp [pass3] at h
  | cons ifd rest ih =>
    intro out e h
    rw [pass3] at h
    refine errProv_bind h (fun e2 h2 => writeGdalOne_err h2)
      (fun out2 h => ?_)
    exact ih h

theorem resolveStriles_err {ifd : IFD2} {e : ConvError}
    (h : resolveStriles ifd = Except.error e) : ErrProvOk e := by
  unfold resolveStriles at h
  split at h
  · refine errProv_bind h (fun e2 h2 => getTag_err h2) (fun toff h => ?_)
    refine errProv_bind h (fun e2 h2 => getTag_err h2) (fun tcnt h => ?_)
    split at h
    · refine errProv_bind h (fun e2 h2 => unpack_array_err h2)
        (fun offs h => ?_)
      refine errProv_bind h (fun e2 h2 => unpack_array_err h2)
        (fun lens h => ?_)
      simp at h
    · simp only [Except.error.injEq] at h
      subst h
      exact errProvOk_not_unknown (by simp) (by simp)
  · refine errProv_bind h (fun e2 h2 => getTag_err h2) (fun toff h => ?_)
    refine errProv_bind h (fun e2 h2 => getTag_err h2) (fun tcnt h => ?_)
    split at h
    · refine errProv_bind h (fun e2 h2 => unpack_array_err h2)
        (fun offs h => ?_)
      refine errProv_bind h (fun e2 h2 => unpack_array_err h2)
        (fun lens h => ?_)
      simp at h
    · simp only [Except.error.injEq] at h
      subst h
      exact errProvOk_not_unknown (by simp) (by simp)

theorem copyStriles_err {inp : List Nat} {offsIn lensIn : List Nat} :
    ∀ {idxs offsOut : List Nat} {out : OutFile} {e : ConvError},
      copyStriles inp offsIn lensIn idxs offsOut out = Except.error e →
      ErrProvOk e := by
  intro idxs
  induction idxs with
  | nil =>
    intro offsOut out e h
    simp [copyStriles] at h
  | cons idx rest ih =>
    intro offsOut out e h
    rw [copyStriles] at h
    refine errProv_bind h (fun e2 h2 => listGet_err h2) (fun oin h => ?_)
    refine errProv_bind h (fun e2 h2 => listGet_err h2) (fun len h => ?_)
    dsimp only at h
    refine errProv_bind h (fun e2 h2 => listSetE_err h2)
      (fun offsOut2 h => ?_)
    exact ih h

theorem pixelPrimaryOne_err {inp : List Nat} {nbands : Nat} {ifd : IFD2}
    {out : OutFile} {e : ConvError}
    (h : pixelPrimaryOne inp nbands ifd out = Except.error e) :
    ErrProvOk e := by
  unfold pixelPrimaryOne at h
  refine errProv_bind h (fun e2 h2 => resolveStriles_err h2)
    (fun trip h => ?_)
  obtain ⟨num_striles, offsIn, lensIn⟩ := trip
  dsimp only at h
  split at h
  · refine errProv_bind h (fun e2 h2 => copyStriles_err h2)
      (fun pr h => ?_)
    obtain ⟨offsOut2, out2⟩ := pr
    simp at h
  · simp only [Except.error.injEq] at h
    subst h
    exact errProvOk_not_unknown (by simp) (by simp)

theorem pixelPrimary_err {inp : List Nat} {nbands : Nat} :
    ∀ {l : List IFD2} {out : OutFile} {e : ConvError},
      pixelPrimary inp nbands l out = Except.error e → ErrProvOk e := by
  intro l
  induction l with
  | nil =>
    intro out e h
    simp [pixelPrimary] at h
  | cons ifd rest ih =>
    intro out e h
    rw [pixelPrimary] at h
    refine errProv_bind h (fun e2 h2 => pixelPrimaryOne_err h2)
      (fun pr h => ?_)
    obtain ⟨ifd3, out2⟩ := pr
    refine errProv_bind h (fun e2 h2 => ih h2) (fun pr2 h => ?_)
    obtain ⟨l2, out3⟩ := pr2
    simp at h

theorem pixelErrorsOne_err {inp : List Nat} {ifd : IFD3} {out : OutFile}
    {e : ConvError}
    (h : pixelErrorsOne inp ifd out = Except.error e) : ErrProvOk e := by
  unfold pixelErrorsOne at h
  refine errProv_bind h (fun e2 h2 => copyStriles_err h2) (fun pr h => ?_)
  obtain ⟨offsOut, out2⟩ := pr
  simp at h

theorem pixelErrors_err {inp : List Nat} :
    ∀ {l : List IFD3} {out : OutFile} {e : ConvError},
      pixelErrors inp l out = Except.error e → ErrProvOk e := by
  intro l
  induction l with
  | nil =>
    intro out e h
    simp [pixelErrors] at h
  | cons ifd rest ih =>
    intro out e h
    rw [pixelErrors] at h
    refine errProv_bind h (fun e2 h2 => pixelErrorsOne_err h2)
      (fun pr h => ?_)
    obtain ⟨ifd3, out2⟩ := pr
    refine errProv_bind h (fun e2 h2 => ih h2) (fun pr2 h => ?_)
    obtain ⟨l2, out3⟩ := pr2
    simp at h

theorem offsetsTagType_err {ifd : IFD3} {e : ConvError}
    (h : offsetsTagType ifd = Except.error e) : ErrProvOk e := by
  unfold offsetsTagType at h
  split at h
  · refine errProv_bind h (fun e2 h2 => getTag_err h2) (fun t h => ?_)
    simp at h
  · refine errProv_bind h (fun e2 h2 => getTag_err h2) (fun t h => ?_)
    simp at h

theorem writeOffsetVals_err {short : Bool} :
    ∀ {vals : List Nat} {out : OutFile} {e : ConvError},
      writeOffsetVals short vals out = Except.error e → ErrProvOk e := by
  intro vals
  induction vals with
  | nil =>
    intro out e h
    simp [writeOffsetVals] at h
  | cons v rest ih =>
    intro out e h
    rw [writeOffsetVals] at h
    split at h
    · split at h
      · exact errProv_bind h (fun e2 h2 => w16_err h2) (fun out2 h => ih h)
      · refine errProv_bind h (fun e2 h2 => ?_) (fun out2 h => ih h)
        simp only [Except.error.injEq] at h2
        subst h2
        exact errProvOk_not_unknown (by simp) (by simp)
    · exact errProv_bind h (fun e2 h2 => w32_err h2) (fun out2 h => ih h)

theorem writeOffsetArrayOne_err {ifd : IFD3} {out : OutFile} {e : ConvError}
    (h : writeOffsetArrayOne ifd out = Except.error e) : ErrProvOk e := by
  unfold writeOffsetArrayOne at h
  refine errProv_bind h (fun e2 h2 => offsetsTagType_err h2)
    (fun tagtype h => ?_)
  refine errProv_bind h (fun e2 h2 => ?_) (fun ooo h => writeOffsetVals_err h)
  split at h2
  · simp at h2
  · simp only [Except.error.injEq] at h2
    subst h2
    exact errProvOk_not_unknown (by simp) (by simp)

theorem pass5_err :
    ∀ {l : List IFD3} {out : OutFile} {e : ConvError},
      pass5 l out = Except.error e → ErrProvOk e := by
  intro l
  induction l with
  | nil =>
    intro out e h
    simp [pass5] at h
  | cons ifd rest ih =>
    intro out e h
    rw [pass5] at h
    refine errProv_bind h (fun e2 h2 => writeOffsetArrayOne_err h2)
      (fun out2 h => ?_)
    exact ih h

theorem finishFile_err {inp : List Nat} {d : Bool} {essOff : Nat}
    {st : Pass1State} {e : ConvError}
    (h : finishFile inp d essOff st = Except.error e) : ErrProvOk e := by
  unfold finishFile at h
  dsimp only at h
  split at h
  · refine errProv_bind h (fun e2 h2 => pass2_err h2) (fun pr h => ?_)
    obtain ⟨ifds2, out2⟩ := pr
    refine errProv_bind h (fun e2 h2 => pass3_err h2) (fun out3 h => ?_)
    dsimp only at h
    refine errProv_bind h (fun e2 h2 => pixelPrimary_err h2)
      (fun pr2 h => ?_)
    obtain ⟨ifds3, out4⟩ := pr2
    refine errProv_bind h (fun e2 h2 => ?_) (fun pr3 h => ?_)
    · split at h2 <;> split at h2 <;>
        first
          | exact pixelErrors_err h2
          | simp at h2
    · obtain ⟨ifds4, out5⟩ := pr3
      refine errProv_bind h (fun e2 h2 => pass5_err h2) (fun out6 h => ?_)
      refine errProv_bind h (fun e2 h2 => w32_err h2) (fun out7 h => ?_)
      simp at h
  · simp only [Except.error.injEq] at h
    subst h
    exact errProvOk_not_unknown (by simp) (by simp)

theorem generate_err_of_sig {inp : List Nat} {d : Bool} {fuel : Nat}
    {e : ConvError} (hsig : readRaw inp 0 4 = tiffSignature)
    (h : generate_optimized_file inp d fuel = Except.error e) :
    ErrProvOk e := by
  unfold generate_optimized_file at h
  rw [hsig] at h
  simp only [reduceIte] at h
  refine errProv_bind h (fun e2 h2 => rd32_err h2) (fun nio h => ?_)
  refine errProv_bind h (fun e2 h2 => ?_) (fun out2 h => ?_)
  · exact absurd h2 (by rw [show ((⟨[], 0⟩ : OutFile).write
      tiffSignature).w32 3735928559 = Except.ok (((⟨[], 0⟩ : OutFile).write
      tiffSignature).write (le32 3735928559)) from rfl]; simp)
  · refine errProv_bind h (fun e2 h2 => pass1_err h2) (fun st h => ?_)
    exact finishFile_err h

/-- Claim C9: the conversion fails fatally with the bad-signature abort
exactly when the leading 4 bytes are not the little-endian classic magic,
and the unknown-type abort names a type absent from the fixed lookup
table; for inputs satisfying both conditions neither failure path is
taken. -/
theorem claim_C9 :
    (∀ (inp : List Nat) (d : Bool) (fuel : Nat),
      readRaw inp 0 4 ≠ tiffSignature →
      generate_optimized_file inp d fuel
        = Except.error ConvError.badSignature) ∧
    (∀ (inp : List Nat) (d : Bool) (fuel : Nat),
      readRaw inp 0 4 = tiffSignature →
      generate_optimized_file inp d fuel
        ≠ Except.error ConvError.badSignature) ∧
    (∀ (inp : List Nat) (d : Bool) (fuel : Nat) (t : Nat),
      generate_optimized_file inp d fuel
        = Except.error (ConvError.unknownTagType t) →
      typesize t = none) := by
  refine ⟨?_, ?_, ?_⟩
  · intro inp d fuel hsig
    unfold generate_optimized_file
    rw [if_neg hsig]
  · intro inp d fuel hsig h
    exact (generate_err_of_sig hsig h).1 rfl
  · intro inp d fuel t h
    by_cases hsig : readRaw inp 0 4 = tiffSignature
    · exact (generate_err_of_sig hsig h).2 t rfl
    · rw [show generate_optimized_file inp d fuel
          = Except.error ConvError.badSignature from by
        unfold generate_optimized_file; rw [if_neg hsig]] at h
      simp at h

/-- Witness for C9: a 4-zero-byte input aborts with the bad-signature
error, and a run on `inputB` (whose only field has type 99) aborts with
the unknown-type error, whose type is indeed absent from the table. -/
theorem claim_C9_witness :
    generate_optimized_file [0, 0, 0, 0] false 8
      = Except.error ConvError.badSignature ∧
    generate_optimized_file inputB false 8
      ≠ Except.error ConvError.badSignature ∧
    typesize 99 = none :=
  ⟨claim_C9.1 [0, 0, 0, 0] false 8 (by decide),
   claim_C9.2.1 inputB false 8 (by decide),
   claim_C9.2.2 inputB false 8 99 rfl⟩

/-! ### Claim C2: pixel-payload role grouping -/

theorem listGet_ok : ∀ {l : List Nat} {i v : Nat},
    listGet l i = Except.ok v → i < l.length ∧ byteAt l i = v := by
  intro l
  induction l with
  | nil => intro i v h; simp [listGet] at h
  | cons a rest ih =>
    intro i v h
    cases i with
    | zero =>
      simp only [listGet, List.get?, Except.ok.injEq] at h
      subst h
      exact ⟨by simp, rfl⟩
    | succ j =>
      have h2 : listGet rest j = Except.ok v := h
      obtain ⟨h3, h4⟩ := ih h2
      exact ⟨by simpa using Nat.succ_lt_succ h3, h4⟩

theorem listSetE_ok {l : List Nat} {i v : Nat} {l2 : List Nat}
    (h : listSetE l i v = Except.ok l2) :
    i < l.length ∧ l2 = l.set i v := by
  unfold listSetE at h
  split at h
  · simp only [Except.ok.injEq] at h
    constructor
    · assumption
    · exact h.symm
  · simp at h

theorem byteAt_set_self : ∀ (l : List Nat) (i v : Nat), i < l.length →
    byteAt (l.set i v) i = v := by
  intro l
  induction l with
  | nil => intro i v h; simp at h
  | cons a rest ih =>
    intro i v h
    cases i with
    | zero => rfl
    | succ j =>
      simp only [List.set, byteAt]
      exact ih j v (by simpa using Nat.lt_of_succ_lt_succ h)

theorem byteAt_set_other : ∀ (l : List Nat) (i j v : Nat), i ≠ j →
    byteAt (l.set i v) j = byteAt l j := by
  intro l
  induction l with
  | nil => intro i j v _; simp
  | cons a rest ih =>
    intro i j v hij
    cases i with
    | zero =>
      cases j with
      | zero => exact absurd rfl hij
      | succ j2 => rfl
    | succ i2 =>
      cases j with
      | zero => rfl
      | succ j2 =>
        simp only [List.set, byteAt]
        exact ih i2 j2 v (fun hc => hij (by rw [hc]))

theorem length_set (l : List Nat) (i v : Nat) :
    (l.set i v).length = l.length := by simp

/-- Range facts for one pixel-payload copy loop: the cursor only moves
forward, untouched slots keep their values, and every copied segment's
recorded offset lies between the entry cursor and the exit cursor, with
its (actually read) byte length fitting before the exit cursor. -/
theorem copyStriles_spec {inp offsIn lensIn : List Nat} :
    ∀ {idxs offsOut : List Nat} {out : OutFile} {offsOut2 : List Nat}
      {out2 : OutFile},
      copyStriles inp offsIn lensIn idxs offsOut out
        = Except.ok (offsOut2, out2) →
      offsOut2.length = offsOut.length ∧
      out.pos ≤ out2.pos ∧
      (∀ j, j ∉ idxs → byteAt offsOut2 j = byteAt offsOut j) ∧
      (∀ j, j ∈ idxs →
        out.pos ≤ byteAt offsOut2 j ∧
        byteAt offsOut2 j + (readRaw inp (byteAt offsIn j)
          (byteAt lensIn j)).length ≤ out2.pos) := by
  intro idxs
  induction idxs with
  | nil =>
    intro offsOut out offsOut2 out2 h
    simp only [copyStriles, Except.ok.injEq, Prod.mk.injEq] at h
    obtain ⟨h1, h2⟩ := h
    subst h1; subst h2
    refine ⟨rfl, le_refl _, fun j _ => rfl, fun j hj => absurd hj (by simp)⟩
  | cons idx rest ih =>
    intro offsOut out offsOut2 out2 h
    rw [copyStriles] at h
    cases hg1 : listGet offsIn idx with
    | error e => rw [hg1] at h; simp [except_bind_err] at h
    | ok oin =>
      rw [hg1] at h; simp only [except_bind_ok] at h
      cases hg2 : listGet lensIn idx with
      | error e => rw [hg2] at h; simp [except_bind_err] at h
      | ok len =>
        rw [hg2] at h; simp only [except_bind_ok] at h
        cases hs : listSetE offsOut idx out.tell with
        | error e => rw [hs] at h; simp [except_bind_err] at h
        | ok offsOut1 =>
          rw [hs] at h; simp only [except_bind_ok] at h
          obtain ⟨hidx, hset⟩ := listSetE_ok hs
          obtain ⟨hlen1, hpos1, hpres1, hrange1⟩ := ih h
          obtain ⟨hoin1, hoin2⟩ := listGet_ok hg1
          obtain ⟨hlen2a, hlen2b⟩ := listGet_ok hg2
          have hwpos : (out.write (readRaw inp oin len)).pos
              = out.pos + (readRaw inp oin len).length := rfl
          have hstep : out.pos ≤ (out.write (readRaw inp oin len)).pos := by
            rw [hwpos]
            omega
          have hfull : out.pos + (readRaw inp oin len).length ≤ out2.pos := by
            rw [← hwpos]
            exact hpos1
          refine ⟨by rw [hlen1, hset, length_set], le_trans hstep hpos1,
            ?_, ?_⟩
          · intro j hj
            have hj1 : j ≠ idx := fun hc => hj (by rw [hc]; simp)
            have hj2 : j ∉ rest := fun hc => hj (by simp [hc])
            rw [hpres1 j hj2, hset,
              byteAt_set_other _ _ _ _ (fun hc => hj1 hc.symm)]
          · intro j hj
            rcases List.mem_cons.mp hj with hj | hj
            · subst hj
              by_cases hjr : j ∈ rest
              · obtain ⟨hr1, hr2⟩ := hrange1 j hjr
                exact ⟨le_trans hstep hr1, hr2⟩
              · have hval : byteAt offsOut2 j = out.pos := by
                  rw [hpres1 j hjr, hset, byteAt_set_self _ _ _ hidx]
                  rfl
                rw [hval, hoin2, hlen2b]
                exact ⟨le_refl _, hfull⟩
            · obtain ⟨hr1, hr2⟩ := hrange1 j hj
              exact ⟨le_trans hstep hr1, hr2⟩

/-- The interleaved primary-band index set is exactly `[0, 2 * nspb)`. -/
theorem mem_strileIdxs_01 (nspb j : Nat) :
    j ∈ strileIdxs nspb [0, 1] ↔ j < 2 * nspb := by
  simp only [strileIdxs, List.mem_flatten, List.mem_map, List.mem_range]
  constructor
  · rintro ⟨s, ⟨i, hi, rfl⟩, hj⟩
    simp only [List.map_cons, List.map_nil, List.mem_cons,
      List.not_mem_nil, or_false] at hj
    omega
  · intro hj
    by_cases hb : j < nspb
    · refine ⟨List.map (fun b => nspb * b + j) [0, 1], ⟨j, hb, rfl⟩, ?_⟩
      simp only [List.map_cons, List.map_nil, List.mem_cons,
        List.not_mem_nil, or_false]
      omega
    · refine ⟨List.map (fun b => nspb * b + (j - nspb)) [0, 1],
        ⟨j - nspb, by omega, rfl⟩, ?_⟩
      simp only [List.map_cons, List.map_nil, List.mem_cons,
        List.not_mem_nil, or_false]
      omega

/-- The interleaved accuracy-band index set is exactly
`[2 * nspb, 4 * nspb)`. -/
theorem mem_strileIdxs_23 (nspb j : Nat) :
    j ∈ strileIdxs nspb [2, 3] ↔ 2 * nspb ≤ j ∧ j < 4 * nspb := by
  simp only [strileIdxs, List.mem_flatten, List.mem_map, List.mem_range]
  constructor
  · rintro ⟨s, ⟨i, hi, rfl⟩, hj⟩
    simp only [List.map_cons, List.map_nil, List.mem_cons,
      List.not_mem_nil, or_false] at hj
    omega
  · intro hj
    by_cases hb : j < 3 * nspb
    · refine ⟨List.map (fun b => nspb * b + (j - 2 * nspb)) [2, 3],
        ⟨j - 2 * nspb, by omega, rfl⟩, ?_⟩
      simp only [List.map_cons, List.map_nil, List.mem_cons,
        List.not_mem_nil, or_false]
      omega
    · refine ⟨List.map (fun b => nspb * b + (j - 3 * nspb)) [2, 3],
        ⟨j - 3 * nspb, by omega, rfl⟩, ?_⟩
      simp only [List.map_cons, List.map_nil, List.mem_cons,
        List.not_mem_nil, or_false]
      omega

/-- One directory of the primary-band pixel pass: recorded primary offsets
lie between the entry and exit cursors; all other slots stay zero. -/
theorem pixelPrimaryOne_spec {inp : List Nat} {nbands : Nat} {ifd : IFD2}
    {out : OutFile} {ifd3 : IFD3} {out2 : OutFile}
    (h : pixelPrimaryOne inp nbands ifd out = Except.ok (ifd3, out2)) :
    out.pos ≤ out2.pos ∧
    (∀ j ∈ strileIdxs ifd3.num_striles_per_band [0, 1],
      out.pos ≤ byteAt ifd3.strile_offset_out j ∧
      byteAt ifd3.strile_offset_out j + (readRaw inp
        (byteAt ifd3.strile_offset_in j)
        (byteAt ifd3.strile_length_in j)).length ≤ out2.pos) ∧
    (∀ j, j ∉ strileIdxs ifd3.num_striles_per_band [0, 1] →
      byteAt ifd3.strile_offset_out j = 0) := by
  unfold pixelPrimaryOne at h
  cases hr : resolveStriles ifd with
  | error e => rw [hr] at h; simp [except_bind_err] at h
  | ok trip =>
    rw [hr] at h; simp only [except_bind_ok] at h
    obtain ⟨num_striles, offsIn, lensIn⟩ := trip
    dsimp only at h
    split at h
    · cases hc : copyStriles inp offsIn lensIn
          (strileIdxs (num_striles / nbands) [0, 1])
          (List.replicate num_striles 0) out with
      | error e => rw [hc] at h; simp [except_bind_err] at h
      | ok pr =>
        rw [hc] at h; simp only [except_bind_ok] at h
        obtain ⟨offsOut2, outc⟩ := pr
        simp only [Except.ok.injEq, Prod.mk.injEq] at h
        obtain ⟨h1, h2⟩ := h
        subst h2
        obtain ⟨hlen, hpos, hpres, hrange⟩ := copyStriles_spec hc
        subst h1
        refine ⟨hpos, ?_, ?_⟩
        · intro j hj
          exact hrange j hj
        · intro j hj
          rw [hpres j hj]
          have : ∀ (n : Nat) (k : Nat),
              byteAt (List.replicate n (0 : Nat)) k = 0 := by
            intro n
            induction n with
            | zero => intro k; simp [byteAt]
            | succ m ihm =>
              intro k
              cases k with
              | zero => rfl
              | succ k2 => exact ihm k2
          exact this num_striles j
    · simp at h

/-- The primary-band pixel pass over all directories. -/
theorem pixelPrimary_spec {inp : List Nat} {nbands : Nat} :
    ∀ {l : List IFD2} {out : OutFile} {l3 : List IFD3} {out2 : OutFile},
      pixelPrimary inp nbands l out = Except.ok (l3, out2) →
      out.pos ≤ out2.pos ∧
      ∀ ifd3 ∈ l3,
        (∀ j ∈ strileIdxs ifd3.num_striles_per_band [0, 1],
          out.pos ≤ byteAt ifd3.strile_offset_out j ∧
          byteAt ifd3.strile_offset_out j + (readRaw inp
            (byteAt ifd3.strile_offset_in j)
            (byteAt ifd3.strile_length_in j)).length ≤ out2.pos) ∧
        (∀ j, j ∉ strileIdxs ifd3.num_striles_per_band [0, 1] →
          byteAt ifd3.strile_offset_out j = 0) := by
  intro l
  induction l with
  | nil =>
    intro out l3 out2 h
    simp only [pixelPrimary, Except.ok.injEq, Prod.mk.injEq] at h
    obtain ⟨h1, h2⟩ := h
    subst h1; subst h2
    exact ⟨le_refl _, fun ifd3 h3 => absurd h3 (by simp)⟩
  | cons ifd rest ih =>
    intro out l3 out2 h
    rw [pixelPrimary] at h
    cases h1 : pixelPrimaryOne inp nbands ifd out with
    | error e => rw [h1] at h; simp [except_bind_err] at h
    | ok pr =>
      rw [h1] at h; simp only [except_bind_ok] at h
      obtain ⟨ifd3, outm⟩ := pr
      cases h2 : pixelPrimary inp nbands rest outm with
      | error e => rw [h2] at h; simp [except_bind_err] at h
      | ok pr2 =>
        rw [h2] at h; simp only [except_bind_ok] at h
        obtain ⟨lrest, out3⟩ := pr2
        simp only [Except.ok.injEq, Prod.mk.injEq] at h
        obtain ⟨hl3, hout⟩ := h
        subst hl3; subst hout
        obtain ⟨hpos1, hr1, hz1⟩ := pixelPrimaryOne_spec h1
        obtain ⟨hpos2, hrest⟩ := ih h2
        refine ⟨le_trans hpos1 hpos2, ?_⟩
        intro x hx
        rcases List.mem_cons.mp hx with hx | hx
        · subst hx
          refine ⟨?_, hz1⟩
          intro j hj
          obtain ⟨ha, hb⟩ := hr1 j hj
          exact ⟨ha, le_trans hb hpos2⟩
        · obtain ⟨ha, hb⟩ := hrest x hx
          refine ⟨?_, hb⟩
          intro j hj
          obtain ⟨hc, hd⟩ := ha j hj
          exact ⟨le_trans hpos1 hc, hd⟩

/-- One directory of the accuracy-band pixel pass: primary slots are
preserved, accuracy offsets are at least the entry cursor, and the
per-directory geometry fields are unchanged. -/
theorem pixelErrorsOne_spec {inp : List Nat} {ifd : IFD3} {out : OutFile}
    {ifd4 : IFD3} {out2 : OutFile}
    (h : pixelErrorsOne inp ifd out = Except.ok (ifd4, out2)) :
    out.pos ≤ out2.pos ∧
    ifd4.num_striles_per_band = ifd.num_striles_per_band ∧
    ifd4.strile_offset_in = ifd.strile_offset_in ∧
    ifd4.strile_length_in = ifd.strile_length_in ∧
    (∀ j, j ∉ strileIdxs ifd.num_striles_per_band [2, 3] →
      byteAt ifd4.strile_offset_out j = byteAt ifd.strile_offset_out j) ∧
    (∀ j ∈ strileIdxs ifd.num_striles_per_band [2, 3],
      out.pos ≤ byteAt ifd4.strile_offset_out j) := by
  unfold pixelErrorsOne at h
  cases hc : copyStriles inp ifd.strile_offset_in ifd.strile_length_in
      (strileIdxs ifd.num_striles_per_band [2, 3])
      ifd.strile_offset_out out with
  | error e => rw [hc] at h; simp [except_bind_err] at h
  | ok pr =>
    rw [hc] at h; simp only [except_bind_ok] at h
    obtain ⟨offsOut, outc⟩ := pr
    simp only [Except.ok.injEq, Prod.mk.injEq] at h
    obtain ⟨h1, h2⟩ := h
    subst h2
    obtain ⟨hlen, hpos, hpres, hrange⟩ := copyStriles_spec hc
    subst h1
    exact ⟨hpos, rfl, rfl, rfl, hpres, fun j hj => (hrange j hj).1⟩

/-- The accuracy-band pixel pass over all directories. -/
theorem pixelErrors_spec {inp : List Nat} :
    ∀ {l3 : List IFD3} {out : OutFile} {l4 : List IFD3} {out2 : OutFile},
      pixelErrors inp l3 out = Except.ok (l4, out2) →
      out.pos ≤ out2.pos ∧
      ∀ ifd4 ∈ l4, ∃ ifd3 ∈ l3,
        ifd4.num_striles_per_band = ifd3.num_striles_per_band ∧
        ifd4.strile_offset_in = ifd3.strile_offset_in ∧
        ifd4.strile_length_in = ifd3.strile_length_in ∧
        (∀ j, j ∉ strileIdxs ifd3.num_striles_per_band [2, 3] →
          byteAt ifd4.strile_offset_out j
            = byteAt ifd3.strile_offset_out j) ∧
        (∀ j ∈ strileIdxs ifd3.num_striles_per_band [2, 3],
          out.pos ≤ byteAt ifd4.strile_offset_out j) := by
  intro l3
  induction l3 with
  | nil =>
    intro out l4 out2 h
    simp only [pixelErrors, Except.ok.injEq, Prod.mk.injEq] at h
    obtain ⟨h1, h2⟩ := h
    subst h1; subst h2
    exact ⟨le_refl _, fun ifd4 h4 => absurd h4 (by simp)⟩
  | cons ifd rest ih =>
    intro out l4 out2 h
    rw [pixelErrors] at h
    cases h1 : pixelErrorsOne inp ifd out with
    | error e => rw [h1] at h; simp [except_bind_err] at h
    | ok pr =>
      rw [h1] at h; simp only [except_bind_ok] at h
      obtain ⟨ifd4, outm⟩ := pr
      cases h2 : pixelErrors inp rest outm with
      | error e => rw [h2] at h; simp [except_bind_err] at h
      | ok pr2 =>
        rw [h2] at h; simp only [except_bind_ok] at h
        obtain ⟨lrest, out3⟩ := pr2
        simp only [Except.ok.injEq, Prod.mk.injEq] at h
        obtain ⟨hl4, hout⟩ := h
        subst hl4; subst hout
        obtain ⟨hpos1, hn1, hoi1, hli1, hpres1, hrange1⟩ :=
          pixelErrorsOne_spec h1
        obtain ⟨hpos2, hrest⟩ := ih h2
        refine ⟨le_trans hpos1 hpos2, ?_⟩
        intro x hx
        rcases List.mem_cons.mp hx with hx | hx
        · subst hx
          exact ⟨ifd, by simp, hn1, hoi1, hli1, hpres1, hrange1⟩
        · obtain ⟨ifd3, hmem, ha, hb, hc, hd, he⟩ := hrest x hx
          exact ⟨ifd3, by simp [hmem], ha, hb, hc, hd,
            fun j hj => le_trans hpos1 (he j hj)⟩

/-- Claim C2 (amended): with accuracy bands present (band count 4), every
primary-band payload segment's output offset is at most every
accuracy-band payload segment's output offset, across the whole file, and
strictly below it whenever the primary segment's bytes actually read from
the input are non-empty. -/
theorem claim_C2 (inp : List Nat) (fuel : Nat) (r : ConvResult)
    (h : generate_optimized_file inp false fuel = Except.ok r) :
    ∀ a ∈ r.ifds, ∀ b ∈ r.ifds,
    ∀ i, i < 2 * a.num_striles_per_band →
    ∀ j, 2 * b.num_striles_per_band ≤ j → j < 4 * b.num_striles_per_band →
    byteAt a.strile_offset_out i ≤ byteAt b.strile_offset_out j ∧
    (1 ≤ (readRaw inp (byteAt a.strile_offset_in i)
      (byteAt a.strile_length_in i)).length →
      byteAt a.strile_offset_out i < byteAt b.strile_offset_out j) := by
  intro a ha b hb i hi j hj1 hj2
  obtain ⟨hsig, nio, st, hnio, hp1, hfin⟩ := generate_ok_inv h
  obtain ⟨ifds2, out2, out3, ifds3, out4, ifds4, out5, out6, hlen, hp2,
    hp3, hp4, hp5, hp6, hr⟩ := finishFile_ok_inv hfin
  have hp4b : pixelPrimary inp 4 ifds2 out3 = Except.ok (ifds3, out4) := by
    simpa using hp4
  have hp5b : pixelErrors inp ifds3 out4 = Except.ok (ifds4, out5) := by
    simpa using hp5
  have hifds : r.ifds = ifds4 := by rw [hr]
  rw [hifds] at ha hb
  obtain ⟨hposP, hprim⟩ := pixelPrimary_spec hp4b
  obtain ⟨hposE, herr⟩ := pixelErrors_spec hp5b
  obtain ⟨a3, ha3, hnA, hoiA, hliA, hpresA, _⟩ := herr a ha
  obtain ⟨b3, hb3, hnB, _, _, _, hrangeB⟩ := herr b hb
  have hiA : i < 2 * a3.num_striles_per_band := by rw [← hnA]; exact hi
  have hi23 : i ∉ strileIdxs a3.num_striles_per_band [2, 3] := by
    rw [mem_strileIdxs_23]
    omega
  have hval : byteAt a.strile_offset_out i
      = byteAt a3.strile_offset_out i := hpresA i hi23
  have hi01 : i ∈ strileIdxs a3.num_striles_per_band [0, 1] :=
    (mem_strileIdxs_01 _ _).mpr hiA
  obtain ⟨hlo, hhi⟩ := (hprim a3 ha3).1 i hi01
  have hj23 : j ∈ strileIdxs b3.num_striles_per_band [2, 3] := by
    rw [mem_strileIdxs_23]
    rw [← hnB]
    omega
  have hwb : out4.pos ≤ byteAt b.strile_offset_out j := hrangeB j hj23
  rw [← hval, ← hoiA, ← hliA] at hhi
  constructor
  · omega
  · intro hpos
    omega

/-- Counterexample to C2 as frozen: on `inputA` (band count 4, one
directory, 4 zero-length strips) the run succeeds and the primary segment
at strile index 0 has output offset 140, equal to — not strictly less
than — the accuracy segment's output offset at strile index 2. -/
theorem claim_C2_counterexample :
    genOk inputA false 8 = true ∧
    ((genIfds inputA false 8).getD 0 dIFD3).num_striles_per_band = 1 ∧
    byteAt ((genIfds inputA false 8).getD 0 dIFD3).strile_offset_out 0
      = 140 ∧
    byteAt ((genIfds inputA false 8).getD 0 dIFD3).strile_offset_out 2
      = 140 := by
  refine ⟨by decide, by decide, by decide, by decide⟩

/-- Witness for C2 on `inputF` (4 one-byte strips): the primary segment at
index 0 lands strictly before the accuracy segment at index 2. -/
theorem claim_C2_witness :
    byteAt ((genIfds inputF false 8).getD 0 dIFD3).strile_offset_out 0
      < byteAt ((genIfds inputF false 8).getD 0 dIFD3).strile_offset_out 2 := by
  cases hg : generate_optimized_file inputF false 8 with
  | error e =>
    have hok : genOk inputF false 8 = true := by decide
    unfold genOk at hok
    rw [hg] at hok
    simp at hok
  | ok r =>
    have hgen : genIfds inputF false 8 = r.ifds := by
      unfold genIfds
      rw [hg]
    have hmem : (genIfds inputF false 8).getD 0 dIFD3 ∈ r.ifds := by
      rw [← hgen]
      decide
    have h := claim_C2 inputF 8 r hg
      ((genIfds inputF false 8).getD 0 dIFD3) hmem
      ((genIfds inputF false 8).getD 0 dIFD3) hmem
      0 (by decide) 2 (by decide) (by decide)
    exact h.2 (by decide)

/-! ### Claims C4 and C5: deduplication behaviour -/

/-- The auxiliary-payload loop skips strile tags entirely: neither a write
nor a cache registration happens for them. -/
theorem writeOfflineEntry_strile (numPrevIfds : Nat) (out : OutFile)
    (cache : List (List Nat × Nat)) (id : Nat) (tag : OfflineTag)
    (h : isStrileTag id = true) :
    writeOfflineEntry numPrevIfds out cache id tag
      = Except.ok (out, cache) := by
  unfold writeOfflineEntry
  rw [h]
  rfl

/-- The auxiliary-payload loop on an eligible tag: the placeholder is
patched with the current cursor, the payload bytes are appended there once,
and exactly that pair is registered in the deduplication cache. -/
theorem writeOfflineEntry_eligible (numPrevIfds : Nat) (out : OutFile)
    (cache : List (List Nat × Nat)) (id : Nat) (tag : OfflineTag)
    (hns : isStrileTag id = false)
    (hgd : id = TIFFTAG_GDAL_METADATA → numPrevIfds = 0)
    (hlt : out.pos < 4294967296) :
    writeOfflineEntry numPrevIfds out cache id tag
      = Except.ok ((((out.seek tag.fileoffset_in_out_ifd).write
          (le32 out.pos)).seek out.pos).write tag.data,
        cacheInsert cache tag.data out.pos) := by
  unfold writeOfflineEntry
  rw [hns]
  have hcond : (decide (id = TIFFTAG_GDAL_METADATA)
      && decide ¬numPrevIfds = 0) = false := by
    by_cases hid : id = TIFFTAG_GDAL_METADATA
    · simp [hid, hgd hid]
    · simp [hid]
  have hw : ((out.seek tag.fileoffset_in_out_ifd)).w32 out.tell
      = Except.ok ((out.seek tag.fileoffset_in_out_ifd).write
        (le32 out.tell)) := by
    simp only [OutFile.w32, OutFile.tell, OutFile.seek]
    rw [if_pos hlt]
  simp only [Bool.false_eq_true, reduceIte, ne_eq, hcond, hw,
    except_bind_ok, reuse_offlinedata]
  rfl

/-- Exactness of the deduplication-cache lookup: a hit always returns an
entry whose key is byte-for-byte the looked-up content. -/
theorem cacheFind_exact :
    ∀ (c : List (List Nat × Nat)) (d : List Nat) (o : Nat),
      cacheFind c d = some o → (d, o) ∈ c := by
  intro c
  induction c with
  | nil => intro d o h; simp [cacheFind] at h
  | cons pr rest ih =>
    intro d o h
    obtain ⟨k, v⟩ := pr
    rw [cacheFind] at h
    by_cases hk : k = d
    · rw [if_pos hk] at h
      simp only [Option.some.injEq] at h
      subst h
      subst hk
      simp
    · rw [if_neg hk] at h
      exact List.mem_cons_of_mem _ (ih d o h)

/-- Claim C4 (amended): strile offset/bytecount fields are never
registered in the deduplication cache and contribute no auxiliary-payload
write, and a strile field whose content misses the cache is kept as a
directory-specific placeholder; the cache lookup, however, does apply to
strile fields (see the counterexample). -/
theorem claim_C4 :
    (∀ (numPrevIfds : Nat) (out : OutFile)
      (cache : List (List Nat × Nat)) (id : Nat) (tag : OfflineTag),
      isStrileTag id = true →
      writeOfflineEntry numPrevIfds out cache id tag
        = Except.ok (out, cache)) ∧
    (∀ (inp : List Nat) (cache : List (List Nat × Nat))
      (st : TagLoopState)
      (tagid tagtype tagnvalues tagvalueoroffset tsz : Nat),
      (∀ b ∈ inp, b < 256) →
      rd16 (readRaw inp st.inPos 2) = Except.ok tagid →
      rd16 (readRaw inp (st.inPos + 2) 2) = Except.ok tagtype →
      rd32 (readRaw inp (st.inPos + 4) 4) = Except.ok tagnvalues →
      rd32 (readRaw inp (st.inPos + 8) 4) = Except.ok tagvalueoroffset →
      typesize tagtype = some tsz →
      isStrileTag tagid = true →
      4 < tsz * tagnvalues →
      cacheFind cache (readRaw inp tagvalueoroffset (tsz * tagnvalues))
        = none →
      processOneTag inp cache st = Except.ok ⟨st.inPos + 12,
        (((st.out.write (le16 tagid)).write (le16 tagtype)).write
          (le32 tagnvalues)).write (le32 3735928559),
        dictInsert st.tagdict tagid ⟨tagtype, tagnvalues,
          readRaw inp tagvalueoroffset (tsz * tagnvalues),
          st.out.pos + 8⟩⟩) :=
  ⟨writeOfflineEntry_strile,
   fun inp cache st tagid tagtype tagnvalues tagvalueoroffset tsz hbytes
     h1 h2 h3 h4 h5 _ hgt hcf =>
   ((processOneTag_spec inp cache st tagid tagtype tagnvalues
     tagvalueoroffset tsz hbytes h1 h2 h3 h4 h5).2 hgt).2.2 hcf⟩

/-- Counterexample to C4 as frozen, on `inputC`: the run completes, the
payload `bytesD` of directory 0's auxiliary tag is registered in the cache
at output offset 120, and directory 1's strip-offsets field record (the
second directory starts at 128, so its first field's value slot is
`[138, 142)`) holds a pointer to that previously registered payload. -/
theorem claim_C4_counterexample :
    genOk inputC true 8 = true ∧
    genRecs inputC true 8 = [⟨78, 3, 116⟩, ⟨128, 3, 166⟩] ∧
    genCacheFind inputC true 8 bytesD = some 120 ∧
    readRaw (genData inputC true 8) 130 8
      = le16 273 ++ le16 4 ++ le32 2 ∧
    readRaw (genData inputC true 8) 138 4 = le32 120 ∧
    readRaw (genData inputC true 8) 120 8 = bytesD := by
  refine ⟨by decide, by decide, by decide, by decide, by decide, by decide⟩

/-- Witness for C4: a strile tag is skipped by the auxiliary-payload loop,
and `inputA`'s strip-offsets field (16 zero bytes, absent from the cache
`[(bytesD, 120)]`) is emitted as a placeholder and recorded in the
directory's tag dictionary rather than deduplicated. -/
theorem claim_C4_witness :
    writeOfflineEntry 0 headerOut [(bytesD, 120)] 273
      ⟨4, 4, List.replicate 16 0, 88⟩
      = Except.ok (headerOut, [(bytesD, 120)]) ∧
    processOneTag inputA [(bytesD, 120)] ⟨10, headerOut, []⟩
      = Except.ok ⟨22,
        (((headerOut.write (le16 273)).write (le16 4)).write
          (le32 4)).write (le32 3735928559),
        dictInsert [] 273 ⟨4, 4, readRaw inputA 38 16, 86⟩⟩ :=
  ⟨claim_C4.1 0 headerOut [(bytesD, 120)] 273 ⟨4, 4, List.replicate 16 0, 88⟩
    (by decide),
   claim_C4.2 inputA [(bytesD, 120)] ⟨10, headerOut, []⟩ 273 4 4 38 4
    (by decide) rfl rfl rfl rfl rfl (by decide) (by decide) rfl⟩

/-- Claim C5: dedup-cache lookups are exact byte-content equality; a hit
emits only a 4-byte pointer to the cached offset with no payload bytes
appended; an eligible miss appends the payload once at the current cursor
and registers exactly that offset; and on the concrete `inputE` (identical
eligible content `bytesE` in two directories) the output holds exactly one
copy of `bytesE`, at offset 120, with both directories' field records
holding that same offset. -/
theorem claim_C5 :
    (∀ (c : List (List Nat × Nat)) (d : List Nat) (o : Nat),
      cacheFind c d = some o → (d, o) ∈ c) ∧
    (∀ (inp : List Nat) (cache : List (List Nat × Nat))
      (st : TagLoopState)
      (tagid tagtype tagnvalues tagvalueoroffset tsz off : Nat),
      (∀ b ∈ inp, b < 256) →
      rd16 (readRaw inp st.inPos 2) = Except.ok tagid →
      rd16 (readRaw inp (st.inPos + 2) 2) = Except.ok tagtype →
      rd32 (readRaw inp (st.inPos + 4) 4) = Except.ok tagnvalues →
      rd32 (readRaw inp (st.inPos + 8) 4) = Except.ok tagvalueoroffset →
      typesize tagtype = some tsz →
      4 < tsz * tagnvalues →
      cacheFind cache (readRaw inp tagvalueoroffset (tsz * tagnvalues))
        = some off → off < 4294967296 →
      processOneTag inp cache st = Except.ok ⟨st.inPos + 12,
        (((st.out.write (le16 tagid)).write (le16 tagtype)).write
          (le32 tagnvalues)).write (le32 off), st.tagdict⟩) ∧
    (∀ (numPrevIfds : Nat) (out : OutFile)
      (cache : List (List Nat × Nat)) (id : Nat) (tag : OfflineTag),
      isStrileTag id = false →
      (id = TIFFTAG_GDAL_METADATA → numPrevIfds = 0) →
      out.pos < 4294967296 →
      writeOfflineEntry numPrevIfds out cache id tag
        = Except.ok ((((out.seek tag.fileoffset_in_out_ifd).write
            (le32 out.pos)).seek out.pos).write tag.data,
          cacheInsert cache tag.data out.pos)) ∧
    (genOk inputE true 8 = true ∧
     countSublist (genData inputE true 8) bytesE = 1 ∧
     readRaw (genData inputE true 8) 120 8 = bytesE ∧
     readRaw (genData inputE true 8) 112 4 = le32 120 ∧
     readRaw (genData inputE true 8) 162 4 = le32 120) := by
  refine ⟨cacheFind_exact, ?_, writeOfflineEntry_eligible,
    by decide, by decide, by decide, by decide, by decide⟩
  intro inp cache st tagid tagtype tagnvalues tagvalueoroffset tsz off
    hbytes h1 h2 h3 h4 h5 hgt hcf hofflt
  exact ((processOneTag_spec inp cache st tagid tagtype tagnvalues
    tagvalueoroffset tsz hbytes h1 h2 h3 h4 h5).2 hgt).2.1 off hcf hofflt

/-- Witness for C5: a concrete exact-equality cache hit, a concrete hit
step that emits only the cached pointer, and a concrete eligible miss that
appends and registers the payload. -/
theorem claim_C5_witness :
    ((bytesE, 120) ∈ [(bytesD, 119), (bytesE, 120)]) ∧
    processOneTag inputE [(List.replicate 8 0, 95)] ⟨10, headerOut, []⟩
      = Except.ok ⟨22,
        (((headerOut.write (le16 273)).write (le16 4)).write
          (le32 2)).write (le32 95), []⟩ ∧
    writeOfflineEntry 0 ⟨List.replicate 120 0, 120⟩ [] 1000
      ⟨1, 8, bytesE, 112⟩
      = Except.ok (((((⟨List.replicate 120 0, 120⟩ : OutFile).seek
          112).write (le32 120)).seek 120).write bytesE,
        [(bytesE, 120)]) :=
  ⟨claim_C5.1 [(bytesD, 119), (bytesE, 120)] bytesE 120 (by decide),
   claim_C5.2.1 inputE [(List.replicate 8 0, 95)] ⟨10, headerOut, []⟩
     273 4 2 92 4 95 (by decide) rfl rfl rfl rfl rfl (by decide) rfl
     (by decide),
   claim_C5.2.2.1 0 ⟨List.replicate 120 0, 120⟩ [] 1000 ⟨1, 8, bytesE, 112⟩
     (by decide) (fun hc => absurd hc (by decide)) (by decide)⟩

/-! ### Frame lemmas for the directory pass -/

theorem dictInsert_mem {d : List (Nat × OfflineTag)} {k : Nat}
    {v : OfflineTag} :
    ∀ pr ∈ dictInsert d k v, pr ∈ d ∨ pr = (k, v) := by
  induction d with
  | nil =>
    intro pr hpr
    simp only [dictInsert, List.mem_singleton] at hpr
    exact Or.inr hpr
  | cons p2 rest ih =>
    intro pr hpr
    obtain ⟨k2, v2⟩ := p2
    rw [dictInsert] at hpr
    split at hpr
    · rcases List.mem_cons.mp hpr with hpr | hpr
      · exact Or.inr hpr
      · exact Or.inl (List.mem_cons_of_mem _ hpr)
    · rcases List.mem_cons.mp hpr with hpr | hpr
      · exact Or.inl (by simp [hpr])
      · rcases ih pr hpr with hp | hp
        · exact Or.inl (List.mem_cons_of_mem _ hp)
        · exact Or.inr hp

theorem dictFind_mem {d : List (Nat × OfflineTag)} {k : Nat}
    {t : OfflineTag} (h : dictFind d k = some t) : (k, t) ∈ d := by
  induction d with
  | nil => simp [dictFind] at h
  | cons p2 rest ih =>
    obtain ⟨k2, v2⟩ := p2
    rw [dictFind] at h
    split at h
    · rename_i hk
      simp only [Option.some.injEq] at h
      subst h
      subst hk
      simp
    · exact List.mem_cons_of_mem _ (ih h)

/-- A write with the cursor at (or past) the end of the data modifies no
existing byte. -/
theorem OutFile.write_frame_end (f : OutFile) (bs : List Nat) (i : Nat)
    (hi : i < f.data.length) (hp : f.data.length ≤ f.pos) :
    byteAt (f.write bs).data i = byteAt f.data i :=
  OutFile.write_frame f bs i hi (Or.inl (by omega))

/-- A write with the cursor at the end keeps the cursor at the end. -/
theorem OutFile.write_pos_end (f : OutFile) (bs : List Nat)
    (hp : f.pos = f.data.length) :
    (f.write bs).pos = (f.write bs).data.length := by
  rw [OutFile.write_pos, OutFile.write_length]
  omega

/-- Frame facts for one field-record step of the directory pass: the input
cursor and output cursor each advance by 12, writes are pure appends, and
any new tag-dictionary entry records the value-slot of this record. -/
theorem processOneTag_frame {inp : List Nat} {cache : List (List Nat × Nat)}
    {st tls : TagLoopState}
    (h : processOneTag inp cache st = Except.ok tls)
    (hpl : st.out.pos = st.out.data.length) :
    tls.inPos = st.inPos + 12 ∧
    tls.out.pos = st.out.pos + 12 ∧
    tls.out.pos = tls.out.data.length ∧
    st.out.data.length ≤ tls.out.data.length ∧
    (∀ i, i < st.out.data.length →
      byteAt tls.out.data i = byteAt st.out.data i) ∧
    (∀ pr ∈ tls.tagdict, pr ∈ st.tagdict ∨
      (pr.2 : OfflineTag).fileoffset_in_out_ifd = st.out.pos + 8) := by
  unfold processOneTag at h
  cases h1 : rd16 (readRaw inp st.inPos 2) with
  | error e => rw [h1] at h; simp [except_bind_err] at h
  | ok tagid =>
  rw [h1] at h; simp only [except_bind_ok] at h
  cases h2 : rd16 (readRaw inp (st.inPos + 2) 2) with
  | error e => rw [h2] at h; simp [except_bind_err] at h
  | ok tagtype =>
  rw [h2] at h; simp only [except_bind_ok] at h
  cases h3 : rd32 (readRaw inp (st.inPos + 4) 4) with
  | error e => rw [h3] at h; simp [except_bind_err] at h
  | ok tagnvalues =>
  rw [h3] at h; simp only [except_bind_ok] at h
  cases h4 : rd32 (readRaw inp (st.inPos + 8) 4) with
  | error e => rw [h4] at h; simp [except_bind_err] at h
  | ok tagvalueoroffset =>
  rw [h4] at h; simp only [except_bind_ok] at h
  cases h5 : typesize tagtype with
  | none => rw [h5] at h; simp at h
  | some tsz =>
  rw [h5] at h
  dsimp only at h
  cases hw1 : st.out.w16 tagid with
  | error e => rw [hw1] at h; simp [except_bind_err] at h
  | ok o1 =>
  rw [hw1] at h; simp only [except_bind_ok] at h
  obtain ⟨hb1, ho1⟩ := OutFile.w16_ok _ _ _ hw1
  cases hw2 : o1.w16 tagtype with
  | error e => rw [hw2] at h; simp [except_bind_err] at h
  | ok o2 =>
  rw [hw2] at h; simp only [except_bind_ok] at h
  obtain ⟨hb2, ho2⟩ := OutFile.w16_ok _ _ _ hw2
  cases hw3 : o2.w32 tagnvalues with
  | error e => rw [hw3] at h; simp [except_bind_err] at h
  | ok o3 =>
  rw [hw3] at h; simp only [except_bind_ok] at h
  obtain ⟨hb3, ho3⟩ := OutFile.w32_ok _ _ _ hw3
  have hpos1 : o1.pos = st.out.pos + 2 := by
    rw [ho1, OutFile.write_pos, le16_length]
  have hpos2 : o2.pos = st.out.pos + 4 := by
    rw [ho2, OutFile.write_pos, le16_length, hpos1]
  have hpos3 : o3.pos = st.out.pos + 8 := by
    rw [ho3, OutFile.write_pos, le32_length, hpos2]
  have hpl1 : o1.pos = o1.data.length := by
    rw [ho1]; exact OutFile.write_pos_end _ _ hpl
  have hpl2 : o2.pos = o2.data.length := by
    rw [ho2]; exact OutFile.write_pos_end _ _ hpl1
  have hpl3 : o3.pos = o3.data.length := by
    rw [ho3]; exact OutFile.write_pos_end _ _ hpl2
  have hfr1 : ∀ i, i < st.out.data.length →
      byteAt o1.data i = byteAt st.out.data i := by
    intro i hi
    rw [ho1]
    exact OutFile.write_frame_end _ _ _ hi (le_of_eq hpl.symm)
  have hlen1 : st.out.data.length ≤ o1.data.length := by
    rw [ho1]; exact OutFile.length_le_write _ _
  have hfr2 : ∀ i, i < st.out.data.length →
      byteAt o2.data i = byteAt st.out.data i := by
    intro i hi
    rw [ho2]
    rw [OutFile.write_frame_end _ _ _ (lt_of_lt_of_le hi hlen1)
      (le_of_eq hpl1.symm)]
    exact hfr1 i hi
  have hlen2 : st.out.data.length ≤ o2.data.length := by
    rw [ho2]
    exact le_trans hlen1 (OutFile.length_le_write _ _)
  have hfr3 : ∀ i, i < st.out.data.length →
      byteAt o3.data i = byteAt st.out.data i := by
    intro i hi
    rw [ho3]
    rw [OutFile.write_frame_end _ _ _ (lt_of_lt_of_le hi hlen2)
      (le_of_eq hpl2.symm)]
    exact hfr2 i hi
  have hlen3 : st.out.data.length ≤ o3.data.length := by
    rw [ho3]
    exact le_trans hlen2 (OutFile.length_le_write _ _)
  have hfinal : ∀ (v : Nat) (o4 : OutFile), o3.w32 v = Except.ok o4 →
      o4.pos = st.out.pos + 12 ∧ o4.pos = o4.data.length ∧
      st.out.data.length ≤ o4.data.length ∧
      (∀ i, i < st.out.data.length →
        byteAt o4.data i = byteAt st.out.data i) := by
    intro v o4 hw4
    obtain ⟨hb4, ho4⟩ := OutFile.w32_ok _ _ _ hw4
    refine ⟨?_, ?_, ?_, ?_⟩
    · rw [ho4, OutFile.write_pos, le32_length, hpos3]
    · rw [ho4]; exact OutFile.write_pos_end _ _ hpl3
    · rw [ho4]; exact le_trans hlen3 (OutFile.length_le_write _ _)
    · intro i hi
      rw [ho4]
      rw [OutFile.write_frame_end _ _ _ (lt_of_lt_of_le hi hlen3)
        (le_of_eq hpl3.symm)]
      exact hfr3 i hi
  split at h
  · cases hw4 : o3.w32 tagvalueoroffset with
    | error e => rw [hw4] at h; simp [except_bind_err] at h
    | ok o4 =>
      rw [hw4] at h; simp only [except_bind_ok, Except.ok.injEq] at h
      subst h
      obtain ⟨ha, hb, hc, hd⟩ := hfinal _ _ hw4
      exact ⟨rfl, ha, hb, hc, hd, fun pr hpr => Or.inl hpr⟩
  · cases hcf : (if reuse_offlinedata then
        cacheFind cache (readRaw inp tagvalueoroffset (tsz * tagnvalues))
        else none) with
    | some off =>
      rw [hcf] at h
      dsimp only at h
      cases hw4 : o3.w32 off with
      | error e => rw [hw4] at h; simp [except_bind_err] at h
      | ok o4 =>
        rw [hw4] at h; simp only [except_bind_ok, Except.ok.injEq] at h
        subst h
        obtain ⟨ha, hb, hc, hd⟩ := hfinal _ _ hw4
        exact ⟨rfl, ha, hb, hc, hd, fun pr hpr => Or.inl hpr⟩
    | none =>
      rw [hcf] at h
      dsimp only at h
      cases hw4 : o3.w32 3735928559 with
      | error e => rw [hw4] at h; simp [except_bind_err] at h
      | ok o4 =>
        rw [hw4] at h; simp only [except_bind_ok, Except.ok.injEq] at h
        subst h
        obtain ⟨ha, hb, hc, hd⟩ := hfinal _ _ hw4
        refine ⟨rfl, ha, hb, hc, hd, ?_⟩
        intro pr hpr
        rcases dictInsert_mem pr hpr with hp | hp
        · exact Or.inl hp
        · right
          rw [hp]
          simp only [OutFile.tell]
          rw [hpos3]

/-- A successful 4-byte read pinned to a 4-byte value bounds the data
length. -/
theorem readRaw_four_le {l : List Nat} {pos v : Nat}
    (h : readRaw l pos 4 = le32 v) : pos + 4 ≤ l.length := by
  have := congrArg List.length h
  rw [readRaw_length, le32_length] at this
  omega

theorem readRaw_two_le {l : List Nat} {pos v : Nat}
    (h : readRaw l pos 2 = le16 v) : pos + 2 ≤ l.length := by
  have := congrArg List.length h
  rw [readRaw_length, le16_length] at this
  omega

theorem rd16_le16 {v : Nat} (h : v < 65536) : rd16 (le16 v) = Except.ok v := by
  simp only [le16, rd16, Except.ok.injEq]
  omega

theorem rd32_le32 {v : Nat} (h : v < 4294967296) :
    rd32 (le32 v) = Except.ok v := by
  simp only [le32, rd32, Except.ok.injEq]
  omega

/-- A seek followed by a successful 4-byte pack: the patch lands at the
seek target and the cursor ends right after it. -/
theorem seekW32_ok {f : OutFile} {s v : Nat} {g : OutFile}
    (h : (f.seek s).w32 v = Except.ok g) :
    v < 4294967296 ∧ g.data = writeList f.data s (le32 v) ∧ g.pos = s + 4 := by
  obtain ⟨hv, hg⟩ := OutFile.w32_ok _ _ _ h
  subst hg
  exact ⟨hv, rfl, rfl⟩

/-- Frame facts for the whole field-record loop of one directory: the
cursors advance by 12 bytes per record, all writes are appends, and every
new tag-dictionary entry records a value slot inside this directory
record. -/
theorem processTags_frame {inp : List Nat} {cache : List (List Nat × Nat)} :
    ∀ (n : Nat) (st tls : TagLoopState),
    processTags inp cache n st = Except.ok tls →
    st.out.pos = st.out.data.length →
    tls.inPos = st.inPos + 12 * n ∧
    tls.out.pos = st.out.pos + 12 * n ∧
    tls.out.pos = tls.out.data.length ∧
    st.out.data.length ≤ tls.out.data.length ∧
    (∀ i, i < st.out.data.length →
      byteAt tls.out.data i = byteAt st.out.data i) ∧
    (∀ pr ∈ tls.tagdict, pr ∈ st.tagdict ∨
      (st.out.pos + 8 ≤ (pr.2 : OfflineTag).fileoffset_in_out_ifd ∧
       (pr.2 : OfflineTag).fileoffset_in_out_ifd + 4 ≤ tls.out.pos)) := by
  intro n
  induction n with
  | zero =>
    intro st tls h hpl
    simp only [processTags, Except.ok.injEq] at h
    subst h
    exact ⟨by omega, by omega, hpl, le_refl _, fun i _ => rfl,
      fun pr hpr => Or.inl hpr⟩
  | succ m ih =>
    intro st tls h hpl
    simp only [processTags] at h
    cases h1 : processOneTag inp cache st with
    | error e => rw [h1] at h; simp [except_bind_err] at h
    | ok st1 =>
    rw [h1] at h; simp only [except_bind_ok] at h
    obtain ⟨ha1, hb1, hc1, hd1, he1, hf1⟩ := processOneTag_frame h1 hpl
    obtain ⟨ha2, hb2, hc2, hd2, he2, hf2⟩ := ih st1 tls h hc1
    refine ⟨by omega, by omega, hc2, le_trans hd1 hd2, ?_, ?_⟩
    · intro i hi
      rw [he2 i (lt_of_lt_of_le hi hd1)]
      exact he1 i hi
    · intro pr hpr
      rcases hf2 pr hpr with hp | hp
      · rcases hf1 pr hp with hq | hq
        · exact Or.inl hq
        · exact Or.inr ⟨by omega, by omega⟩
      · exact Or.inr ⟨by omega, by omega⟩

/-- Frame facts for one entry of the auxiliary-payload loop: with the
cursor at the end and the entry slot inside the data, the only existing
bytes modified are the 4 bytes of that slot. -/
theorem writeOfflineEntry_frame {n : Nat} {out : OutFile}
    {c : List (List Nat × Nat)} {id : Nat} {tag : OfflineTag} {out2 : OutFile}
    {c2 : List (List Nat × Nat)}
    (h : writeOfflineEntry n out c id tag = Except.ok (out2, c2))
    (hpl : out.pos = out.data.length)
    (hsl : tag.fileoffset_in_out_ifd + 4 ≤ out.data.length) :
    out2.pos = out2.data.length ∧ out.data.length ≤ out2.data.length ∧
    ∀ i, i < out.data.length →
      (i < tag.fileoffset_in_out_ifd ∨ tag.fileoffset_in_out_ifd + 4 ≤ i) →
      byteAt out2.data i = byteAt out.data i := by
  unfold writeOfflineEntry at h
  split at h
  · simp only [Except.ok.injEq, Prod.mk.injEq] at h
    obtain ⟨h1, _⟩ := h
    subst h1
    exact ⟨hpl, le_refl _, fun i _ _ => rfl⟩
  split at h
  · simp only [Except.ok.injEq, Prod.mk.injEq] at h
    obtain ⟨h1, _⟩ := h
    subst h1
    exact ⟨hpl, le_refl _, fun i _ _ => rfl⟩
  · dsimp only [OutFile.tell] at h
    cases hw : (out.seek tag.fileoffset_in_out_ifd).w32 out.pos with
    | error e => rw [hw] at h; simp [except_bind_err] at h
    | ok g =>
    rw [hw] at h; simp only [except_bind_ok, Except.ok.injEq,
      Prod.mk.injEq] at h
    obtain ⟨hv, hgd, hgp⟩ := seekW32_ok hw
    obtain ⟨h1, _⟩ := h
    have hglen : g.data.length = out.data.length := by
      rw [hgd, writeList_length, le32_length]
      omega
    have hfin : out2 = ((g.seek out.pos).write tag.data) := h1.symm
    have hlen2 : out2.data.length
        = max out.data.length (out.pos + tag.data.length) := by
      rw [hfin]
      show (writeList g.data out.pos tag.data).length = _
      rw [writeList_length, hglen]
    refine ⟨?_, ?_, ?_⟩
    · rw [hfin]
      show out.pos + tag.data.length = (writeList g.data out.pos tag.data).length
      rw [writeList_length, hglen]
      omega
    · rw [hlen2]; omega
    · intro i hi hout
      rw [hfin]
      show byteAt (writeList g.data out.pos tag.data) i = _
      rw [byteAt_writeList_outside _ _ _ _ (by omega) (by omega)]
      rw [hgd, byteAt_writeList_outside _ _ _ _ hi (by rw [le32_length]; omega)]

/-- Frame facts for the auxiliary-payload loop over a tag dictionary. -/
theorem writeOfflineData_frame {n : Nat} :
    ∀ (l : List (Nat × OfflineTag)) (out : OutFile)
      (c : List (List Nat × Nat)) (out2 : OutFile) (c2 : List (List Nat × Nat)),
    writeOfflineData n l out c = Except.ok (out2, c2) →
    out.pos = out.data.length →
    (∀ pr ∈ l, (pr.2 : OfflineTag).fileoffset_in_out_ifd + 4 ≤ out.data.length) →
    out2.pos = out2.data.length ∧ out.data.length ≤ out2.data.length ∧
    ∀ i, i < out.data.length →
      (∀ pr ∈ l, i < (pr.2 : OfflineTag).fileoffset_in_out_ifd ∨
        (pr.2 : OfflineTag).fileoffset_in_out_ifd + 4 ≤ i) →
      byteAt out2.data i = byteAt out.data i := by
  intro l
  induction l with
  | nil =>
    intro out c out2 c2 h hpl _
    simp only [writeOfflineData, Except.ok.injEq, Prod.mk.injEq] at h
    obtain ⟨h1, _⟩ := h
    subst h1
    exact ⟨hpl, le_refl _, fun i _ _ => rfl⟩
  | cons pr rest ih =>
    intro out c out2 c2 h hpl hsl
    simp only [writeOfflineData] at h
    cases h1 : writeOfflineEntry n out c pr.1 pr.2 with
    | error e => rw [h1] at h; simp [except_bind_err] at h
    | ok g =>
    rw [h1] at h
    obtain ⟨g1, gc⟩ := g
    simp only [except_bind_ok] at h
    obtain ⟨ha1, hb1, hc1⟩ := writeOfflineEntry_frame h1 hpl
      (hsl pr (List.mem_cons_self _ _))
    obtain ⟨ha2, hb2, hc2⟩ := ih g1 gc out2 c2 h ha1
      (fun q hq => le_trans (hsl q (List.mem_cons_of_mem _ hq)) hb1)
    refine ⟨ha2, le_trans hb1 hb2, ?_⟩
    intro i hi hout
    rw [hc2 i (lt_of_lt_of_le hi hb1)
      (fun q hq => hout q (List.mem_cons_of_mem _ hq))]
    exact hc1 i hi (hout pr (List.mem_cons_self _ _))

/-- Frame facts for the directory-start alignment step: with the cursor at
the end and the pointer cell inside the data, the cursor lands at the new
even start (at most one pad byte further), the data ends exactly there,
the pointer cell is patched, and no other existing byte changes. -/
theorem alignIfdStart_frame {out : OutFile} {p : Nat} {out2 : OutFile}
    {c : Nat} (h : alignIfdStart out p = Except.ok (out2, c))
    (hpl : out.pos = out.data.length) (hp : p + 4 ≤ out.pos) :
    out.pos ≤ c ∧ c ≤ out.pos + 1 ∧ c < 4294967296 ∧
    out2.pos = c ∧ out2.data.length = c ∧
    readRaw out2.data p 4 = le32 c ∧
    ∀ i, i < out.data.length → (i < p ∨ p + 4 ≤ i) →
      byteAt out2.data i = byteAt out.data i := by
  unfold alignIfdStart at h
  by_cases hodd : out.pos % 2 = 1
  · simp only [OutFile.tell, hodd, reduceIte] at h
    cases hw : ((out.write [0]).seek p).w32 (out.pos + 1) with
    | error e => rw [hw] at h; simp [except_bind_err] at h
    | ok g =>
      rw [hw] at h; simp only [except_bind_ok] at h
      obtain ⟨hc, hgd, hgp⟩ := seekW32_ok hw
      simp only [Except.ok.injEq, Prod.mk.injEq] at h
      obtain ⟨hout2, hcval⟩ := h
      subst hcval
      have hpadlen : (out.write [0]).data.length = out.pos + 1 := by
        rw [OutFile.write_length]
        simp only [List.length_cons, List.length_nil]
        omega
      have hglen : g.data.length = out.pos + 1 := by
        rw [hgd, writeList_length, hpadlen, le32_length]
        omega
      refine ⟨by omega, by omega, hc, by rw [← hout2]; rfl, ?_, ?_, ?_⟩
      · rw [← hout2]
        show g.data.length = _
        exact hglen
      · rw [← hout2]
        show readRaw g.data p 4 = _
        rw [hgd]
        have h4 : (4 : Nat) = (le32 (out.pos + 1)).length := rfl
        rw [h4]
        exact readRaw_writeList_self _ _ _
      · intro i hi hout
        rw [← hout2]
        show byteAt g.data i = _
        rw [hgd,
          byteAt_writeList_outside _ _ _ _ (by omega)
            (by rw [le32_length]; omega)]
        exact OutFile.write_frame_end _ _ _ hi (le_of_eq hpl.symm)
  · simp only [OutFile.tell, hodd, reduceIte] at h
    cases hw : (out.seek p).w32 out.pos with
    | error e => rw [hw] at h; simp [except_bind_err] at h
    | ok g =>
      rw [hw] at h; simp only [except_bind_ok] at h
      obtain ⟨hc, hgd, hgp⟩ := seekW32_ok hw
      simp only [Except.ok.injEq, Prod.mk.injEq] at h
      obtain ⟨hout2, hcval⟩ := h
      subst hcval
      have hglen : g.data.length = out.pos := by
        rw [hgd, writeList_length, le32_length]
        omega
      refine ⟨le_refl _, by omega, hc, by rw [← hout2]; rfl, ?_, ?_, ?_⟩
      · rw [← hout2]
        show g.data.length = _
        exact hglen
      · rw [← hout2]
        show readRaw g.data p 4 = _
        rw [hgd]
        have h4 : (4 : Nat) = (le32 out.pos).length := rfl
        rw [h4]
        exact readRaw_writeList_self _ _ _
      · intro i hi hout
        rw [← hout2]
        show byteAt g.data i = _
        rw [hgd]
        exact byteAt_writeList_outside _ _ _ _ hi
          (by rw [le32_length]; omega)

/-! ### Chain-layout lemmas -/

theorem chainInv_le {D : List Nat} :
    ∀ (L : List (IFD1 × IfdRec)) (p last : Nat),
    ChainInv D p L last → p ≤ last := by
  intro L
  induction L with
  | nil =>
    intro p last h
    simp only [ChainInv] at h
    omega
  | cons pr rest ih =>
    intro p last h
    simp only [ChainInv] at h
    obtain ⟨h1, h2, h3, h4, h5, h6, h7, h8, h9⟩ := h
    have := ih _ _ h9
    omega

theorem chainInv_mem {D : List Nat} :
    ∀ (L : List (IFD1 × IfdRec)) (p last : Nat),
    ChainInv D p L last → ∀ pr ∈ L,
    p + 4 ≤ (pr.2 : IfdRec).start ∧ 78 ≤ (pr.2 : IfdRec).start ∧
    (pr.2 : IfdRec).start < 4294967296 ∧
    (pr.2 : IfdRec).numtags < 65536 ∧
    (pr.2 : IfdRec).nextPtrPos
      = (pr.2 : IfdRec).start + 2 + 12 * (pr.2 : IfdRec).numtags ∧
    (pr.2 : IfdRec).nextPtrPos ≤ last ∧ SlotInv pr.1 pr.2 := by
  intro L
  induction L with
  | nil =>
    intro p last h pr hpr
    simp at hpr
  | cons pr0 rest ih =>
    intro p last h pr hpr
    simp only [ChainInv] at h
    obtain ⟨h1, h2, h3, h4, h5, h6, h7, h8, h9⟩ := h
    have htail := chainInv_le rest _ _ h9
    rcases List.mem_cons.mp hpr with hp | hp
    · subst hp
      exact ⟨h1, h2, h3, h4, h5, by omega, h8⟩
    · obtain ⟨g1, g2, g3, g4, g5, g6, g7⟩ := ih _ _ h9 pr hp
      exact ⟨by omega, g2, g3, g4, g5, g6, g7⟩

theorem chainInv_cellOf_facts {D : List Nat} :
    ∀ (L : List (IFD1 × IfdRec)) (p last a b : Nat),
    ChainInv D p L last → CellOf p L a b →
    p ≤ a ∧ a + b ≤ last ∧ a + b ≤ D.length ∧ b ≤ 4 ∧ (a = p ∨ 78 ≤ a) := by
  intro L
  induction L with
  | nil =>
    intro p last a b h hc
    simp only [CellOf] at hc
  | cons pr0 rest ih =>
    intro p last a b h hc
    simp only [ChainInv] at h
    obtain ⟨h1, h2, h3, h4, h5, h6, h7, h8, h9⟩ := h
    have htail := chainInv_le rest _ _ h9
    rcases hc with ⟨ha, hb⟩ | ⟨ha, hb⟩ | hc
    · subst ha; subst hb
      exact ⟨le_refl _, by omega, readRaw_four_le h6, by omega, Or.inl rfl⟩
    · subst ha; subst hb
      exact ⟨by omega, by omega, readRaw_two_le h7, by omega, Or.inr h2⟩
    · obtain ⟨g1, g2, g3, g4, g5⟩ := ih _ _ _ _ h9 hc
      exact ⟨by omega, g2, g3, g4, Or.inr (by omega)⟩

/-- The chain layout survives any rewrite of the data that keeps the bytes
of every structural cell. -/
theorem chainInv_frame {D D2 : List Nat} :
    ∀ (L : List (IFD1 × IfdRec)) (p last : Nat),
    ChainInv D p L last →
    (∀ a b, CellOf p L a b → readRaw D2 a b = readRaw D a b) →
    ChainInv D2 p L last := by
  intro L
  induction L with
  | nil =>
    intro p last h _
    simpa only [ChainInv] using h
  | cons pr0 rest ih =>
    intro p last h hag
    simp only [ChainInv] at h ⊢
    obtain ⟨h1, h2, h3, h4, h5, h6, h7, h8, h9⟩ := h
    refine ⟨h1, h2, h3, h4, h5, ?_, ?_, h8, ?_⟩
    · rw [hag p 4 (Or.inl ⟨rfl, rfl⟩)]
      exact h6
    · rw [hag _ 2 (Or.inr (Or.inl ⟨rfl, rfl⟩))]
      exact h7
    · exact ih _ _ h9 (fun a b hc => hag a b (Or.inr (Or.inr hc)))

/-- Appending one fully patched record at the pending pointer cell extends
the chain layout. -/
theorem chainInv_snoc {D : List Nat} :
    ∀ (L : List (IFD1 × IfdRec)) (p q s n : Nat) (ifd : IFD1),
    ChainInv D p L q → q + 4 ≤ s → 78 ≤ s → s < 4294967296 → n < 65536 →
    readRaw D q 4 = le32 s → readRaw D s 2 = le16 n →
    SlotInv ifd ⟨s, n, s + 2 + 12 * n⟩ →
    ChainInv D p (L ++ [(ifd, ⟨s, n, s + 2 + 12 * n⟩)]) (s + 2 + 12 * n) := by
  intro L
  induction L with
  | nil =>
    intro p q s n ifd h hq hs hs2 hn hcell hcnt hslot
    simp only [ChainInv] at h
    subst h
    simp only [List.nil_append, ChainInv]
    exact ⟨by omega, hs, hs2, hn, trivial, hcell, hcnt, hslot, trivial⟩
  | cons pr0 rest ih =>
    intro p q s n ifd h hq hs hs2 hn hcell hcnt hslot
    simp only [ChainInv] at h
    obtain ⟨h1, h2, h3, h4, h5, h6, h7, h8, h9⟩ := h
    simp only [List.cons_append, ChainInv]
    exact ⟨h1, h2, h3, h4, h5, h6, h7, h8,
      ih _ _ _ _ _ h9 hq hs hs2 hn hcell hcnt hslot⟩

/-- Every structural cell of the chain is disjoint from every recorded
value slot of every record in the chain. -/
theorem chainInv_cell_slot_disjoint {D : List Nat} :
    ∀ (L : List (IFD1 × IfdRec)) (p last a b : Nat),
    ChainInv D p L last → CellOf p L a b →
    ∀ pr ∈ L, ∀ q ∈ (pr.1 : IFD1).tagdict,
    a + b ≤ (q.2 : OfflineTag).fileoffset_in_out_ifd ∨
    (q.2 : OfflineTag).fileoffset_in_out_ifd + 4 ≤ a := by
  intro L
  induction L with
  | nil =>
    intro p last a b h hc
    simp only [CellOf] at hc
  | cons pr0 rest ih =>
    intro p last a b h hc pr hpr q hq
    simp only [ChainInv] at h
    obtain ⟨h1, h2, h3, h4, h5, h6, h7, h8, h9⟩ := h
    rcases List.mem_cons.mp hpr with hp | hp
    · subst hp
      obtain ⟨hsl1, hsl2⟩ := h8 q hq
      rcases hc with ⟨ha, hb⟩ | ⟨ha, hb⟩ | hc
      · subst ha; subst hb
        left; omega
      · subst ha; subst hb
        left; omega
      · have := (chainInv_cellOf_facts rest _ _ _ _ h9 hc).1
        right; omega
    · obtain ⟨g1, g2, g3, g4, g5, g6, g7⟩ := chainInv_mem rest _ _ h9 pr hp
      obtain ⟨hsl1, hsl2⟩ := g7 q hq
      rcases hc with ⟨ha, hb⟩ | ⟨ha, hb⟩ | hc
      · subst ha; subst hb
        left; omega
      · subst ha; subst hb
        left; omega
      · exact ih _ _ _ _ h9 hc pr hp q hq

/-- A well-formed chain whose pending cell holds zero is traversed by the
chain walker in exactly one step per record. -/
theorem walkChain_of_chain {D : List Nat} :
    ∀ (L : List (IFD1 × IfdRec)) (p last : Nat),
    ChainInv D p L last → readRaw D last 4 = le32 0 →
    ∃ v, rd32 (readRaw D p 4) = Except.ok v ∧
      walkChain D (L.length + 1) v = Except.ok L.length := by
  intro L
  induction L with
  | nil =>
    intro p last h hz
    simp only [ChainInv] at h
    subst h
    refine ⟨0, ?_, ?_⟩
    · rw [hz]
      exact rd32_le32 (by decide)
    · simp [walkChain]
  | cons pr0 rest ih =>
    intro p last h hz
    simp only [ChainInv] at h
    obtain ⟨h1, h2, h3, h4, h5, h6, h7, h8, h9⟩ := h
    obtain ⟨v2, hv2, hw2⟩ := ih _ _ h9 hz
    refine ⟨(pr0.2 : IfdRec).start, ?_, ?_⟩
    · rw [h6]
      exact rd32_le32 h3
    · simp only [List.length_cons]
      show walkChain D (rest.length + 1 + 1) (pr0.2 : IfdRec).start
        = Except.ok (rest.length + 1)
      rw [walkChain]
      rw [if_neg (by omega)]
      rw [h7, rd16_le16 h4, except_bind_ok]
      rw [← h5, hv2, except_bind_ok]
      rw [hw2, except_bind_ok]

/-- Master invariant of the directory pass: a successful run preserves the
layout invariant, moves the cursor forward, appends one chain record per
input directory, and the input-side directory chain is exactly the one the
chain walker counts. -/
theorem pass1_master {inp : List Nat} :
    ∀ (fuel nio : Nat) (st st2 : Pass1State),
    pass1 inp fuel nio st = Except.ok st2 → P1Inv st →
    P1Inv st2 ∧ st.out.pos ≤ st2.out.pos ∧
    ∃ k, st2.ifds.length = st.ifds.length + k ∧
      walkChain inp (fuel + 1) nio = Except.ok k := by
  intro fuel
  induction fuel with
  | zero =>
    intro nio st st2 h hinv
    match nio, h with
    | 0, h =>
      simp only [pass1, Except.ok.injEq] at h
      subst h
      exact ⟨hinv, le_refl _, 0, by omega, by simp [walkChain]⟩
  | succ f ih =>
    intro nio st st2 h hinv
    match nio, h with
    | 0, h =>
      simp only [pass1, Except.ok.injEq] at h
      subst h
      exact ⟨hinv, le_refl _, 0, by omega, by simp [walkChain]⟩
    | nio + 1, h =>
      obtain ⟨hpl, hge78, hnle, hnor, hleq, hchain⟩ := hinv
      rw [pass1] at h
      cases ha : alignIfdStart st.out st.next_ifd_offset_out_offset with
      | error e => rw [ha] at h; simp [except_bind_err] at h
      | ok pr =>
      obtain ⟨out, cur_pos⟩ := pr
      rw [ha] at h
      simp only [except_bind_ok] at h
      cases hn : rd16 (readRaw inp (nio + 1) 2) with
      | error e => rw [hn] at h; simp [except_bind_err] at h
      | ok numtags =>
      rw [hn] at h; simp only [except_bind_ok] at h
      cases hw : out.w16 numtags with
      | error e => rw [hw] at h; simp [except_bind_err] at h
      | ok out1 =>
      rw [hw] at h; simp only [except_bind_ok] at h
      cases ht : processTags inp st.cache numtags ⟨nio + 1 + 2, out1, []⟩ with
      | error e => rw [ht] at h; simp [except_bind_err] at h
      | ok tls =>
      rw [ht] at h; simp only [except_bind_ok] at h
      cases hx : rd32 (readRaw inp tls.inPos 4) with
      | error e => rw [hx] at h; simp [except_bind_err] at h
      | ok next2 =>
      rw [hx] at h; simp only [except_bind_ok] at h
      cases hw2 : tls.out.w32 3735928559 with
      | error e => rw [hw2] at h; simp [except_bind_err] at h
      | ok out2 =>
      rw [hw2] at h; simp only [except_bind_ok] at h
      cases hwo : writeOfflineData st.ifds.length tls.tagdict out2 st.cache with
      | error e => rw [hwo] at h; simp [except_bind_err] at h
      | ok pr2 =>
      obtain ⟨out3, cache2⟩ := pr2
      rw [hwo] at h; simp only [except_bind_ok] at h
      obtain ⟨hc1, hc2, hc3, hc4, hc5, hc6, hc7⟩ :=
        alignIfdStart_frame ha hpl (by omega)
      obtain ⟨hn16, ho1⟩ := OutFile.w16_ok _ _ _ hw
      have h1pos : out1.pos = cur_pos + 2 := by
        rw [ho1, OutFile.write_pos, le16_length, hc4]
      have h1len : out1.data.length = cur_pos + 2 := by
        rw [ho1, OutFile.write_length, le16_length, hc4, hc5]
        omega
      have h1pl : out1.pos = out1.data.length := by rw [h1pos, h1len]
      have h1cell : readRaw out1.data cur_pos 2 = le16 numtags := by
        rw [ho1, ← hc4]
        show readRaw (writeList out.data out.pos (le16 numtags)) out.pos 2 = _
        have h2l : (2 : Nat) = (le16 numtags).length := rfl
        rw [h2l]
        exact readRaw_writeList_self _ _ _
      have h1frame : ∀ i, i < cur_pos →
          byteAt out1.data i = byteAt out.data i := by
        intro i hi
        rw [ho1]
        exact OutFile.write_frame_end _ _ _ (by omega) (by omega)
      obtain ⟨ta, tb, tc, td, te, tf⟩ :=
        processTags_frame numtags ⟨nio + 1 + 2, out1, []⟩ tls ht h1pl
      have ta2 : tls.inPos = nio + 1 + 2 + 12 * numtags := ta
      have tb2 : tls.out.pos = cur_pos + 2 + 12 * numtags := by
        have tbx : tls.out.pos = out1.pos + 12 * numtags := tb
        rw [h1pos] at tbx
        omega
      have td2 : out1.data.length ≤ tls.out.data.length := td
      have te2 : ∀ i, i < out1.data.length →
          byteAt tls.out.data i = byteAt out1.data i := te
      have hslots : ∀ pr ∈ tls.tagdict,
          cur_pos + 10 ≤ (pr.2 : OfflineTag).fileoffset_in_out_ifd ∧
          (pr.2 : OfflineTag).fileoffset_in_out_ifd + 4 ≤ tls.out.pos := by
        intro pr hpr
        rcases tf pr hpr with hp | hp
        · simp at hp
        · have hp1 : out1.pos + 8 ≤ (pr.2 : OfflineTag).fileoffset_in_out_ifd
            := hp.1
          rw [h1pos] at hp1
          exact ⟨by omega, hp.2⟩
      obtain ⟨hdb, ho2⟩ := OutFile.w32_ok _ _ _ hw2
      have h2pos : out2.pos = tls.out.pos + 4 := by
        rw [ho2, OutFile.write_pos, le32_length]
      have h2len : out2.data.length = tls.out.pos + 4 := by
        rw [ho2, OutFile.write_length, le32_length, ← tc]
        omega
      have h2pl : out2.pos = out2.data.length := by rw [h2pos, h2len]
      have h2frame : ∀ i, i < tls.out.data.length →
          byteAt out2.data i = byteAt tls.out.data i := by
        intro i hi
        rw [ho2]
        exact OutFile.write_frame_end _ _ _ hi (le_of_eq tc.symm)
      obtain ⟨oa, ob, ocfr⟩ := writeOfflineData_frame tls.tagdict out2
        st.cache out3 cache2 hwo h2pl
        (fun q hq => by
          have := (hslots q hq).2
          rw [h2len]
          omega)
      have hlen3 : tls.out.pos + 4 ≤ out3.data.length := by
        rw [← h2len]; exact ob
      have hx3 : cur_pos + 2 + 12 * numtags + 4 ≤ out3.data.length := by
        rw [← tb2]; exact hlen3
      have hpres2 : ∀ i, i < st.next_ifd_offset_out_offset + 4 →
          byteAt out3.data i = byteAt out.data i := by
        intro i hi
        have hi1 : i < cur_pos := by omega
        have hs4 : byteAt out3.data i = byteAt out2.data i :=
          ocfr i (by rw [h2len, tb2]; omega)
            (fun q hq => Or.inl (by have := (hslots q hq).1; omega))
        have hs3 : byteAt out2.data i = byteAt tls.out.data i :=
          h2frame i (by rw [← tc, tb2]; omega)
        have hs2 : byteAt tls.out.data i = byteAt out1.data i :=
          te2 i (by rw [h1len]; omega)
        rw [hs4, hs3, hs2]
        exact h1frame i hi1
      have hpres3 : ∀ i, i < cur_pos + 2 →
          byteAt out3.data i = byteAt out1.data i := by
        intro i hi
        have hs4 : byteAt out3.data i = byteAt out2.data i :=
          ocfr i (by rw [h2len, tb2]; omega)
            (fun q hq => Or.inl (by have := (hslots q hq).1; omega))
        have hs3 : byteAt out2.data i = byteAt tls.out.data i :=
          h2frame i (by rw [← tc, tb2]; omega)
        rw [hs4, hs3]
        exact te2 i (by rw [h1len]; omega)
      have hm : st.out.data.length ≤ out3.data.length := by
        rw [← hpl]
        omega
      have hcellPtr : readRaw out3.data st.next_ifd_offset_out_offset 4
          = le32 cur_pos := by
        have hb : st.next_ifd_offset_out_offset + 4 ≤ out.data.length := by
          rw [hc5]; omega
        rw [readRaw_congr out.data out3.data _ 4 hb (by rw [hc5] at hb; omega)
          (fun j hj => hpres2 _ (by omega))]
        exact hc6
      have hcellCnt : readRaw out3.data cur_pos 2 = le16 numtags := by
        have hb : cur_pos + 2 ≤ out1.data.length := by rw [h1len]
        rw [readRaw_congr out1.data out3.data _ 2 hb (by omega)
          (fun j hj => hpres3 _ (by omega))]
        exact h1cell
      have hchain3 : ChainInv out3.data 4 (st.ifds.zip st.recs)
          st.next_ifd_offset_out_offset := by
        apply chainInv_frame _ _ _ hchain
        intro a b hcell
        obtain ⟨f1, f2, f3, f4, f5⟩ :=
          chainInv_cellOf_facts _ _ _ _ _ hchain hcell
        apply readRaw_congr _ _ _ _ f3 (le_trans f3 hm)
        intro j hj
        rw [hpres2 (a + j) (by omega)]
        exact hc7 (a + j) (by omega) (Or.inl (by omega))
      have hslotinv : SlotInv (⟨tls.tagdict⟩ : IFD1)
          (⟨cur_pos, numtags, cur_pos + 2 + 12 * numtags⟩ : IfdRec) := by
        intro q hq
        obtain ⟨hs1, hs2⟩ := hslots q hq
        rw [tb2] at hs2
        refine ⟨?_, ?_⟩
        · show cur_pos + 2 ≤ (q.2 : OfflineTag).fileoffset_in_out_ifd
          omega
        · show (q.2 : OfflineTag).fileoffset_in_out_ifd + 4
            ≤ cur_pos + 2 + 12 * numtags
          omega
      have hchainNew : ChainInv out3.data 4
          ((st.ifds ++ [(⟨tls.tagdict⟩ : IFD1)]).zip
            (st.recs ++ [(⟨cur_pos, numtags, tls.out.pos⟩ : IfdRec)]))
          tls.out.pos := by
        rw [tb2, List.zip_append hleq]
        simp only [List.zip_cons_cons, List.zip_nil_left]
        exact chainInv_snoc _ _ _ _ _ _ hchain3 (by omega) (by omega) hc3
          hn16 hcellPtr hcellCnt hslotinv
      obtain ⟨hinv2, hmono2, k, hk, hwalk⟩ := ih next2 _ st2 h
        (by
          refine ⟨oa, ?_, ?_, Or.inr ?_, ?_, hchainNew⟩
          · show 78 ≤ out3.pos
            rw [oa]
            omega
          · show tls.out.pos + 4 ≤ out3.pos
            rw [oa]
            exact hlen3
          · show 78 ≤ tls.out.pos
            rw [tb2]
            omega
          · show (st.ifds ++ [(⟨tls.tagdict⟩ : IFD1)]).length
              = (st.recs ++ [(⟨cur_pos, numtags, tls.out.pos⟩ : IfdRec)]).length
            simp only [List.length_append, List.length_cons, List.length_nil]
            omega)
      have hmono3 : out3.pos ≤ st2.out.pos := hmono2
      refine ⟨hinv2, ?_, k + 1, ?_, ?_⟩
      · have hoa : out3.pos = out3.data.length := oa
        omega
      · have hk2 : st2.ifds.length
            = (st.ifds ++ [(⟨tls.tagdict⟩ : IFD1)]).length + k := hk
        simp only [List.length_append, List.length_cons, List.length_nil]
          at hk2
        omega
      · rw [walkChain, if_neg (by omega), hn, except_bind_ok]
        rw [← ta2, hx, except_bind_ok]
        rw [hwalk, except_bind_ok]

/-! ### Frame lemmas for passes 2-5 -/

/-- Frame facts for one entry of the strile-array pass: only the 4-byte
entry slot is patched among existing bytes, the cursor stays at the end,
and a recorded offsets-array position is at or past the old end. -/
theorem strileArrayEntry_frame {out : OutFile} {ooo : Option Nat} {id : Nat}
    {tag : OfflineTag} {out2 : OutFile} {ooo2 : Option Nat}
    (h : strileArrayEntry out ooo id tag = Except.ok (out2, ooo2))
    (hpl : out.pos = out.data.length)
    (hsl : tag.fileoffset_in_out_ifd + 4 ≤ out.data.length) :
    out2.pos = out2.data.length ∧ out.data.length ≤ out2.data.length ∧
    (∀ v, ooo2 = some v → ooo = some v ∨ out.data.length ≤ v) ∧
    ∀ i, i < out.data.length →
      (i < tag.fileoffset_in_out_ifd ∨ tag.fileoffset_in_out_ifd + 4 ≤ i) →
      byteAt out2.data i = byteAt out.data i := by
  unfold strileArrayEntry at h
  split at h
  · simp only [Except.ok.injEq, Prod.mk.injEq] at h
    obtain ⟨h1, h2⟩ := h
    subst h1
    subst h2
    exact ⟨hpl, le_refl _, fun v hv => Or.inl hv, fun i _ _ => rfl⟩
  · dsimp only [OutFile.tell] at h
    cases hw : (out.seek tag.fileoffset_in_out_ifd).w32 out.pos with
    | error e => rw [hw] at h; simp [except_bind_err] at h
    | ok g =>
    rw [hw] at h; simp only [except_bind_ok] at h
    obtain ⟨hv, hgd, hgp⟩ := seekW32_ok hw
    have hglen : g.data.length = out.data.length := by
      rw [hgd, writeList_length, le32_length]
      omega
    have hmain : ∀ (bs : List Nat),
        out2 = (g.seek out.pos).write bs →
        out2.pos = out2.data.length ∧ out.data.length ≤ out2.data.length ∧
        ∀ i, i < out.data.length →
          (i < tag.fileoffset_in_out_ifd ∨
            tag.fileoffset_in_out_ifd + 4 ≤ i) →
          byteAt out2.data i = byteAt out.data i := by
      intro bs hfin
      have hlen2 : out2.data.length
          = max out.data.length (out.pos + bs.length) := by
        rw [hfin]
        show (writeList g.data out.pos bs).length = _
        rw [writeList_length, hglen]
      refine ⟨?_, ?_, ?_⟩
      · rw [hfin]
        show out.pos + bs.length = (writeList g.data out.pos bs).length
        rw [writeList_length, hglen]
        omega
      · rw [hlen2]; omega
      · intro i hi hout
        rw [hfin]
        show byteAt (writeList g.data out.pos bs) i = _
        rw [byteAt_writeList_outside _ _ _ _ (by omega) (by omega)]
        rw [hgd,
          byteAt_writeList_outside _ _ _ _ hi (by rw [le32_length]; omega)]
    split at h
    · simp only [Except.ok.injEq, Prod.mk.injEq] at h
      obtain ⟨h1, h2⟩ := h
      obtain ⟨g1, g2, g3⟩ := hmain _ h1.symm
      refine ⟨g1, g2, ?_, g3⟩
      intro v hv
      rw [← h2] at hv
      simp only [Option.some.injEq] at hv
      right
      rw [← hv]
      show out.data.length ≤ out.pos
      omega
    · simp only [Except.ok.injEq, Prod.mk.injEq] at h
      obtain ⟨h1, h2⟩ := h
      obtain ⟨g1, g2, g3⟩ := hmain _ h1.symm
      exact ⟨g1, g2, fun v hv => Or.inl (by rw [h2]; exact hv), g3⟩

/-- Frame facts for the strile-array loop over one tag dictionary. -/
theorem strileArrayLoop_frame :
    ∀ (l : List (Nat × OfflineTag)) (out : OutFile) (ooo : Option Nat)
      (out2 : OutFile) (ooo2 : Option Nat),
    strileArrayLoop l out ooo = Except.ok (out2, ooo2) →
    out.pos = out.data.length →
    (∀ pr ∈ l, (pr.2 : OfflineTag).fileoffset_in_out_ifd + 4 ≤ out.data.length) →
    out2.pos = out2.data.length ∧ out.data.length ≤ out2.data.length ∧
    (∀ v, ooo2 = some v → ooo = some v ∨ out.data.length ≤ v) ∧
    ∀ i, i < out.data.length →
      (∀ pr ∈ l, i < (pr.2 : OfflineTag).fileoffset_in_out_ifd ∨
        (pr.2 : OfflineTag).fileoffset_in_out_ifd + 4 ≤ i) →
      byteAt out2.data i = byteAt out.data i := by
  intro l
  induction l with
  | nil =>
    intro out ooo out2 ooo2 h hpl _
    simp only [strileArrayLoop, Except.ok.injEq, Prod.mk.injEq] at h
    obtain ⟨h1, h2⟩ := h
    subst h1
    subst h2
    exact ⟨hpl, le_refl _, fun v hv => Or.inl hv, fun i _ _ => rfl⟩
  | cons pr rest ih =>
    intro out ooo out2 ooo2 h hpl hsl
    simp only [strileArrayLoop] at h
    cases h1 : strileArrayEntry out ooo pr.1 pr.2 with
    | error e => rw [h1] at h; simp [except_bind_err] at h
    | ok g =>
    rw [h1] at h
    obtain ⟨g1, goo⟩ := g
    simp only [except_bind_ok] at h
    obtain ⟨ha1, hb1, hoo1, hc1⟩ := strileArrayEntry_frame h1 hpl
      (hsl pr (List.mem_cons_self _ _))
    obtain ⟨ha2, hb2, hoo2, hc2⟩ := ih g1 goo out2 ooo2 h ha1
      (fun q hq => le_trans (hsl q (List.mem_cons_of_mem _ hq)) hb1)
    refine ⟨ha2, le_trans hb1 hb2, ?_, ?_⟩
    · intro v hv
      rcases hoo2 v hv with hp | hp
      · rcases hoo1 v hp with hq | hq
        · exact Or.inl hq
        · exact Or.inr hq
      · exact Or.inr (le_trans hb1 hp)
    · intro i hi hout
      rw [hc2 i (lt_of_lt_of_le hi hb1)
        (fun q hq => hout q (List.mem_cons_of_mem _ hq))]
      exact hc1 i hi (hout pr (List.mem_cons_self _ _))

/-- Frame facts for the whole strile-array pass: tag dictionaries are
carried over unchanged, recorded offsets-array positions are at or past
the old end, and only entry slots are patched among existing bytes. -/
theorem pass2_frame :
    ∀ (ifds : List IFD1) (out : OutFile) (l : List IFD2) (out2 : OutFile),
    pass2 ifds out = Except.ok (l, out2) →
    out.pos = out.data.length →
    (∀ ifd ∈ ifds, ∀ pr ∈ (ifd : IFD1).tagdict,
      (pr.2 : OfflineTag).fileoffset_in_out_ifd + 4 ≤ out.data.length) →
    out2.pos = out2.data.length ∧ out.data.length ≤ out2.data.length ∧
    l.map IFD2.tagdict = ifds.map IFD1.tagdict ∧
    (∀ ifd2 ∈ l, ∀ v, (ifd2 : IFD2).offset_out_offsets = some v →
      out.data.length ≤ v) ∧
    ∀ i, i < out.data.length →
      (∀ ifd ∈ ifds, ∀ pr ∈ (ifd : IFD1).tagdict,
        i < (pr.2 : OfflineTag).fileoffset_in_out_ifd ∨
        (pr.2 : OfflineTag).fileoffset_in_out_ifd + 4 ≤ i) →
      byteAt out2.data i = byteAt out.data i := by
  intro ifds
  induction ifds with
  | nil =>
    intro out l out2 h hpl _
    simp only [pass2, Except.ok.injEq, Prod.mk.injEq] at h
    obtain ⟨h1, h2⟩ := h
    subst h1
    subst h2
    exact ⟨hpl, le_refl _, rfl, fun ifd2 hifd2 => by simp at hifd2,
      fun i _ _ => rfl⟩
  | cons ifd rest ih =>
    intro out l out2 h hpl hsl
    simp only [pass2] at h
    cases h1 : strileArrayLoop ifd.tagdict out none with
    | error e => rw [h1] at h; simp [except_bind_err] at h
    | ok g =>
    rw [h1] at h
    obtain ⟨g1, goo⟩ := g
    simp only [except_bind_ok] at h
    cases h2 : pass2 rest g1 with
    | error e => rw [h2] at h; simp [except_bind_err] at h
    | ok g2 =>
    rw [h2] at h
    obtain ⟨l2, gout⟩ := g2
    simp only [except_bind_ok, Except.ok.injEq, Prod.mk.injEq] at h
    obtain ⟨hl, hout2⟩ := h
    subst hout2
    obtain ⟨ha1, hb1, hoo1, hc1⟩ := strileArrayLoop_frame ifd.tagdict out
      none g1 goo h1 hpl (fun q hq => hsl ifd (List.mem_cons_self _ _) q hq)
    obtain ⟨ha2, hb2, hmap2, hoo2, hc2⟩ := ih g1 l2 gout h2 ha1
      (fun f hf q hq =>
        le_trans (hsl f (List.mem_cons_of_mem _ hf) q hq) hb1)
    refine ⟨ha2, le_trans hb1 hb2, ?_, ?_, ?_⟩
    · rw [← hl]
      simp only [List.map_cons, hmap2]
    · intro ifd2 hifd2 v hv
      rw [← hl] at hifd2
      rcases List.mem_cons.mp hifd2 with hp | hp
      · subst hp
        rcases hoo1 v hv with hq | hq
        · simp at hq
        · exact hq
      · exact le_trans hb1 (hoo2 ifd2 hp v hv)
    · intro i hi hout
      rw [hc2 i (lt_of_lt_of_le hi hb1)
        (fun f hf q hq => hout f (List.mem_cons_of_mem _ hf) q hq)]
      exact hc1 i hi (fun q hq => hout ifd (List.mem_cons_self _ _) q hq)

/-- Frame facts for rewriting one directory's GDAL metadata: only that
entry slot is patched among existing bytes. -/
theorem writeGdalOne_frame {out : OutFile} {ifd : IFD2} {out2 : OutFile}
    (h : writeGdalOne out ifd = Except.ok out2)
    (hpl : out.pos = out.data.length)
    (hsl : ∀ pr ∈ (ifd : IFD2).tagdict,
      (pr.2 : OfflineTag).fileoffset_in_out_ifd + 4 ≤ out.data.length) :
    out2.pos = out2.data.length ∧ out.data.length ≤ out2.data.length ∧
    ∀ i, i < out.data.length →
      (∀ pr ∈ (ifd : IFD2).tagdict,
        i < (pr.2 : OfflineTag).fileoffset_in_out_ifd ∨
        (pr.2 : OfflineTag).fileoffset_in_out_ifd + 4 ≤ i) →
      byteAt out2.data i = byteAt out.data i := by
  unfold writeGdalOne at h
  cases hf : dictFind ifd.tagdict TIFFTAG_GDAL_METADATA with
  | none =>
    rw [hf] at h
    simp only [Except.ok.injEq] at h
    subst h
    exact ⟨hpl, le_refl _, fun i _ _ => rfl⟩
  | some tag =>
    rw [hf] at h
    have hmem : (TIFFTAG_GDAL_METADATA, tag) ∈ ifd.tagdict := dictFind_mem hf
    dsimp only [OutFile.tell] at h
    cases hw : (out.seek tag.fileoffset_in_out_ifd).w32 out.pos with
    | error e => rw [hw] at h; simp [except_bind_err] at h
    | ok g =>
    rw [hw] at h; simp only [except_bind_ok, Except.ok.injEq] at h
    obtain ⟨hv, hgd, hgp⟩ := seekW32_ok hw
    have hms : tag.fileoffset_in_out_ifd + 4 ≤ out.data.length := hsl _ hmem
    have hglen : g.data.length = out.data.length := by
      rw [hgd, writeList_length, le32_length]
      omega
    refine ⟨?_, ?_, ?_⟩
    · rw [← h]
      show out.pos + tag.data.length = (writeList g.data out.pos _).length
      rw [writeList_length, hglen]
      omega
    · rw [← h]
      show _ ≤ (writeList g.data out.pos _).length
      rw [writeList_length, hglen]
      omega
    · intro i hi hout
      have houtm : i < tag.fileoffset_in_out_ifd ∨
          tag.fileoffset_in_out_ifd + 4 ≤ i := hout _ hmem
      rcases houtm with hp | hp
      · rw [← h]
        show byteAt (writeList g.data out.pos _) i = _
        rw [byteAt_writeList_outside _ _ _ _ (by omega) (by omega)]
        rw [hgd, byteAt_writeList_outside _ _ _ _ hi
          (by rw [le32_length]; omega)]
      · rw [← h]
        show byteAt (writeList g.data out.pos _) i = _
        rw [byteAt_writeList_outside _ _ _ _ (by omega) (by omega)]
        rw [hgd, byteAt_writeList_outside _ _ _ _ hi
          (by rw [le32_length]; omega)]

/-- Frame facts for the GDAL-metadata pass over a list of directories. -/
theorem pass3_frame :
    ∀ (ifds : List IFD2) (out : OutFile) (out2 : OutFile),
    pass3 ifds out = Except.ok out2 →
    out.pos = out.data.length →
    (∀ ifd ∈ ifds, ∀ pr ∈ (ifd : IFD2).tagdict,
      (pr.2 : OfflineTag).fileoffset_in_out_ifd + 4 ≤ out.data.length) →
    out2.pos = out2.data.length ∧ out.data.length ≤ out2.data.length ∧
    ∀ i, i < out.data.length →
      (∀ ifd ∈ ifds, ∀ pr ∈ (ifd : IFD2).tagdict,
        i < (pr.2 : OfflineTag).fileoffset_in_out_ifd ∨
        (pr.2 : OfflineTag).fileoffset_in_out_ifd + 4 ≤ i) →
      byteAt out2.data i = byteAt out.data i := by
  intro ifds
  induction ifds with
  | nil =>
    intro out out2 h hpl _
    simp only [pass3, Except.ok.injEq] at h
    subst h
    exact ⟨hpl, le_refl _, fun i _ _ => rfl⟩
  | cons ifd rest ih =>
    intro out out2 h hpl hsl
    simp only [pass3] at h
    cases h1 : writeGdalOne out ifd with
    | error e => rw [h1] at h; simp [except_bind_err] at h
    | ok g =>
    rw [h1] at h; simp only [except_bind_ok] at h
    obtain ⟨ha1, hb1, hc1⟩ := writeGdalOne_frame h1 hpl
      (fun q hq => hsl ifd (List.mem_cons_self _ _) q hq)
    obtain ⟨ha2, hb2, hc2⟩ := ih g out2 h ha1
      (fun f hf q hq =>
        le_trans (hsl f (List.mem_cons_of_mem _ hf) q hq) hb1)
    refine ⟨ha2, le_trans hb1 hb2, ?_⟩
    intro i hi hout
    rw [hc2 i (lt_of_lt_of_le hi hb1)
      (fun f hf q hq => hout f (List.mem_cons_of_mem _ hf) q hq)]
    exact hc1 i hi (fun q hq => hout ifd (List.mem_cons_self _ _) q hq)

/-- The pixel-copy loop only appends: with the cursor at the end no
existing byte changes. -/
theorem copyStriles_frame {inp offsIn lensIn : List Nat} :
    ∀ (idxs offsOut : List Nat) (out : OutFile) (offsOut2 : List Nat)
      (out2 : OutFile),
    copyStriles inp offsIn lensIn idxs offsOut out
      = Except.ok (offsOut2, out2) →
    out.pos = out.data.length →
    out2.pos = out2.data.length ∧ out.data.length ≤ out2.data.length ∧
    ∀ i, i < out.data.length → byteAt out2.data i = byteAt out.data i := by
  intro idxs
  induction idxs with
  | nil =>
    intro offsOut out offsOut2 out2 h hpl
    simp only [copyStriles, Except.ok.injEq, Prod.mk.injEq] at h
    obtain ⟨h1, h2⟩ := h
    subst h2
    exact ⟨hpl, le_refl _, fun i _ => rfl⟩
  | cons idx rest ih =>
    intro offsOut out offsOut2 out2 h hpl
    simp only [copyStriles] at h
    cases h1 : listGet offsIn idx with
    | error e => rw [h1] at h; simp [except_bind_err] at h
    | ok oin =>
    rw [h1] at h; simp only [except_bind_ok] at h
    cases h2 : listGet lensIn idx with
    | error e => rw [h2] at h; simp [except_bind_err] at h
    | ok len =>
    rw [h2] at h; simp only [except_bind_ok] at h
    dsimp only [OutFile.tell] at h
    cases h3 : listSetE offsOut idx out.pos with
    | error e => rw [h3] at h; simp [except_bind_err] at h
    | ok offsOutB =>
    rw [h3] at h; simp only [except_bind_ok] at h
    have hw : (out.write (readRaw inp oin len)).pos
        = (out.write (readRaw inp oin len)).data.length :=
      OutFile.write_pos_end _ _ hpl
    obtain ⟨ha2, hb2, hc2⟩ := ih offsOutB _ offsOut2 out2 h hw
    refine ⟨ha2, ?_, ?_⟩
    · exact le_trans (OutFile.length_le_write _ _) hb2
    · intro i hi
      rw [hc2 i (lt_of_lt_of_le hi (OutFile.length_le_write _ _))]
      exact OutFile.write_frame_end _ _ _ hi (le_of_eq hpl.symm)

/-- One directory of the primary-band pass: appends only, and the
directory's tag dictionary and recorded offsets-array position carry
over. -/
theorem pixelPrimaryOne_frame {inp : List Nat} {nbands : Nat} {ifd : IFD2}
    {out : OutFile} {ifd3 : IFD3} {out2 : OutFile}
    (h : pixelPrimaryOne inp nbands ifd out = Except.ok (ifd3, out2))
    (hpl : out.pos = out.data.length) :
    out2.pos = out2.data.length ∧ out.data.length ≤ out2.data.length ∧
    (ifd3 : IFD3).tagdict = (ifd : IFD2).tagdict ∧
    (ifd3 : IFD3).offset_out_offsets = (ifd : IFD2).offset_out_offsets ∧
    ∀ i, i < out.data.length → byteAt out2.data i = byteAt out.data i := by
  unfold pixelPrimaryOne at h
  cases h1 : resolveStriles ifd with
  | error e => rw [h1] at h; simp [except_bind_err] at h
  | ok trip =>
  rw [h1] at h; simp only [except_bind_ok] at h
  obtain ⟨num_striles, offsIn, lensIn⟩ := trip
  dsimp only at h
  split at h
  · cases h2 : copyStriles inp offsIn lensIn
        (strileIdxs (num_striles / nbands) [0, 1])
        (List.replicate num_striles 0) out with
    | error e => rw [h2] at h; simp [except_bind_err] at h
    | ok pr =>
    rw [h2] at h
    obtain ⟨offsOut2, outB⟩ := pr
    simp only [except_bind_ok, Except.ok.injEq, Prod.mk.injEq] at h
    obtain ⟨hifd, hout⟩ := h
    subst hout
    obtain ⟨ha, hb, hc⟩ := copyStriles_frame _ _ _ offsOut2 outB h2 hpl
    refine ⟨ha, hb, ?_, ?_, hc⟩
    · rw [← hifd]
    · rw [← hifd]
  · simp at h

/-- The primary-band pass appends only and keeps each directory's tag
dictionary and offsets-array position. -/
theorem pixelPrimary_frame {inp : List Nat} {nbands : Nat} :
    ∀ (ifds : List IFD2) (out : OutFile) (l : List IFD3) (out2 : OutFile),
    pixelPrimary inp nbands ifds out = Except.ok (l, out2) →
    out.pos = out.data.length →
    out2.pos = out2.data.length ∧ out.data.length ≤ out2.data.length ∧
    l.length = ifds.length ∧
    (∀ ifd3 ∈ l, ∃ ifd2 ∈ ifds,
      (ifd3 : IFD3).offset_out_offsets = (ifd2 : IFD2).offset_out_offsets) ∧
    ∀ i, i < out.data.length → byteAt out2.data i = byteAt out.data i := by
  intro ifds
  induction ifds with
  | nil =>
    intro out l out2 h hpl
    simp only [pixelPrimary, Except.ok.injEq, Prod.mk.injEq] at h
    obtain ⟨h1, h2⟩ := h
    subst h1
    subst h2
    exact ⟨hpl, le_refl _, rfl, fun f hf => by simp at hf, fun i _ => rfl⟩
  | cons ifd rest ih =>
    intro out l out2 h hpl
    simp only [pixelPrimary] at h
    cases h1 : pixelPrimaryOne inp nbands ifd out with
    | error e => rw [h1] at h; simp [except_bind_err] at h
    | ok pr =>
    rw [h1] at h
    obtain ⟨ifd3, outB⟩ := pr
    simp only [except_bind_ok] at h
    cases h2 : pixelPrimary inp nbands rest outB with
    | error e => rw [h2] at h; simp [except_bind_err] at h
    | ok pr2 =>
    rw [h2] at h
    obtain ⟨l2, outC⟩ := pr2
    simp only [except_bind_ok, Except.ok.injEq, Prod.mk.injEq] at h
    obtain ⟨hl, hout⟩ := h
    subst hout
    obtain ⟨ha1, hb1, _, hd1, he1⟩ := pixelPrimaryOne_frame h1 hpl
    obtain ⟨ha2, hb2, hlen2, hd2, he2⟩ := ih outB l2 outC h2 ha1
    refine ⟨ha2, le_trans hb1 hb2, ?_, ?_, ?_⟩
    · rw [← hl]
      simp only [List.length_cons, hlen2]
    · intro f hf
      rw [← hl] at hf
      rcases List.mem_cons.mp hf with hp | hp
      · subst hp
        exact ⟨ifd, List.mem_cons_self _ _, hd1⟩
      · obtain ⟨f2, hf2, hval⟩ := hd2 f hp
        exact ⟨f2, List.mem_cons_of_mem _ hf2, hval⟩
    · intro i hi
      rw [he2 i (lt_of_lt_of_le hi hb1)]
      exact he1 i hi

/-- One directory of the accuracy-band pass: appends only, and the
offsets-array position carries over. -/
theorem pixelErrorsOne_frame {inp : List Nat} {ifd : IFD3} {out : OutFile}
    {ifd3 : IFD3} {out2 : OutFile}
    (h : pixelErrorsOne inp ifd out = Except.ok (ifd3, out2))
    (hpl : out.pos = out.data.length) :
    out2.pos = out2.data.length ∧ out.data.length ≤ out2.data.length ∧
    (ifd3 : IFD3).offset_out_offsets = (ifd : IFD3).offset_out_offsets ∧
    ∀ i, i < out.data.length → byteAt out2.data i = byteAt out.data i := by
  unfold pixelErrorsOne at h
  cases h1 : copyStriles inp ifd.strile_offset_in ifd.strile_length_in
      (strileIdxs ifd.num_striles_per_band [2, 3])
      ifd.strile_offset_out out with
  | error e => rw [h1] at h; simp [except_bind_err] at h
  | ok pr =>
  rw [h1] at h
  obtain ⟨offsOut, outB⟩ := pr
  simp only [except_bind_ok, Except.ok.injEq, Prod.mk.injEq] at h
  obtain ⟨hifd, hout⟩ := h
  subst hout
  obtain ⟨ha, hb, hc⟩ := copyStriles_frame _ _ _ offsOut outB h1 hpl
  refine ⟨ha, hb, ?_, hc⟩
  rw [← hifd]

/-- The accuracy-band pass appends only and keeps each directory's
offsets-array position. -/
theorem pixelErrors_frame {inp : List Nat} :
    ∀ (ifds : List IFD3) (out : OutFile) (l : List IFD3) (out2 : OutFile),
    pixelErrors inp ifds out = Except.ok (l, out2) →
    out.pos = out.data.length →
    out2.pos = out2.data.length ∧ out.data.length ≤ out2.data.length ∧
    l.length = ifds.length ∧
    (∀ ifd3 ∈ l, ∃ ifd2 ∈ ifds,
      (ifd3 : IFD3).offset_out_offsets = (ifd2 : IFD3).offset_out_offsets) ∧
    ∀ i, i < out.data.length → byteAt out2.data i = byteAt out.data i := by
  intro ifds
  induction ifds with
  | nil =>
    intro out l out2 h hpl
    simp only [pixelErrors, Except.ok.injEq, Prod.mk.injEq] at h
    obtain ⟨h1, h2⟩ := h
    subst h1
    subst h2
    exact ⟨hpl, le_refl _, rfl, fun f hf => by simp at hf, fun i _ => rfl⟩
  | cons ifd rest ih =>
    intro out l out2 h hpl
    simp only [pixelErrors] at h
    cases h1 : pixelErrorsOne inp ifd out with
    | error e => rw [h1] at h; simp [except_bind_err] at h
    | ok pr =>
    rw [h1] at h
    obtain ⟨ifd3, outB⟩ := pr
    simp only [except_bind_ok] at h
    cases h2 : pixelErrors inp rest outB with
    | error e => rw [h2] at h; simp [except_bind_err] at h
    | ok pr2 =>
    rw [h2] at h
    obtain ⟨l2, outC⟩ := pr2
    simp only [except_bind_ok, Except.ok.injEq, Prod.mk.injEq] at h
    obtain ⟨hl, hout⟩ := h
    subst hout
    obtain ⟨ha1, hb1, hc1, he1⟩ := pixelErrorsOne_frame h1 hpl
    obtain ⟨ha2, hb2, hlen2, hd2, he2⟩ := ih outB l2 outC h2 ha1
    refine ⟨ha2, le_trans hb1 hb2, ?_, ?_, ?_⟩
    · rw [← hl]
      simp only [List.length_cons, hlen2]
    · intro f hf
      rw [← hl] at hf
      rcases List.mem_cons.mp hf with hp | hp
      · subst hp
        exact ⟨ifd, List.mem_cons_self _ _, hc1⟩
      · obtain ⟨f2, hf2, hval⟩ := hd2 f hp
        exact ⟨f2, List.mem_cons_of_mem _ hf2, hval⟩
    · intro i hi
      rw [he2 i (lt_of_lt_of_le hi hb1)]
      exact he1 i hi

/-- Writing an offset array touches no byte before the starting cursor. -/
theorem writeOffsetVals_frame {short : Bool} :
    ∀ (vals : List Nat) (out : OutFile) (out2 : OutFile),
    writeOffsetVals short vals out = Except.ok out2 →
    out.data.length ≤ out2.data.length ∧
    ∀ i, i < out.data.length → i < out.pos →
      byteAt out2.data i = byteAt out.data i := by
  intro vals
  induction vals with
  | nil =>
    intro out out2 h
    simp only [writeOffsetVals, Except.ok.injEq] at h
    subst h
    exact ⟨le_refl _, fun i _ _ => rfl⟩
  | cons v rest ih =>
    intro out out2 h
    simp only [writeOffsetVals] at h
    have hmain : ∀ (bs : List Nat),
        writeOffsetVals short rest (out.write bs) = Except.ok out2 →
        out.data.length ≤ out2.data.length ∧
        ∀ i, i < out.data.length → i < out.pos →
          byteAt out2.data i = byteAt out.data i := by
      intro bs hrest
      obtain ⟨hb2, hc2⟩ := ih _ out2 hrest
      refine ⟨le_trans (OutFile.length_le_write _ _) hb2, ?_⟩
      intro i hi hip
      rw [hc2 i (lt_of_lt_of_le (lt_of_lt_of_le hi
        (OutFile.length_le_write _ _)) (le_refl _))
        (by rw [OutFile.write_pos]; omega)]
      exact OutFile.write_frame _ _ _ hi (Or.inl hip)
    split at h
    · split at h
      · cases hw : out.w16 v with
        | error e => rw [hw] at h; simp [except_bind_err] at h
        | ok g =>
        rw [hw] at h; simp only [except_bind_ok] at h
        obtain ⟨hv16, hg⟩ := OutFile.w16_ok _ _ _ hw
        subst hg
        exact hmain _ h
      · simp [except_bind_err] at h
    · cases hw : out.w32 v with
      | error e => rw [hw] at h; simp [except_bind_err] at h
      | ok g =>
      rw [hw] at h; simp only [except_bind_ok] at h
      obtain ⟨hv32, hg⟩ := OutFile.w32_ok _ _ _ hw
      subst hg
      exact hmain _ h

/-- Rewriting one directory's offset array touches no byte before the
recorded array position. -/
theorem writeOffsetArrayOne_frame {ifd : IFD3} {out : OutFile}
    {out2 : OutFile} {B : Nat}
    (h : writeOffsetArrayOne ifd out = Except.ok out2)
    (hooo : ∀ v, (ifd : IFD3).offset_out_offsets = some v → B ≤ v) :
    out.data.length ≤ out2.data.length ∧
    ∀ i, i < out.data.length → i < B →
      byteAt out2.data i = byteAt out.data i := by
  unfold writeOffsetArrayOne at h
  cases h1 : offsetsTagType ifd with
  | error e => rw [h1] at h; simp [except_bind_err] at h
  | ok tagtype =>
  rw [h1] at h; simp only [except_bind_ok] at h
  cases h2 : ifd.offset_out_offsets with
  | none => rw [h2] at h; simp [except_bind_err] at h
  | some ooo =>
  rw [h2] at h; simp only [except_bind_ok] at h
  have hB : B ≤ ooo := hooo ooo h2
  obtain ⟨hb2, hc2⟩ := writeOffsetVals_frame _ _ _ h
  refine ⟨hb2, ?_⟩
  intro i hi hib
  exact hc2 i hi (by show i < ooo; omega)

/-- The offset-array pass touches no byte before the smallest recorded
array position. -/
theorem pass5_frame {B : Nat} :
    ∀ (ifds : List IFD3) (out : OutFile) (out2 : OutFile),
    pass5 ifds out = Except.ok out2 →
    (∀ ifd ∈ ifds, ∀ v, (ifd : IFD3).offset_out_offsets = some v → B ≤ v) →
    out.data.length ≤ out2.data.length ∧
    ∀ i, i < out.data.length → i < B →
      byteAt out2.data i = byteAt out.data i := by
  intro ifds
  induction ifds with
  | nil =>
    intro out out2 h _
    simp only [pass5, Except.ok.injEq] at h
    subst h
    exact ⟨le_refl _, fun i _ _ => rfl⟩
  | cons ifd rest ih =>
    intro out out2 h hooo
    simp only [pass5] at h
    cases h1 : writeOffsetArrayOne ifd out with
    | error e => rw [h1] at h; simp [except_bind_err] at h
    | ok g =>
    rw [h1] at h; simp only [except_bind_ok] at h
    obtain ⟨hb1, hc1⟩ := writeOffsetArrayOne_frame h1
      (fun v hv => hooo ifd (List.mem_cons_self _ _) v hv)
    obtain ⟨hb2, hc2⟩ := ih g out2 h
      (fun f hf v hv => hooo f (List.mem_cons_of_mem _ hf) v hv)
    refine ⟨le_trans hb1 hb2, ?_⟩
    intro i hi hib
    rw [hc2 i (lt_of_lt_of_le hi hb1) hib]
    exact hc1 i hi hib

/-- End-to-end layout facts of a successful conversion: the patched
metadata-size marker survives to the final file and renders the
end-of-directory-pass offset, that offset never exceeds the first
pixel-payload offset, the output directory chain has exactly as many
records as the input chain and is walkable with the pending pointer
patched to zero. -/
theorem generate_master {inp : List Nat} {d : Bool} {fuel : Nat}
    {r : ConvResult} (h : generate_optimized_file inp d fuel = Except.ok r) :
    readRaw r.out.data 50 28 = hintHead ++ fmt06 r.hintValue ++ hintTail ∧
    r.hintValue ≤ r.pixelStart ∧
    walkFile inp (fuel + 1) = Except.ok r.ifds.length ∧
    walkFile r.out.data (r.ifds.length + 1) = Except.ok r.ifds.length ∧
    readRaw r.out.data r.lastPtrPos 4 = le32 0 := by
  obtain ⟨hsig, nio, st, hnio, hp1, hfin⟩ := generate_ok_inv h
  have hinv0 : P1Inv ⟨headerOut, 4, [], [], []⟩ :=
    ⟨by decide, by decide, by decide, Or.inl rfl, rfl, rfl⟩
  obtain ⟨hinv1, hmono1, k, hk, hwalk⟩ := pass1_master fuel nio _ st hp1 hinv0
  obtain ⟨hpl, hge78, hnle, hnor, hleq, hchain⟩ := hinv1
  have hk2 : st.ifds.length = k := by
    have hx : st.ifds.length = ([] : List IFD1).length + k := hk
    simpa using hx
  obtain ⟨i2, o2, o3, i3, o4, i4, o5, o6, hlen, hp2, hp3, hp4, hp5, hp6,
    hr⟩ := finishFile_ok_inv hfin
  have hm28 : (hintHead ++ fmt06 st.out.pos ++ hintTail).length = 28 := by
    rw [hlen]; rfl
  have hfst : (st.ifds.zip st.recs).map Prod.fst = st.ifds :=
    List.map_fst_zip _ _ (le_of_eq hleq)
  have hslotsAll : ∀ ifd ∈ st.ifds, ∀ q ∈ (ifd : IFD1).tagdict,
      80 ≤ (q.2 : OfflineTag).fileoffset_in_out_ifd ∧
      (q.2 : OfflineTag).fileoffset_in_out_ifd + 4
        ≤ st.next_ifd_offset_out_offset := by
    intro ifd hifd q hq
    rw [← hfst] at hifd
    obtain ⟨pr, hprL, hpr1⟩ := List.mem_map.mp hifd
    obtain ⟨g1, g2, g3, g4, g5, g6, g7⟩ := chainInv_mem _ _ _ hchain pr hprL
    rw [← hpr1] at hq
    obtain ⟨hs1, hs2⟩ := g7 q hq
    exact ⟨by omega, by omega⟩
  have hcellSlotAll : ∀ a b, CellOf 4 (st.ifds.zip st.recs) a b →
      ∀ ifd ∈ st.ifds, ∀ q ∈ (ifd : IFD1).tagdict,
      a + b ≤ (q.2 : OfflineTag).fileoffset_in_out_ifd ∨
      (q.2 : OfflineTag).fileoffset_in_out_ifd + 4 ≤ a := by
    intro a b hcell ifd hifd q hq
    rw [← hfst] at hifd
    obtain ⟨pr, hprL, hpr1⟩ := List.mem_map.mp hifd
    rw [← hpr1] at hq
    exact chainInv_cell_slot_disjoint _ _ _ _ _ hchain hcell pr hprL q hq
  have hcellFacts : ∀ a b, CellOf 4 (st.ifds.zip st.recs) a b →
      a + b ≤ st.next_ifd_offset_out_offset ∧
      a + b ≤ st.out.data.length ∧ b ≤ 4 ∧ (a = 4 ∨ 78 ≤ a) := by
    intro a b hcell
    obtain ⟨f1, f2, f3, f4, f5⟩ :=
      chainInv_cellOf_facts _ _ _ _ _ hchain hcell
    exact ⟨f2, f3, f4, f5⟩
  set outH : OutFile := ((st.out.seek 50).write
    (hintHead ++ fmt06 st.out.pos ++ hintTail)).seekEnd with houtH
  have hlenH : outH.data.length = st.out.data.length := by
    rw [houtH]
    show (writeList st.out.data 50
      (hintHead ++ fmt06 st.out.pos ++ hintTail)).length = _
    rw [writeList_length, hm28]
    omega
  have hposH : outH.pos = outH.data.length := by
    rw [houtH]; rfl
  have hmkH : readRaw outH.data 50 28
      = hintHead ++ fmt06 st.out.pos ++ hintTail := by
    rw [houtH]
    show readRaw (writeList st.out.data 50
      (hintHead ++ fmt06 st.out.pos ++ hintTail)) 50 28 = _
    rw [← hm28]
    exact readRaw_writeList_self _ _ _
  have hfrH : ∀ i, i < st.out.data.length → (i < 50 ∨ 78 ≤ i) →
      byteAt outH.data i = byteAt st.out.data i := by
    intro i hi hcond
    rw [houtH]
    show byteAt (writeList st.out.data 50
      (hintHead ++ fmt06 st.out.pos ++ hintTail)) i = _
    apply byteAt_writeList_outside _ _ _ _ hi
    rw [hm28]
    omega
  have hchH : ChainInv outH.data 4 (st.ifds.zip st.recs)
      st.next_ifd_offset_out_offset := by
    apply chainInv_frame _ _ _ hchain
    intro a b hcell
    obtain ⟨f2, f3, f4, f5⟩ := hcellFacts a b hcell
    apply readRaw_congr st.out.data outH.data a b f3 (by omega)
    intro j hj
    apply hfrH (a + j) (by omega)
    rcases f5 with f5 | f5
    · left; omega
    · right; omega
  obtain ⟨ha2, hb2, hmap2, hoo2, hfr2⟩ := pass2_frame st.ifds outH i2 o2
    hp2 hposH
    (fun ifd hifd q hq => by
      have := (hslotsAll ifd hifd q hq).2
      omega)
  have hmk2 : readRaw o2.data 50 28
      = hintHead ++ fmt06 st.out.pos ++ hintTail := by
    rw [readRaw_congr outH.data o2.data 50 28 (by omega) (by omega)
      (fun j hj => hfr2 (50 + j) (by omega)
        (fun ifd hifd q hq => Or.inl
          (by have := (hslotsAll ifd hifd q hq).1; omega)))]
    exact hmkH
  have hch2 : ChainInv o2.data 4 (st.ifds.zip st.recs)
      st.next_ifd_offset_out_offset := by
    apply chainInv_frame _ _ _ hchH
    intro a b hcell
    obtain ⟨f2, f3, f4, f5⟩ := hcellFacts a b hcell
    apply readRaw_congr outH.data o2.data a b (by omega) (by omega)
    intro j hj
    apply hfr2 (a + j) (by omega)
    intro ifd hifd q hq
    rcases hcellSlotAll a b hcell ifd hifd q hq with hp | hp
    · left; omega
    · right; omega
  have htag2 : ∀ ifd2 ∈ i2, ∃ ifd1 ∈ st.ifds,
      (ifd1 : IFD1).tagdict = (ifd2 : IFD2).tagdict := by
    intro ifd2 hifd2
    have hx : (ifd2 : IFD2).tagdict ∈ i2.map IFD2.tagdict :=
      List.mem_map_of_mem _ hifd2
    rw [hmap2] at hx
    obtain ⟨ifd1, hifd1, heq⟩ := List.mem_map.mp hx
    exact ⟨ifd1, hifd1, heq⟩
  obtain ⟨ha3, hb3, hfr3⟩ := pass3_frame (i2.drop 1) o2 o3 hp3 ha2
    (fun ifd2 hifd2 q hq => by
      obtain ⟨ifd1, hifd1, heq⟩ := htag2 ifd2 (List.mem_of_mem_drop hifd2)
      rw [← heq] at hq
      have := (hslotsAll ifd1 hifd1 q hq).2
      omega)
  have hmk3 : readRaw o3.data 50 28
      = hintHead ++ fmt06 st.out.pos ++ hintTail := by
    rw [readRaw_congr o2.data o3.data 50 28 (by omega) (by omega)
      (fun j hj => hfr3 (50 + j) (by omega)
        (fun ifd2 hifd2 q hq => by
          obtain ⟨ifd1, hifd1, heq⟩ :=
            htag2 ifd2 (List.mem_of_mem_drop hifd2)
          rw [← heq] at hq
          left
          have := (hslotsAll ifd1 hifd1 q hq).1
          omega))]
    exact hmk2
  have hch3 : ChainInv o3.data 4 (st.ifds.zip st.recs)
      st.next_ifd_offset_out_offset := by
    apply chainInv_frame _ _ _ hch2
    intro a b hcell
    obtain ⟨f2, f3, f4, f5⟩ := hcellFacts a b hcell
    apply readRaw_congr o2.data o3.data a b (by omega) (by omega)
    intro j hj
    apply hfr3 (a + j) (by omega)
    intro ifd2 hifd2 q hq
    obtain ⟨ifd1, hifd1, heq⟩ := htag2 ifd2 (List.mem_of_mem_drop hifd2)
    rw [← heq] at hq
    rcases hcellSlotAll a b hcell ifd1 hifd1 q hq with hp | hp
    · left; omega
    · right; omega
  obtain ⟨ha4, hb4, hlen4, hooo4, hfr4⟩ :=
    pixelPrimary_frame i2 o3 i3 o4 hp4 ha3
  have hmk4 : readRaw o4.data 50 28
      = hintHead ++ fmt06 st.out.pos ++ hintTail := by
    rw [readRaw_congr o3.data o4.data 50 28 (by omega) (by omega)
      (fun j hj => hfr4 (50 + j) (by omega))]
    exact hmk3
  have hch4 : ChainInv o4.data 4 (st.ifds.zip st.recs)
      st.next_ifd_offset_out_offset := by
    apply chainInv_frame _ _ _ hch3
    intro a b hcell
    obtain ⟨f2, f3, f4, f5⟩ := hcellFacts a b hcell
    apply readRaw_congr o3.data o4.data a b (by omega) (by omega)
    intro j hj
    exact hfr4 (a + j) (by omega)
  have hst5 : o5.pos = o5.data.length ∧ o4.data.length ≤ o5.data.length ∧
      i4.length = i3.length ∧
      (∀ f ∈ i4, ∃ g ∈ i3, (f : IFD3).offset_out_offsets
        = (g : IFD3).offset_out_offsets) ∧
      (∀ i, i < o4.data.length → byteAt o5.data i = byteAt o4.data i) := by
    by_cases hd4 : (if d then 2 else 4) = 4
    · rw [if_pos hd4] at hp5
      exact pixelErrors_frame i3 o4 i4 o5 hp5 ha4
    · rw [if_neg hd4] at hp5
      simp only [Except.ok.injEq, Prod.mk.injEq] at hp5
      obtain ⟨h1, h2⟩ := hp5
      subst h1
      subst h2
      exact ⟨ha4, le_refl _, rfl, fun f hf => ⟨f, hf, rfl⟩, fun i _ => rfl⟩
  obtain ⟨ha5, hb5, hlen5, hooo5, hfr5⟩ := hst5
  have hmk5 : readRaw o5.data 50 28
      = hintHead ++ fmt06 st.out.pos ++ hintTail := by
    rw [readRaw_congr o4.data o5.data 50 28 (by omega) (by omega)
      (fun j hj => hfr5 (50 + j) (by omega))]
    exact hmk4
  have hch5 : ChainInv o5.data 4 (st.ifds.zip st.recs)
      st.next_ifd_offset_out_offset := by
    apply chainInv_frame _ _ _ hch4
    intro a b hcell
    obtain ⟨f2, f3, f4, f5⟩ := hcellFacts a b hcell
    apply readRaw_congr o4.data o5.data a b (by omega) (by omega)
    intro j hj
    exact hfr5 (a + j) (by omega)
  obtain ⟨hb6, hfr6⟩ := @pass5_frame st.out.data.length i4 o5 o6 hp6
    (fun f hf v hv => by
      obtain ⟨f3, hf3, he3⟩ := hooo5 f hf
      obtain ⟨f2, hf2, he2⟩ := hooo4 f3 hf3
      have hv2 : (f2 : IFD2).offset_out_offsets = some v := by
        rw [← he2, ← he3]; exact hv
      have := hoo2 f2 hf2 v hv2
      omega)
  have hmk6 : readRaw o6.data 50 28
      = hintHead ++ fmt06 st.out.pos ++ hintTail := by
    rw [readRaw_congr o5.data o6.data 50 28 (by omega) (by omega)
      (fun j hj => hfr6 (50 + j) (by omega) (by omega))]
    exact hmk5
  have hch6 : ChainInv o6.data 4 (st.ifds.zip st.recs)
      st.next_ifd_offset_out_offset := by
    apply chainInv_frame _ _ _ hch5
    intro a b hcell
    obtain ⟨f2, f3, f4, f5⟩ := hcellFacts a b hcell
    apply readRaw_congr o5.data o6.data a b (by omega) (by omega)
    intro j hj
    exact hfr6 (a + j) (by omega) (by omega)
  have hlen7 : (writeList o6.data st.next_ifd_offset_out_offset
      (le32 0)).length = o6.data.length := by
    rw [writeList_length, le32_length]
    omega
  have hfr7 : ∀ i, i < o6.data.length →
      (i < st.next_ifd_offset_out_offset ∨
        st.next_ifd_offset_out_offset + 4 ≤ i) →
      byteAt (writeList o6.data st.next_ifd_offset_out_offset (le32 0)) i
        = byteAt o6.data i := by
    intro i hi hcond
    apply byteAt_writeList_outside _ _ _ _ hi
    rw [le32_length]
    exact hcond
  have hmk7 : readRaw (writeList o6.data st.next_ifd_offset_out_offset
      (le32 0)) 50 28 = hintHead ++ fmt06 st.out.pos ++ hintTail := by
    rw [readRaw_congr o6.data _ 50 28 (by omega) (by rw [hlen7]; omega)
      (fun j hj => hfr7 (50 + j) (by omega)
        (by rcases hnor with hp | hp
            · right; omega
            · left; omega))]
    exact hmk6
  have hch7 : ChainInv (writeList o6.data st.next_ifd_offset_out_offset
      (le32 0)) 4 (st.ifds.zip st.recs) st.next_ifd_offset_out_offset := by
    apply chainInv_frame _ _ _ hch6
    intro a b hcell
    obtain ⟨f2, f3, f4, f5⟩ := hcellFacts a b hcell
    apply readRaw_congr o6.data _ a b (by omega) (by rw [hlen7]; omega)
    intro j hj
    exact hfr7 (a + j) (by omega) (Or.inl (by omega))
  have hzero7 : readRaw (writeList o6.data st.next_ifd_offset_out_offset
      (le32 0)) st.next_ifd_offset_out_offset 4 = le32 0 := by
    rw [show (4 : Nat) = (le32 0).length from rfl]
    exact readRaw_writeList_self _ _ _
  obtain ⟨v, hv, hwalkOut⟩ :=
    walkChain_of_chain (st.ifds.zip st.recs) 4 _ hch7 hzero7
  have hi2len : i2.length = st.ifds.length := by
    have hx := congrArg List.length hmap2
    simpa using hx
  have hLlen : (st.ifds.zip st.recs).length = i4.length := by
    rw [List.length_zip]
    omega
  rw [hLlen] at hwalkOut
  subst hr
  refine ⟨?_, ?_, ?_, ?_, ?_⟩
  · exact hmk7
  · show st.out.pos ≤ o3.pos
    omega
  · show (rd32 (readRaw inp 4 4) >>= walkChain inp (fuel + 1))
      = Except.ok i4.length
    rw [hnio, except_bind_ok, hwalk]
    rw [show i4.length = k from by omega]
  · show (rd32 (readRaw (writeList o6.data st.next_ifd_offset_out_offset
      (le32 0)) 4 4) >>= walkChain (writeList o6.data
        st.next_ifd_offset_out_offset (le32 0)) (i4.length + 1))
      = Except.ok i4.length
    rw [hv, except_bind_ok]
    exact hwalkOut
  · exact hzero7

/-! ### Claim C1 -/

/-- Claim C1 (corrected): after the directory pass completes, the
fixed-width metadata-size marker at output bytes 50-77 is back-patched with
the zero-padded decimal rendering of the output size at the end of the
directory pass, it keeps exactly the placeholder width, and it survives
unchanged to the final file; this value is at most the first pixel-payload
offset, but it is the offset where the strile arrays and the remaining
directory metadata begin, not the offset immediately preceding the first
pixel-payload byte. -/
theorem claim_C1 :
    ∀ inp d fuel r, generate_optimized_file inp d fuel = Except.ok r →
      readRaw r.out.data 50 28 = hintHead ++ fmt06 r.hintValue ++ hintTail ∧
      (hintHead ++ fmt06 r.hintValue ++ hintTail).length
        = dummy_metadata_hint.length ∧
      r.hintValue ≤ r.pixelStart := by
  intro inp d fuel r h
  obtain ⟨h1, h2, _⟩ := generate_master h
  refine ⟨h1, ?_, h2⟩
  obtain ⟨hsig, nio, st, hnio, hp1, hfin⟩ := generate_ok_inv h
  obtain ⟨i2, o2, o3, i3, o4, i4, o5, o6, hlen, _, _, _, _, _, hr⟩ :=
    finishFile_ok_inv hfin
  have hhv : r.hintValue = st.out.pos := by rw [hr]
  rw [hhv]
  exact hlen

/-- Counterexample to the literal C1: on `inputA` the marker is patched
with 108, the end of the directory pass, while the first pixel-payload
byte offset is 140 — the bytes in between are strile arrays, still
metadata, so the patched value does not equal the offset immediately
preceding the first pixel-payload byte. -/
theorem claim_C1_counterexample :
    genOk inputA false 2 = true ∧
    genHintValue inputA false 2 = 108 ∧
    genPixelStart inputA false 2 = 140 ∧
    readRaw (genData inputA false 2) 50 28
      = hintHead ++ fmt06 108 ++ hintTail ∧
    ¬ genHintValue inputA false 2 = genPixelStart inputA false 2 := by
  refine ⟨by decide, by decide, by decide, by decide, by decide⟩

/-- Witness for C1: a full concrete run on `inputA` satisfying the
corrected statement. -/
theorem claim_C1_witness :
    ∃ r, generate_optimized_file inputA false 2 = Except.ok r ∧
      readRaw r.out.data 50 28 = hintHead ++ fmt06 r.hintValue ++ hintTail ∧
      (hintHead ++ fmt06 r.hintValue ++ hintTail).length
        = dummy_metadata_hint.length ∧
      r.hintValue ≤ r.pixelStart := by
  cases hg : generate_optimized_file inputA false 2 with
  | error e =>
    have h1 : genOk inputA false 2 = true := by decide
    unfold genOk at h1
    rw [hg] at h1
    simp at h1
  | ok r =>
    exact ⟨r, rfl, claim_C1 inputA false 2 r hg⟩

/-! ### Claim C7 -/

/-- Claim C7: for every input whose run succeeds, the number of
directories written to the output chain equals the number of directories
in the input chain (both counted by the chain walker), traversal of the
output chain terminates in exactly that many steps without a cycle, and
the last next-directory pointer is patched to zero. -/
theorem claim_C7 :
    ∀ inp d fuel r, generate_optimized_file inp d fuel = Except.ok r →
      walkFile inp (fuel + 1) = Except.ok r.ifds.length ∧
      walkFile r.out.data (r.ifds.length + 1) = Except.ok r.ifds.length ∧
      readRaw r.out.data r.lastPtrPos 4 = le32 0 := by
  intro inp d fuel r h
  obtain ⟨_, _, h3, h4, h5⟩ := generate_master h
  exact ⟨h3, h4, h5⟩

/-- Witness for C7: a two-directory input; both the input and the output
chains count two records, and the final pointer cell holds zero. -/
theorem claim_C7_witness :
    ∃ r, generate_optimized_file inputC true 3 = Except.ok r ∧
      walkFile inputC 4 = Except.ok r.ifds.length ∧
      walkFile r.out.data (r.ifds.length + 1) = Except.ok r.ifds.length ∧
      readRaw r.out.data r.lastPtrPos 4 = le32 0 := by
  cases hg : generate_optimized_file inputC true 3 with
  | error e =>
    have h1 : genOk inputC true 3 = true := by decide
    unfold genOk at h1
    rw [hg] at h1
    simp at h1
  | ok r =>
    exact ⟨r, rfl, claim_C7 inputC true 3 r hg⟩

end NTv2
